import Mathlib

/-!
Verification development for the mcp-logseq core: the Logseq block
parser/serializer (block-parser.ts), the block-reference extractor/resolver
(block-ref.ts) and the block search service (search.ts).

Strings are modelled as lists of characters (`Str`). JavaScript regular
expressions are translated into executable character-list scanners that
follow the source regexes step by step. Randomness (`uuidv4`) is modelled
by an explicit generator parameter `gen : Nat → Str`, consulted exactly
where the source calls `uuidv4()`. File input/output is out of scope: the
search service receives its corpus (traversal order included) and the
path-filter collaborator as parameters. The task marker and priority
fields and the `sourcePath` stamp of a block are carried verbatim by the
source and never influence any verified property; they are omitted from
the block model. Numeric property values are represented by their trimmed
source literal (JavaScript float re-formatting is out of scope and no
verified property depends on numeric property values).
-/

set_option maxRecDepth 10000

namespace McpLogseq

abbrev Str := List Char

/-- ASCII fragment of the JavaScript whitespace class used by trim and by
the whitespace pieces of the source regexes. -/
def isWs (c : Char) : Bool :=
  c = ' ' || c = '\t' || c = '\n' || c = '\r' || c = Char.ofNat 11 || c = Char.ofNat 12

/-- JavaScript String.prototype.trim (leading part). -/
def trimStart (s : Str) : Str := s.dropWhile isWs

/-- JavaScript String.prototype.trim (trailing part). -/
def trimEnd (s : Str) : Str := (s.reverse.dropWhile isWs).reverse

/-- JavaScript String.prototype.trim. -/
def trimJs (s : Str) : Str := trimEnd (trimStart s)

/-- content.split of a newline: the pieces of a string between newline
characters, with empty pieces kept, as in JavaScript split. -/
def splitNl : Str → List Str
  | [] => [[]]
  | c :: rest =>
    if c = '\n' then [] :: splitNl rest
    else
      match splitNl rest with
      | [] => [[c]]
      | l :: ls => (c :: l) :: ls

/-- lines.join of a newline, as in JavaScript join. -/
def joinNl : List Str → Str
  | [] => []
  | [l] => l
  | l :: ls => l ++ '\n' :: joinNl ls

/-- ASCII lowercasing of one character (JavaScript toLowerCase on the
ASCII range, the only range the verified inputs use). -/
def toLowerChar (c : Char) : Char :=
  if 65 ≤ c.toNat ∧ c.toNat ≤ 90 then Char.ofNat (c.toNat + 32) else c

def toLowerStr (s : Str) : Str := s.map toLowerChar

/-- Case-insensitive equality of characters, as the regex flag i compares. -/
def ciEqChar (a b : Char) : Bool := toLowerChar a = toLowerChar b

/-- Hex digit of either case, the class [0-9a-f] under the i flag. -/
def isHexCI (c : Char) : Bool :=
  decide ((48 ≤ c.toNat ∧ c.toNat ≤ 57) ∨ (97 ≤ c.toNat ∧ c.toNat ≤ 102) ∨
    (65 ≤ c.toNat ∧ c.toNat ≤ 70))

/-- Consume exactly n hex digits (case-insensitive); returns them and the rest. -/
def takeHexCI : Nat → Str → Option (Str × Str)
  | 0, s => some ([], s)
  | _ + 1, [] => none
  | n + 1, c :: rest =>
    if isHexCI c then (takeHexCI n rest).map (fun p => (c :: p.1, p.2)) else none

def expectDash : Str → Option Str
  | '-' :: r => some r
  | _ => none

/-- Consume one 8-4-4-4-12 UUID (case-insensitive hex) from the front of the
string; returns the 36 consumed characters (verbatim) and the rest. This is
the shared core of UUID_REGEX of block-parser.ts and of the capture group of
BLOCK_REF_REGEX of block-ref.ts. -/
def consumeUuid (s : Str) : Option (Str × Str) := do
  let (a, r1) ← takeHexCI 8 s
  let r2 ← expectDash r1
  let (b, r3) ← takeHexCI 4 r2
  let r4 ← expectDash r3
  let (c, r5) ← takeHexCI 4 r4
  let r6 ← expectDash r5
  let (d, r7) ← takeHexCI 4 r6
  let r8 ← expectDash r7
  let (e, r9) ← takeHexCI 12 r8
  return (a ++ '-' :: b ++ '-' :: c ++ '-' :: d ++ '-' :: e, r9)

/-- UUID_REGEX.test of block-parser.ts (and isValidBlockUuid of block-ref.ts):
anchored, case-insensitive 8-4-4-4-12 UUID. -/
def uuidTestCI (s : Str) : Bool :=
  match consumeUuid s with
  | some (_, r) => r.isEmpty
  | none => false

/-- The spec wording: a 36-character lowercase UUID. -/
def isLowerUuid (s : Str) : Bool := uuidTestCI s && decide (toLowerStr s = s)

/-- One BLOCK_REF_REGEX match attempt at the head of the string: the token
grammar (( uuid )). Returns the captured uuid characters (original casing)
and the rest after the token. -/
def tokenAt : Str → Option (Str × Str)
  | '(' :: '(' :: rest =>
    match consumeUuid rest with
    | some (u, ')' :: ')' :: r) => some (u, r)
    | _ => none
  | _ => none

/-- createBlockRef of block-ref.ts. -/
def createBlockRef (u : Str) : Str := '(' :: '(' :: u ++ [')', ')']

/-- A segment of text under the global BLOCK_REF_REGEX scan: a literal
character or one reference token with its captured uuid (original casing). -/
inductive Seg : Type where
  | lit : Char → Seg
  | tok : Str → Seg
deriving DecidableEq, Repr

/-- The left-to-right global scan of BLOCK_REF_REGEX (fuel recursion; the
fuel is the string length, sufficient because a match consumes characters). -/
def splitRefsF : Nat → Str → List Seg
  | 0, _ => []
  | _ + 1, [] => []
  | fuel + 1, c :: rest =>
    match tokenAt (c :: rest) with
    | some (u, r) => .tok u :: splitRefsF fuel r
    | none => .lit c :: splitRefsF fuel rest

def splitRefs (s : Str) : List Seg := splitRefsF s.length s

/-- Rebuild the exact source text of a segment list. -/
def joinSegs : List Seg → Str
  | [] => []
  | .lit c :: rest => c :: joinSegs rest
  | .tok u :: rest => createBlockRef u ++ joinSegs rest

/-- Replace every token segment by the choice function, keeping literal
characters: the shape of one global regex replace pass. -/
def renderWith (f : Str → Str) : List Seg → Str
  | [] => []
  | .lit c :: rest => c :: renderWith f rest
  | .tok u :: rest => f u ++ renderWith f rest

/-- First-occurrence deduplication, as the JavaScript Set preserves
insertion order. -/
def dedupFirst : List Str → List Str
  | [] => []
  | u :: rest => u :: (dedupFirst rest).filter (· ≠ u)

def tokensOf (segs : List Seg) : List Str :=
  segs.filterMap (fun s => match s with | .tok u => some u | .lit _ => none)

/-- extractBlockRefs of block-ref.ts: run the global scan on a fresh regex,
collect each captured uuid lowercased, keep first occurrences. -/
def extractBlockRefs (s : Str) : List Str :=
  dedupFirst ((tokensOf (splitRefs s)).map toLowerStr)

/-- First position (counting from the front of the given string) where a
token match begins. -/
def findTok : Str → Option Nat
  | [] => none
  | c :: rest =>
    match tokenAt (c :: rest) with
    | some _ => some 0
    | none => (findTok rest).map (· + 1)

/-- First token match position at or after the given start position. -/
def findTokFrom (s : Str) (start : Nat) : Option Nat :=
  (findTok (s.drop start)).map (· + start)

/-- hasBlockRef of block-ref.ts. BLOCK_REF_REGEX is a module-level global
regex, so test reads and writes its lastIndex: the search starts at the
stored lastIndex; on success lastIndex becomes the match end, on failure it
resets to zero. The pair is (returned boolean, new lastIndex). -/
def hasBlockRef (lastIndex : Nat) (s : Str) : Bool × Nat :=
  if s.length < lastIndex then (false, 0)
  else
    match findTokFrom s lastIndex with
    | some p => (true, p + 40)
    | none => (false, 0)

/-- The block node produced by the parser (block-parser.ts, LogseqBlock of
types.ts). Property values: string, number (kept as its trimmed literal) or
boolean. Task metadata and sourcePath are carried verbatim by the source and
omitted here. -/
inductive PropVal : Type where
  | str : Str → PropVal
  | num : Str → PropVal
  | bool : Bool → PropVal
deriving DecidableEq, Repr

abbrev Props := List (Str × PropVal)

inductive Block : Type where
  | mk : Str → Str → Nat → Props → List Block → Option Str → Block

def Block.uuid : Block → Str
  | .mk u _ _ _ _ _ => u

def Block.content : Block → Str
  | .mk _ c _ _ _ _ => c

def Block.level : Block → Nat
  | .mk _ _ l _ _ _ => l

def Block.properties : Block → Props
  | .mk _ _ _ p _ _ => p

def Block.children : Block → List Block
  | .mk _ _ _ _ ks _ => ks

def Block.parentUuid : Block → Option Str
  | .mk _ _ _ _ _ pu => pu

/-- The per-token choice of resolveBlockRefs: the looked-up block's content
when the lookup hits, the original token rebuilt from the captured uuid when
it misses. -/
def syncChoice (resolveUuid : Str → Option Block) (u : Str) : Str :=
  match resolveUuid u with
  | some b => b.content
  | none => createBlockRef u

/-- The single replace pass of resolveBlockRefs of block-ref.ts with its
function replacer, scanning left to right (fuel recursion on the string
length). The callback receives the captured uuid in its original casing and
its return value is inserted verbatim (function replacers are not subject
to dollar substitution). -/
def resolveRefsF (f : Str → Option Block) : Nat → Str → Str
  | 0, _ => []
  | _ + 1, [] => []
  | fuel + 1, c :: rest =>
    match tokenAt (c :: rest) with
    | some (u, r) => syncChoice f u ++ resolveRefsF f fuel r
    | none => c :: resolveRefsF f fuel rest

/-- resolveBlockRefs of block-ref.ts. -/
def resolveBlockRefs (s : Str) (resolveUuid : Str → Option Block) : Str :=
  resolveRefsF resolveUuid s.length s

/-- JavaScript dollar substitution applied to a string replacement:
dollar-dollar, dollar-ampersand (the match), dollar-backquote (the part
before the match) and dollar-quote (the part after); anything else after a
dollar stays literal (the replacement regex of resolveBlockRefsAsync has no
capture groups, so digit references also stay literal). -/
def dollarSubst : Str → Str → Str → Str → Str
  | [], _, _, _ => []
  | [c], _, _, _ => [c]
  | c :: d :: rest, m, pre, post =>
    if c = '$' then
      if d = '$' then '$' :: dollarSubst rest m pre post
      else if d = '&' then m ++ dollarSubst rest m pre post
      else if d = Char.ofNat 96 then pre ++ dollarSubst rest m pre post
      else if d = Char.ofNat 39 then post ++ dollarSubst rest m pre post
      else '$' :: d :: dollarSubst rest m pre post
    else c :: dollarSubst (d :: rest) m pre post

/-- Strip a case-insensitively matching copy of pat from the front of s,
returning the matched original characters and the rest. -/
def ciStrip : Str → Str → Option (Str × Str)
  | [], s => some ([], s)
  | _ :: _, [] => none
  | p :: ps, c :: rest =>
    if ciEqChar p c then (ciStrip ps rest).map (fun q => (c :: q.1, q.2)) else none

/-- One global case-insensitive replace of the literal pattern pat by the
string replacement repl (dollar substitution applied), scanning left to
right. pre is the already consumed text, for dollar-backquote. Fuel
recursion on the string length. -/
def replaceAllCIF (pat repl : Str) : Nat → Str → Str → Str
  | 0, _, _ => []
  | _ + 1, _, [] => []
  | fuel + 1, pre, c :: rest =>
    match ciStrip pat (c :: rest) with
    | some (m, r) => dollarSubst repl m pre r ++ replaceAllCIF pat repl fuel (pre ++ m) r
    | none => c :: replaceAllCIF pat repl fuel (pre ++ [c]) rest

def replaceAllCI (s pat repl : Str) : Str := replaceAllCIF pat repl s.length [] s

/-- Wrapper of the replace scan with the fuel fixed to the remaining length
(the form the lemmas below work with). -/
def replaceAllAux (pat repl pre s : Str) : Str := replaceAllCIF pat repl s.length pre s

/-- Acceptance of a string by the anchored uuid matcher, stated in its
append-stable form. -/
def uuidAccept (u : Str) : Prop := ∀ t, consumeUuid (u ++ t) = some (u, t)

/-- resolveBlockRefsAsync of block-ref.ts: extract the distinct lowercased
reference uuids in first-seen order, then for each one in turn replace every
case-insensitive occurrence of its token throughout the working text with
the looked-up block content (a string replacement, hence dollar
substitution) or with the lowercase token when the lookup misses. The
awaited lookup is modelled as a pure function. -/
def resolveBlockRefsAsync (s : Str) (resolveUuid : Str → Option Block) : Str :=
  (extractBlockRefs s).foldl
    (fun acc u =>
      replaceAllCI acc (createBlockRef u)
        (match resolveUuid u with
         | some b => b.content
         | none => createBlockRef u))
    s

/-! ## The outline parser and serializer (block-parser.ts) -/

/-- The character class [a-zA-Z0-9_-] of PROPERTY_REGEX. -/
def isPropKeyChar (c : Char) : Bool :=
  decide ((65 ≤ c.toNat ∧ c.toNat ≤ 90) ∨ (97 ≤ c.toNat ∧ c.toNat ≤ 122) ∨
    (48 ≤ c.toNat ∧ c.toNat ≤ 57)) || c = '_' || c = '-'

/-- PROPERTY_REGEX applied to an already trimmed line: a nonempty key from
the allowed class, two colons, optional whitespace, then the value verbatim
to end of line. -/
def propMatch (s : Str) : Option (Str × Str) :=
  let key := s.takeWhile isPropKeyChar
  match key, s.dropWhile isPropKeyChar with
  | [], _ => none
  | _, ':' :: ':' :: v => some (key, v.dropWhile isWs)
  | _, _ => none

def isDigit (c : Char) : Bool := decide (48 ≤ c.toNat ∧ c.toNat ≤ 57)

/-- The numeric literal test of parsePropertyValue: -?digits(.digits)? . -/
def isNumLit (s : Str) : Bool :=
  let t := match s with | '-' :: r => r | _ => s
  let d1 := t.takeWhile isDigit
  match t.dropWhile isDigit with
  | [] => !d1.isEmpty
  | '.' :: ds => !d1.isEmpty && !ds.isEmpty && ds.all isDigit
  | _ => false

/-- parsePropertyValue of block-parser.ts; a number keeps its trimmed
literal (see the header note). -/
def parsePropertyValue (v : Str) : PropVal :=
  let t := trimJs v
  if t = "true".toList then .bool true
  else if t = "false".toList then .bool false
  else if isNumLit t then .num t
  else .str t

/-- The block start regex (tab-only indentation): zero or more tabs, a
hyphen, at least one whitespace character, then the content. -/
def bulletMatch (line : Str) : Option (Nat × Str) :=
  let tl := line.takeWhile (· = '\t')
  match line.dropWhile (· = '\t') with
  | '-' :: c :: rest => if isWs c then some (tl.length, (c :: rest).dropWhile isWs) else none
  | _ => none

def countTabs (line : Str) : Nat := (line.takeWhile (· = '\t')).length

/-- JavaScript object assignment properties[key] = value: overwrite in
place, else append (insertion order preserved). -/
def setProp (ps : Props) (k : Str) (v : PropVal) : Props :=
  if ps.any (fun p => p.1 == k) then ps.map (fun p => if p.1 == k then (k, v) else p)
  else ps ++ [(k, v)]

def getProp (ps : Props) (k : Str) : Option PropVal :=
  (ps.find? (fun p => p.1 == k)).map (·.2)

def removeProp (ps : Props) (k : Str) : Props := ps.filter (fun p => !(p.1 == k))

def idKey : Str := "id".toList

structure RawItem where
  level : Nat
  content : Str
  properties : Props
deriving DecidableEq, Repr

/-- The property consumption loop of parseBlocks: consume following lines
while they are deeper (in tabs) property lines; stop at the first nonblank
line at the block level or shallower, or at any line that is not a deeper
property line. -/
def takeProps (level : Nat) : Props → List Str → Props × List Str
  | acc, [] => (acc, [])
  | acc, next :: rest =>
    if countTabs next ≤ level ∧ ¬(trimJs next).isEmpty then (acc, next :: rest)
    else
      match propMatch (trimJs next) with
      | some kv =>
        if level < countTabs next then
          takeProps level (setProp acc kv.1 (parsePropertyValue kv.2)) rest
        else (acc, next :: rest)
      | none => (acc, next :: rest)

/-- The line loop of parseBlocks (fuel recursion; the property loop only
consumes lines, so the number of lines is sufficient fuel). -/
def parseItemsF : Nat → List Str → List RawItem
  | 0, _ => []
  | _ + 1, [] => []
  | fuel + 1, line :: rest =>
    match bulletMatch line with
    | some lc =>
      let pr := takeProps lc.1 [] rest
      ⟨lc.1, trimJs lc.2, pr.1⟩ :: parseItemsF fuel pr.2
    | none => parseItemsF fuel rest

def parseItems (lines : List Str) : List RawItem := parseItemsF lines.length lines

def addChild (p : Block) (c : Block) : Block :=
  match p with
  | .mk u ct lv ps ks pu => .mk u ct lv ps (ks ++ [c]) pu

/-- Pop continuation of buildBlockTree: the block c has just been popped;
fold it into the stack entry below it (or into the root list at the
bottom), continuing to pop entries whose level is at least the given level.
Attaching at pop time is the functional reading of the child-array
mutation: a block's child list is complete exactly when it leaves the
stack. -/
def popCarry (level : Nat) (c : Block) : List Block → List Block → List Block × List Block
  | [], roots => ([], roots ++ [c])
  | p :: ps, roots =>
    let p2 := addChild p c
    if level ≤ p2.level then popCarry level p2 ps roots
    else (p2 :: ps, roots)

def popGE (level : Nat) (stack roots : List Block) : List Block × List Block :=
  match stack with
  | [] => ([], roots)
  | b :: rest =>
    if level ≤ b.level then popCarry level b rest roots else (b :: rest, roots)

/-- The identifier rule of buildBlockTree: a string id property passing
UUID_REGEX supplies the uuid verbatim, anything else consults the
generator (uuidv4) and advances it. -/
def itemUuid (gen : Nat → Str) (n : Nat) (ps : Props) : Str × Nat :=
  match getProp ps idKey with
  | some (.str s) => if uuidTestCI s then (s, n) else (gen n, n + 1)
  | _ => (gen n, n + 1)

structure BuildSt where
  stack : List Block
  roots : List Block
  counter : Nat

/-- One iteration of the buildBlockTree loop. -/
def buildStep (gen : Nat → Str) (st : BuildSt) (it : RawItem) : BuildSt :=
  let un := itemUuid gen st.counter it.properties
  let pr := popGE it.level st.stack st.roots
  let pu := pr.1.head?.map Block.uuid
  ⟨Block.mk un.1 it.content it.level (removeProp it.properties idKey) [] pu :: pr.1,
    pr.2, un.2⟩

/-- buildBlockTree of block-parser.ts. -/
def buildBlockTree (gen : Nat → Str) (items : List RawItem) : List Block :=
  let fin := items.foldl (buildStep gen) ⟨[], [], 0⟩
  (popGE 0 fin.stack fin.roots).2

/-- parseBlocks of block-parser.ts. -/
def parseBlocks (gen : Nat → Str) (content : Str) : List Block :=
  buildBlockTree gen (parseItems (splitNl content))

mutual

/-- Pre-order traversal of one block (flattenBlocks visit). -/
def flattenBlock : Block → List Block
  | .mk u c lv ps ks pu => .mk u c lv ps ks pu :: flattenBlocks ks

/-- flattenBlocks of block-parser.ts. -/
def flattenBlocks : List Block → List Block
  | [] => []
  | b :: bs => flattenBlock b ++ flattenBlocks bs

end

/-- findBlockByUuid of block-parser.ts. -/
def findBlockByUuid (blocks : List Block) (u : Str) : Option Block :=
  (flattenBlocks blocks).find? (fun b => b.uuid == u)

def showPropVal : PropVal → Str
  | .str s => s
  | .num s => s
  | .bool true => "true".toList
  | .bool false => "false".toList

def propLine (k : Str) (v : PropVal) : Str := k ++ ':' :: ':' :: ' ' :: showPropVal v

def tabs (n : Nat) : Str := List.replicate n '\t'

mutual

/-- The serializeBlocks visit: the bullet line, then the id property line,
then one line per property, each at indent + 1, then the children. -/
def serLines : Block → Nat → List Str
  | .mk u c _ ps ks _, indent =>
    (tabs indent ++ '-' :: ' ' :: trimJs c)
      :: ((if u.isEmpty then [] else [propLine idKey (.str u)])
            ++ ps.map (fun p => propLine p.1 p.2)).map (fun l => tabs (indent + 1) ++ l)
      ++ serLinesList ks (indent + 1)

def serLinesList : List Block → Nat → List Str
  | [], _ => []
  | b :: bs, indent => serLines b indent ++ serLinesList bs indent

end

/-- serializeBlocks of block-parser.ts. -/
def serializeBlocks (blocks : List Block) : Str := joinNl (serLinesList blocks 0)

/-! ## The search service (search.ts) -/

structure SearchParams where
  query : Str
  limit : Option Int
  searchContent : Option Bool
  searchFrontmatter : Option Bool
  searchBlockProperties : Option Bool
  caseSensitive : Option Bool

/-- One corpus file, already listed by the directory-traversal collaborator
with its path relative to the graph root. -/
structure SFile where
  path : Str
  raw : Str

/-- BlockSearchResult of types.ts. -/
structure BRes where
  p : Str
  t : Str
  uuid : Option Str
  ex : Str
  mc : Nat
  ln : Option Nat
deriving DecidableEq, Repr

/-- JavaScript String.indexOf: first occurrence position. -/
def indexOfStr (hay needle : Str) : Option Nat :=
  if needle.isPrefixOf hay then some 0
  else
    match hay with
    | [] => none
    | _ :: t => (indexOfStr t needle).map (· + 1)

/-- The non-overlapping occurrence count loop of the search service (fuel
recursion; the needle is nonempty whenever the loop runs). -/
def countOccF : Nat → Str → Str → Nat
  | 0, _, _ => 0
  | fuel + 1, hay, q =>
    match indexOfStr hay q with
    | none => 0
    | some i => 1 + countOccF fuel (hay.drop (i + q.length)) q

def countOcc (hay q : Str) : Nat := countOccF (hay.length + 1) hay q

def hexDigitCh (n : Nat) : Char := if n < 10 then Char.ofNat (48 + n) else Char.ofNat (87 + n)

def escJsonChar (c : Char) : Str :=
  if c = '"' then ['\\', '"']
  else if c = '\\' then ['\\', '\\']
  else if c = '\n' then ['\\', 'n']
  else if c = '\r' then ['\\', 'r']
  else if c = '\t' then ['\\', 't']
  else if c = Char.ofNat 8 then ['\\', 'b']
  else if c = Char.ofNat 12 then ['\\', 'f']
  else if c.toNat < 32 then
    '\\' :: 'u' :: '0' :: '0' :: hexDigitCh (c.toNat / 16) :: [hexDigitCh (c.toNat % 16)]
  else [c]

def jsonStr (s : Str) : Str := '"' :: s.foldr (fun c acc => escJsonChar c ++ acc) ['"']

def jsonVal : PropVal → Str
  | .str s => jsonStr s
  | .num s => s
  | .bool true => "true".toList
  | .bool false => "false".toList

def lbrace : Char := Char.ofNat 123

def rbrace : Char := Char.ofNat 125

/-- JSON.stringify of the properties object. -/
def jsonProps (ps : Props) : Str :=
  lbrace :: List.intercalate [','] (ps.map (fun p => jsonStr p.1 ++ ':' :: jsonVal p.2)) ++ [rbrace]

/-- The text a block is matched against: content, a space, and the
serialized properties. -/
def blockText (b : Block) : Str := b.content ++ ' ' :: jsonProps b.properties

def splitOnChar (ch : Char) : Str → List Str
  | [] => [[]]
  | c :: rest =>
    if c = ch then [] :: splitOnChar ch rest
    else
      match splitOnChar ch rest with
      | [] => [[c]]
      | l :: ls => (c :: l) :: ls

def dotMd : Str := ".md".toList

def stripMd (s : Str) : Str := if dotMd.isSuffixOf s then s.take (s.length - 3) else s

/-- The derived title: last path segment with a .md suffix removed. -/
def titleOf (p : Str) : Str := stripMd ((splitOnChar '/' p).getLastD p)

/-- The frontmatter split regex of the search service: the file must start
with a dash fence line, the (lazily matched, hence first) closing fence
follows; returns (frontmatter, body). -/
def fmSplit (raw : Str) : Str × Str :=
  if ("---\n".toList).isPrefixOf raw then
    match indexOfStr (raw.drop 4) ("\n---\n".toList) with
    | some n => ((raw.drop 4).take n, raw.drop (4 + n + 5))
    | none => ([], raw)
  else ([], raw)

def dots : Str := "...".toList

/-- The block excerpt: at most about 42 characters centered on the first
occurrence of the original-case query inside the block content, with
ellipses at cut ends, falling back to the leading 42 characters when the
trimmed slice is empty. -/
def excerptOf (content query : Str) : Str :=
  let bi : Int := match indexOfStr content query with | some i => (i : Int) | none => -1
  let st : Int := max 0 (bi - 21)
  let en : Int := min (content.length : Int) (bi + (query.length : Int) + 21)
  let e0 := trimJs ((content.take en.toNat).drop st.toNat)
  let e1 := if 0 < st then dots ++ e0 else e0
  let e2 := if en < (content.length : Int) then e1 ++ dots else e1
  if e2.isEmpty then content.take 42 else e2

def csOf (ps : SearchParams) : Bool := ps.caseSensitive.getD false

/-- The effective cap: the requested limit (default 5) clamped to 20. -/
def effLimit (ps : SearchParams) : Int := min (ps.limit.getD 5) 20

def qNorm (ps : SearchParams) : Str := if csOf ps then ps.query else toLowerStr ps.query

/-- The enabled-zone searchable text of one file. -/
def searchableOf (ps : SearchParams) (raw : Str) : Str :=
  if ps.searchContent.getD true && ps.searchFrontmatter.getD false &&
      ps.searchBlockProperties.getD true then raw
  else if ps.searchContent.getD true then (fmSplit raw).2
  else if ps.searchFrontmatter.getD false then (fmSplit raw).1
  else if ps.searchBlockProperties.getD true then (fmSplit raw).2
  else []

/-- The whole-file test: first match offset of the normalized query in the
normalized searchable text. -/
def fileIdx (ps : SearchParams) (raw : Str) : Option Nat :=
  indexOfStr (if csOf ps then searchableOf ps raw else toLowerStr (searchableOf ps raw))
    (qNorm ps)

def blockMatches (sq : Str) (cs : Bool) (b : Block) : Bool :=
  (indexOfStr (if cs then blockText b else toLowerStr (blockText b)) sq).isSome

/-- One block-level search result. -/
def mkBlockRes (relPath query sq : Str) (cs : Bool) (b : Block) : BRes :=
  ⟨relPath, titleOf relPath, some b.uuid, excerptOf b.content query,
    countOcc (if cs then blockText b else toLowerStr (blockText b)) sq, some 0⟩

/-- The per-file block loop, pushing one result per matching block and
stopping once the cap is reached. -/
def blockLoop (relPath query sq : Str) (cs : Bool) (maxLimit : Int) :
    List Block → List BRes → List BRes
  | [], acc => acc
  | b :: bs, acc =>
    if blockMatches sq cs b then
      if maxLimit ≤ ((acc ++ [mkBlockRes relPath query sq cs b]).length : Int) then
        acc ++ [mkBlockRes relPath query sq cs b]
      else blockLoop relPath query sq cs maxLimit bs (acc ++ [mkBlockRes relPath query sq cs b])
    else blockLoop relPath query sq cs maxLimit bs acc

/-- The file-level fallback result, with the line number obtained by
splitting the text before the match offset on newlines. -/
def fileRes (relPath searchable : Str) (idx qlen : Nat) : BRes :=
  let st : Int := max 0 ((idx : Int) - 21)
  let en : Int := min (searchable.length : Int) ((idx : Int) + (qlen : Int) + 21)
  let e0 := trimJs ((searchable.take en.toNat).drop st.toNat)
  let e1 := if 0 < st then dots ++ e0 else e0
  let e2 := if en < (searchable.length : Int) then e1 ++ dots else e1
  ⟨relPath, titleOf relPath, none, e2, 1, some (splitNl (searchable.take idx)).length⟩

/-- Processing of one readable file of the scan: zone selection, whole-file
test, block loop, and the fallback that fires only when the global result
list is still empty. -/
def processFile (gen : Nat → Str) (ps : SearchParams) (acc : List BRes) (f : SFile) :
    List BRes :=
  match fileIdx ps f.raw with
  | none => acc
  | some idx =>
    if (blockLoop f.path ps.query (qNorm ps) (csOf ps) (effLimit ps)
          (flattenBlocks (parseBlocks gen (fmSplit f.raw).2)) acc).length = 0 then
      blockLoop f.path ps.query (qNorm ps) (csOf ps) (effLimit ps)
          (flattenBlocks (parseBlocks gen (fmSplit f.raw).2)) acc
        ++ [fileRes f.path (searchableOf ps f.raw) idx (qNorm ps).length]
    else
      blockLoop f.path ps.query (qNorm ps) (csOf ps) (effLimit ps)
        (flattenBlocks (parseBlocks gen (fmSplit f.raw).2)) acc

/-- The file loop of the search service: skip disallowed paths, stop the
whole scan at the cap, otherwise process the file. -/
def searchGo (allowed : Str → Bool) (gen : Nat → Str) (ps : SearchParams)
    (maxLimit : Int) : List SFile → List BRes → List BRes
  | [], acc => acc
  | f :: fs, acc =>
    if !allowed f.path then searchGo allowed gen ps maxLimit fs acc
    else if maxLimit ≤ (acc.length : Int) then acc
    else searchGo allowed gen ps maxLimit fs (processFile gen ps acc f)

def emptyQueryMsg : Str := "Search query cannot be empty".toList

/-- SearchService.search: the empty-query guard, then the capped scan over
the corpus in traversal order. -/
def search (allowed : Str → Bool) (gen : Nat → Str) (files : List SFile)
    (ps : SearchParams) : Except Str (List BRes) :=
  if (trimJs ps.query).isEmpty then .error emptyQueryMsg
  else .ok (searchGo allowed gen ps (effLimit ps) files [])

/-! ## Derived notions the verified properties are stated with -/

/-- A concrete well-formed generator standing in for uuidv4 in closed
evaluations (the verified statements never need distinct draws). -/
def genDefault : Nat → Str := fun _ => "00000000-0000-4000-8000-000000000000".toList

def countNl (s : Str) : Nat := s.countP (· = '\n')

/-- The child-independent data of one block: uuid, content, level and
properties. -/
structure BData where
  uuid : Str
  content : Str
  level : Nat
  properties : Props
deriving DecidableEq, Repr

def blockData (b : Block) : BData := ⟨b.uuid, b.content, b.level, b.properties⟩

/-- The per-item data buildBlockTree derives, with the generator threaded in
item order: the uuid (explicit or generated), content, level, and the
properties with the id property removed. -/
def annotItems (gen : Nat → Str) : Nat → List RawItem → List BData
  | _, [] => []
  | n, it :: rest =>
    let un := itemUuid gen n it.properties
    ⟨(itemUuid gen n it.properties).1, it.content, it.level, removeProp it.properties idKey⟩
      :: annotItems gen un.2 rest

mutual

/-- Parent-child level and back-reference invariant, recursively: every
child is strictly deeper than its parent and points back at it. -/
def blockOK : Block → Bool
  | .mk u _ lv _ ks _ => childrenOK u lv ks

def childrenOK (pu : Str) (plv : Nat) : List Block → Bool
  | [] => true
  | c :: cs => decide (plv < c.level) && c.parentUuid == some pu && blockOK c && childrenOK pu plv cs

end

def forestOK (bs : List Block) : Bool :=
  bs.all (fun b => b.parentUuid == none && blockOK b)

mutual

/-- All (parent level, child level) pairs of a forest, in pre-order. -/
def pcPairsB : Block → List (Nat × Nat)
  | .mk _ _ lv _ ks _ => pcPairsL lv ks

def pcPairsL (plv : Nat) : List Block → List (Nat × Nat)
  | [] => []
  | c :: cs => (plv, c.level) :: (pcPairsB c ++ pcPairsL plv cs)

end

def pcPairs : List Block → List (Nat × Nat)
  | [] => []
  | b :: bs => pcPairsB b ++ pcPairs bs

mutual

/-- The raw items the serialized text of a forest parses back into: one
item per block in pre-order, whose level is the recursion depth, whose
content is the stored content, and whose properties are the id property
followed by the stored properties. -/
def canonItems : Block → Nat → List RawItem
  | .mk u c _ ps ks _, d => ⟨d, c, (idKey, .str u) :: ps⟩ :: canonItemsL ks (d + 1)

def canonItemsL : List Block → Nat → List RawItem
  | [], _ => []
  | b :: bs, d => canonItems b d ++ canonItemsL bs d

end

def goodVal : PropVal → Bool
  | .str s =>
    trimJs s == s && s.all (fun c => !(c == '\n')) &&
      !(s == "true".toList) && !(s == "false".toList) && !isNumLit s
  | .num s => trimJs s == s && s.all (fun c => !(c == '\n')) && isNumLit s
  | .bool _ => true

def goodKey (k : Str) : Bool := !k.isEmpty && k.all isPropKeyChar

def goodProps (ps : Props) : Bool :=
  ps.all (fun p => goodKey p.1 && goodVal p.2) &&
    !(ps.any (fun p => p.1 == idKey)) &&
    decide (ps.map Prod.fst).Nodup

mutual

/-- The shape invariants parseBlocks guarantees and the serializer relies
on: a valid uuid, trimmed newline-free content, and well-formed properties,
recursively. -/
def goodB : Block → Bool
  | .mk u c _ ps ks _ =>
    uuidTestCI u && trimJs c == c && c.all (fun ch => !(ch == '\n')) &&
      goodProps ps && goodL ks

def goodL : List Block → Bool
  | [] => true
  | b :: bs => goodB b && goodL bs

end

/-- Every reference token of a segment list is written in lowercase. -/
def segsLower (segs : List Seg) : Bool :=
  segs.all (fun s => match s with | .tok u => toLowerStr u == u | .lit _ => true)

/-- The relation of a buildBlockTree stack entry to the entry below it:
strictly shallower and named by the entry's parent back-reference; the
bottom entry carries no parent. -/
def underOK (b : Block) : List Block → Bool
  | [] => b.parentUuid == none
  | p :: _ => decide (p.level < b.level) && b.parentUuid == some p.uuid

/-- The invariant of the buildBlockTree stack: every entry satisfies the
parent-child invariant for its already attached children and sits directly
on its parent. -/
def stackOK : List Block → Bool
  | [] => true
  | b :: rest => blockOK b && underOK b rest && stackOK rest

/-- The pre-order contribution of the pending build stack, bottom (oldest)
first: every entry's subtree as attached so far. -/
def stackFlat : List Block → List Block
  | [] => []
  | b :: rest => stackFlat rest ++ flattenBlock b

/-- The pre-order flattening of a build state: finished roots, then the
pending stack. -/
def preFlat (st : BuildSt) : List Block :=
  flattenBlocks st.roots ++ stackFlat st.stack

/-- A safe continuation for the property loop: empty, or led by a line no
property match accepts (every serialized bullet line qualifies). -/
def safeL (lines : List Str) : Prop :=
  ∀ h t, lines = h :: t → propMatch (trimJs h) = none

mutual

/-- The pre-order data of a forest with the stored levels replaced by the
recursion depth: what a serialize-then-reparse pass preserves. -/
def depthData : Block → Nat → List BData
  | .mk u c _ ps ks _, d => ⟨u, c, d, ps⟩ :: depthDataL ks (d + 1)

def depthDataL : List Block → Nat → List BData
  | [], _ => []
  | b :: bs, d => depthData b d ++ depthDataL bs d

end

/-! ## Theorems -/

/-- C8: a search whose query is absent, empty or whitespace-only is rejected
with the explicit empty-query error before any file of the corpus is
consulted (the result does not depend on the corpus), and no results are
returned. -/
theorem search_empty_query_rejected (allowed : Str → Bool) (gen : Nat → Str)
    (files : List SFile) (ps : SearchParams) (h : (trimJs ps.query).isEmpty) :
    search allowed gen files ps = .error emptyQueryMsg := by
  simp [search, h]

theorem search_empty_query_rejected_witness :
    search (fun _ => true) genDefault [⟨"a.md".toList, "- x".toList⟩]
      ⟨"  ".toList, none, none, none, none, none⟩ = .error emptyQueryMsg :=
  search_empty_query_rejected _ _ _ _ (by decide)

/-- C3: evaluating the parser at the spec scenario (id lines indented by two
spaces, resp. one tab plus two spaces). The structure matches the claim: one
root at level 0 with one child at level 1 whose parent reference is the
root's uuid. But both id lines are left unconsumed, because the parser
counts only tabs as indentation (zero, resp. one tab, is not deeper than the
block), so both uuids come from the generator instead of the id properties
and the property sets are empty. -/
theorem scenario_space_indented_ids (gen : Nat → Str) :
    parseBlocks gen
        ("- Parent block\n  id:: 11111111-1111-1111-1111-111111111111\n\t- Child block\n\t  id:: 22222222-2222-2222-2222-222222222222".toList)
      = [Block.mk (gen 0) ("Parent block".toList) 0 []
          [Block.mk (gen 1) ("Child block".toList) 1 [] [] (some (gen 0))] none] := by
  rfl

/-- C9: hasBlockRef reuses the module-level global regex, whose lastIndex
persists between calls. On a string consisting of exactly one well-formed
reference token, a call from the fresh state returns true and leaves
lastIndex 40; the immediately repeated call on the same string then returns
false. Two consecutive calls disagree, refuting determinism. -/
theorem hasBlockRef_stateful_cex :
    hasBlockRef 0 ("((11111111-1111-1111-1111-111111111111))".toList) = (true, 40) ∧
      hasBlockRef 40 ("((11111111-1111-1111-1111-111111111111))".toList) = (false, 0) := by
  constructor
  · decide
  · decide

/-- C1 counterexample: the forest parsed from a document that skips an
indentation level keeps the written levels (0 then 2), but serializing and
re-parsing yields levels 0 then 1, so depths are not reconstructed
identically. -/
theorem roundtrip_depths_cex :
    ((flattenBlocks (parseBlocks genDefault ("- a\n\t\t- b".toList))).map Block.level = [0, 2]) ∧
      ((flattenBlocks (parseBlocks genDefault
          (serializeBlocks (parseBlocks genDefault ("- a\n\t\t- b".toList))))).map Block.level
        = [0, 1]) ∧
      [0, 2] ≠ ([0, 1] : List Nat) := by
  refine ⟨by decide, by decide, by decide⟩

/-- C2 counterexample: in the forest parsed from the same level-skipping
document the only parent-child pair has levels (0, 2): the parent's level is
0, not 2 - 1. -/
theorem parent_depth_cex :
    pcPairs (parseBlocks genDefault ("- a\n\t\t- b".toList)) = [(0, 2)] ∧ (0 : Nat) ≠ 2 - 1 := by
  refine ⟨by decide, by decide⟩

/-- C4 counterexample: an id property whose hex digits are uppercase passes
the case-insensitive UUID_REGEX, so the parser adopts it verbatim: the
resulting identifier is neither freshly generated nor a lowercase UUID. -/
theorem uuid_lowercase_cex :
    (flattenBlocks (parseBlocks genDefault
        ("- b\n\tid:: AAAAAAAA-1111-1111-1111-111111111111".toList))).map Block.uuid
      = [("AAAAAAAA-1111-1111-1111-111111111111".toList)] ∧
      isLowerUuid ("AAAAAAAA-1111-1111-1111-111111111111".toList) = false := by
  refine ⟨by decide, by decide⟩

/-- C5 counterexample, two parts. First, the asynchronous resolver re-emits
an unresolved uppercase token lowercased, not byte-identically. Second, when
a looked-up content itself contains a reference token that also occurs in
the text, a later pass rewrites the substituted content: the first token
ends up as the second block's content, which is neither the first block's
content nor the original token, and the overall output differs from the one
output the claim mandates. -/
theorem resolve_async_cex :
    (resolveBlockRefsAsync ("((AAAAAAAA-1111-1111-1111-111111111111))".toList) (fun _ => none)
        = ("((aaaaaaaa-1111-1111-1111-111111111111))".toList) ∧
      ("((aaaaaaaa-1111-1111-1111-111111111111))".toList)
        ≠ ("((AAAAAAAA-1111-1111-1111-111111111111))".toList)) ∧
      (resolveBlockRefsAsync
          ("((aaaaaaaa-aaaa-aaaa-aaaa-aaaaaaaaaaaa)) ((bbbbbbbb-bbbb-bbbb-bbbb-bbbbbbbbbbbb))".toList)
          (fun u =>
            if u = ("aaaaaaaa-aaaa-aaaa-aaaa-aaaaaaaaaaaa".toList) then
              some (.mk u ("((bbbbbbbb-bbbb-bbbb-bbbb-bbbbbbbbbbbb))".toList) 0 [] [] none)
            else if u = ("bbbbbbbb-bbbb-bbbb-bbbb-bbbbbbbbbbbb".toList) then
              some (.mk u ("X".toList) 0 [] [] none)
            else none)
        = ("X X".toList) ∧
        ("X X".toList) ≠ ("((bbbbbbbb-bbbb-bbbb-bbbb-bbbbbbbbbbbb)) X".toList)) := by
  refine ⟨⟨by decide, by decide⟩, by decide, by decide⟩

/-- C7 counterexample: a corpus of two files, the first containing a
matching block, the second containing the query only in plain (non-block)
text. The second file's whole-file test succeeds and none of its blocks
match, yet no file-level result is emitted for it, because a block-level
result from the earlier file already made the global result list nonempty:
the scan returns exactly the one block-level result. -/
theorem file_fallback_cex :
    search (fun _ => true) genDefault
        [⟨"a.md".toList, "- hello query here".toList⟩,
         ⟨"b.md".toList, "query only in plain text".toList⟩]
        ⟨"query".toList, none, none, none, none, none⟩
      = .ok [⟨"a.md".toList, "a".toList, some ("00000000-0000-4000-8000-000000000000".toList),
          "hello query here".toList, 1, some 0⟩] := by
  rfl

theorem blockLoop_bound (rp q sq : Str) (cs : Bool) (maxLimit : Int)
    (bs : List Block) (acc : List BRes) (h : (acc.length : Int) < maxLimit) :
    ((blockLoop rp q sq cs maxLimit bs acc).length : Int) ≤ maxLimit := by
  induction bs generalizing acc with
  | nil => simpa [blockLoop] using le_of_lt h
  | cons b bs ih =>
    simp only [blockLoop]
    split
    · split
      · rename_i hge
        simp only [List.length_append, List.length_cons, List.length_nil] at hge ⊢
        omega
      · refine ih _ ?_
        rename_i hlt
        simp only [List.length_append, List.length_cons, List.length_nil] at hlt ⊢
        omega
    · exact ih _ h

theorem processFile_bound (gen : Nat → Str) (ps : SearchParams) (acc : List BRes)
    (f : SFile) (h : (acc.length : Int) < effLimit ps) :
    ((processFile gen ps acc f).length : Int) ≤ effLimit ps := by
  simp only [processFile]
  split
  · exact le_of_lt h
  · have hb := blockLoop_bound f.path ps.query (qNorm ps) (csOf ps) (effLimit ps)
      (flattenBlocks (parseBlocks gen (fmSplit f.raw).2)) acc h
    split
    · rename_i hz
      simp only [List.length_append, List.length_cons, List.length_nil]
      omega
    · exact hb

theorem searchGo_bound (allowed : Str → Bool) (gen : Nat → Str) (ps : SearchParams)
    (fs : List SFile) (acc : List BRes)
    (hacc : acc.length ≤ 20) (hm : effLimit ps ≤ (20 : Int)) :
    (searchGo allowed gen ps (effLimit ps) fs acc).length ≤ 20 := by
  induction fs generalizing acc with
  | nil => simpa [searchGo] using hacc
  | cons f fs ih =>
    simp only [searchGo]
    split
    · exact ih _ hacc
    · split
      · exact hacc
      · refine ih _ ?_
        rename_i hlt
        have hb := processFile_bound gen ps acc f (by omega)
        omega

/-- C6: the search result list never exceeds 20 entries, for every corpus,
path filter, query and requested limit: the effective cap is the minimum of
the requested limit and 20, the file loop stops at the cap, the block loop
stops at the cap, and the file-level fallback fires only into an empty
list. -/
theorem search_result_cap (allowed : Str → Bool) (gen : Nat → Str)
    (files : List SFile) (ps : SearchParams) (res : List BRes)
    (h : search allowed gen files ps = .ok res) : res.length ≤ 20 := by
  dsimp only [search] at h
  split at h
  · cases h
  · cases h
    exact searchGo_bound allowed gen ps files [] (by simp)
      (by simp only [effLimit]; omega)

theorem search_result_cap_witness :
    search (fun _ => true) genDefault
        [⟨"n.md".toList, "- alpha beta\n- beta again\n- beta third".toList⟩]
        ⟨"beta".toList, some 2, none, none, none, none⟩
      = .ok [⟨"n.md".toList, "n".toList, some ("00000000-0000-4000-8000-000000000000".toList),
            "alpha beta".toList, 1, some 0⟩,
          ⟨"n.md".toList, "n".toList, some ("00000000-0000-4000-8000-000000000000".toList),
            "beta again".toList, 1, some 0⟩]
      ∧ (2 : Nat) ≤ 20 := by
  constructor
  · rfl
  · exact search_result_cap (fun _ => true) genDefault
      [⟨"n.md".toList, "- alpha beta\n- beta again\n- beta third".toList⟩]
      ⟨"beta".toList, some 2, none, none, none, none⟩ _ (by rfl)

/-! ### Character-level facts -/

theorem toNat_ofNat_valid (n : Nat) (hv : n.isValidChar) : (Char.ofNat n).toNat = n := by
  unfold Char.ofNat
  rw [dif_pos hv]
  rfl

theorem toNat_toLowerChar (c : Char) :
    (toLowerChar c).toNat = if 65 ≤ c.toNat ∧ c.toNat ≤ 90 then c.toNat + 32 else c.toNat := by
  unfold toLowerChar
  split
  · rename_i h
    exact toNat_ofNat_valid _ (Or.inl (by omega))
  · rfl

theorem char_eq_of_toNat_eq {c d : Char} (h : c.toNat = d.toNat) : c = d := by
  have h2 := congrArg Char.ofNat h
  rwa [Char.ofNat_toNat, Char.ofNat_toNat] at h2

theorem toLowerChar_fixed {c : Char} (h : ¬(65 ≤ c.toNat ∧ c.toNat ≤ 90)) :
    toLowerChar c = c := by
  apply char_eq_of_toNat_eq
  rw [toNat_toLowerChar, if_neg h]

theorem toLowerChar_idem (c : Char) : toLowerChar (toLowerChar c) = toLowerChar c := by
  apply char_eq_of_toNat_eq
  rw [toNat_toLowerChar (toLowerChar c), toNat_toLowerChar c]
  by_cases h : 65 ≤ c.toNat ∧ c.toNat ≤ 90 <;> simp [h] <;> omega

theorem toLowerStr_idem (s : Str) : toLowerStr (toLowerStr s) = toLowerStr s := by
  simp only [toLowerStr, List.map_map]
  exact List.map_congr_left (fun c _ => toLowerChar_idem c)

theorem ciEqChar_iff {a b : Char} : ciEqChar a b = true ↔ toLowerChar a = toLowerChar b := by
  simp [ciEqChar]

theorem isHexCI_iff {c : Char} : isHexCI c = true ↔
    ((48 ≤ c.toNat ∧ c.toNat ≤ 57) ∨ (97 ≤ c.toNat ∧ c.toNat ≤ 102) ∨
      (65 ≤ c.toNat ∧ c.toNat ≤ 70)) := by
  simp [isHexCI]

theorem isHexCI_of_lower_eq {a b : Char} (ha : isHexCI a = true)
    (h : toLowerChar b = toLowerChar a) : isHexCI b = true := by
  rw [isHexCI_iff] at ha ⊢
  have hn : (toLowerChar b).toNat = (toLowerChar a).toNat := by rw [h]
  rw [toNat_toLowerChar, toNat_toLowerChar] at hn
  by_cases h1 : 65 ≤ a.toNat ∧ a.toNat ≤ 90 <;>
    by_cases h2 : 65 ≤ b.toNat ∧ b.toNat ≤ 90 <;>
      simp [h1, h2] at hn <;> omega

theorem lower_eq_dash {c : Char} (h : toLowerChar c = toLowerChar '-') : c = '-' := by
  have hn : (toLowerChar c).toNat = (toLowerChar '-').toNat := by rw [h]
  rw [toNat_toLowerChar, toNat_toLowerChar] at hn
  apply char_eq_of_toNat_eq
  show c.toNat = 45
  by_cases h1 : 65 ≤ c.toNat ∧ c.toNat ≤ 90
  · rw [if_pos h1] at hn
    simp at hn
    omega
  · rw [if_neg h1] at hn
    simpa using hn

theorem lower_eq_lparen {c : Char} (h : toLowerChar c = '(') : c = '(' := by
  have hn : (toLowerChar c).toNat = 40 := by rw [h]; rfl
  rw [toNat_toLowerChar] at hn
  apply char_eq_of_toNat_eq
  show c.toNat = 40
  by_cases h1 : 65 ≤ c.toNat ∧ c.toNat ≤ 90
  · rw [if_pos h1] at hn
    omega
  · rwa [if_neg h1] at hn

theorem lower_ne_lparen_of_hexCI {c : Char} (h : isHexCI c = true) :
    toLowerChar c ≠ '(' := by
  intro he
  have h2 := lower_eq_lparen he
  subst h2
  rw [isHexCI_iff] at h
  simp at h

/-! ### The uuid matcher -/

theorem takeHexCI_sound : ∀ (n : Nat) (s h r : Str), takeHexCI n s = some (h, r) →
    s = h ++ r ∧ h.length = n ∧ h.all isHexCI = true := by
  intro n
  induction n with
  | zero =>
    intro s h r he
    simp [takeHexCI] at he
    obtain ⟨rfl, rfl⟩ := he
    simp
  | succ n ih =>
    intro s h r he
    cases s with
    | nil => simp [takeHexCI] at he
    | cons c rest =>
      simp only [takeHexCI] at he
      split at he
      · rename_i hc
        rw [Option.map_eq_some'] at he
        obtain ⟨⟨h2, r2⟩, hrec, heq⟩ := he
        cases heq
        obtain ⟨hs, hl, ha⟩ := ih rest h2 r2 hrec
        subst hs
        exact ⟨rfl, by simp [hl], by simp [List.all_cons, hc, ha]⟩
      · cases he

theorem takeHexCI_complete : ∀ (h r : Str), h.all isHexCI = true →
    takeHexCI h.length (h ++ r) = some (h, r) := by
  intro h
  induction h with
  | nil => intro r _; simp [takeHexCI]
  | cons c h2 ih =>
    intro r ha
    simp only [List.all_cons, Bool.and_eq_true] at ha
    simp only [List.length_cons, List.cons_append, takeHexCI, ha.1, if_pos, List.append_eq]
    rw [ih r ha.2]
    rfl

theorem expectDash_sound {r r2 : Str} (h : expectDash r = some r2) : r = '-' :: r2 := by
  unfold expectDash at h
  split at h
  · cases h
    rfl
  · cases h

theorem lowerStr_all_hexCI {a m : Str} (ha : a.all isHexCI = true)
    (h : toLowerStr m = toLowerStr a) : m.all isHexCI = true ∧ m.length = a.length := by
  induction a generalizing m with
  | nil =>
    simp [toLowerStr] at h
    simp [h]
  | cons c a2 ih =>
    simp only [List.all_cons, Bool.and_eq_true] at ha
    cases m with
    | nil => simp [toLowerStr] at h
    | cons d m2 =>
      simp only [toLowerStr, List.map_cons, List.cons.injEq] at h
      obtain ⟨h1, h2⟩ := h
      obtain ⟨ih1, ih2⟩ := ih ha.2 h2
      refine ⟨?_, by simp [ih2]⟩
      simp [List.all_cons, isHexCI_of_lower_eq ha.1 h1, ih1]

theorem toLowerChar_dash : toLowerChar '-' = '-' := by decide

theorem toLowerStr_append (x y : Str) :
    toLowerStr (x ++ y) = toLowerStr x ++ toLowerStr y := List.map_append _ _ _

theorem toLowerStr_cons (c : Char) (x : Str) :
    toLowerStr (c :: x) = toLowerChar c :: toLowerStr x := rfl

theorem peelDash {m X : Str} (h : toLowerStr m = '-' :: X) :
    ∃ m2, m = '-' :: m2 ∧ toLowerStr m2 = X := by
  cases m with
  | nil => simp [toLowerStr] at h
  | cons d m2 =>
    simp only [toLowerStr, List.map_cons, List.cons.injEq] at h
    have hd : d = '-' := lower_eq_dash (by rw [h.1, toLowerChar_dash])
    exact ⟨m2, by rw [hd], h.2⟩

theorem peelHex {a m X : Str} (ha : a.all isHexCI = true)
    (h : toLowerStr m = toLowerStr a ++ X) :
    ∃ m1 m2, m = m1 ++ m2 ∧ m1.all isHexCI = true ∧ m1.length = a.length ∧
      toLowerStr m2 = X := by
  obtain ⟨m1, m2, hm, h1, h2⟩ := List.map_eq_append_iff.mp h
  obtain ⟨hhex, hlen⟩ := lowerStr_all_hexCI ha h1
  exact ⟨m1, m2, hm, hhex, hlen, h2⟩

theorem consumeUuid_master {s u r : Str} (he : consumeUuid s = some (u, r)) :
    s = u ++ r ∧ u.length = 36 ∧ u.all (fun c => isHexCI c || c == '-') = true ∧
      ∀ m t, toLowerStr m = toLowerStr u → consumeUuid (m ++ t) = some (m, t) := by
  simp only [consumeUuid, bind, Option.bind_eq_some, pure, Option.some.injEq] at he
  obtain ⟨⟨a, r1⟩, h1, r2, h2, ⟨b, r3⟩, h3, r4, h4, ⟨c, r5⟩, h5, r6, h6, ⟨d, r7⟩, h7,
    r8, h8, ⟨e, r9⟩, h9, heq⟩ := he
  obtain ⟨hsa, hla, hxa⟩ := takeHexCI_sound _ _ _ _ h1
  have hda := expectDash_sound h2
  obtain ⟨hsb, hlb, hxb⟩ := takeHexCI_sound _ _ _ _ h3
  have hdb := expectDash_sound h4
  obtain ⟨hsc, hlc, hxc⟩ := takeHexCI_sound _ _ _ _ h5
  have hdc := expectDash_sound h6
  obtain ⟨hsd, hld, hxd⟩ := takeHexCI_sound _ _ _ _ h7
  have hdd := expectDash_sound h8
  obtain ⟨hse, hle, hxe⟩ := takeHexCI_sound _ _ _ _ h9
  obtain ⟨hu, hr⟩ := Prod.mk.injEq .. ▸ heq
  subst hu hr hsa hda hsb hdb hsc hdc hsd hdd hse
  have lift : ∀ x : Str, x.all isHexCI = true →
      x.all (fun ch => isHexCI ch || ch == '-') = true := by
    intro x hx
    apply List.all_eq_true.mpr
    intro ch hch
    simp [List.all_eq_true.mp hx ch hch]
  refine ⟨by simp, by simp [hla, hlb, hlc, hld, hle], ?_, ?_⟩
  · simp only [List.all_append, List.all_cons, Bool.and_eq_true]
    and_intros <;> first
      | exact lift a hxa
      | exact lift b hxb
      | exact lift c hxc
      | exact lift d hxd
      | exact lift e hxe
      | decide
  · intro m t hm
    simp only [toLowerStr_append, toLowerStr_cons, toLowerChar_dash] at hm
    simp only [List.append_assoc, List.cons_append] at hm
    obtain ⟨ma, m2, rfl, hxma, hlma, hm2⟩ := peelHex hxa hm
    obtain ⟨m3, rfl, hm3⟩ := peelDash hm2
    obtain ⟨mb, m4, rfl, hxmb, hlmb, hm4⟩ := peelHex hxb hm3
    obtain ⟨m5, rfl, hm5⟩ := peelDash hm4
    obtain ⟨mc, m6, rfl, hxmc, hlmc, hm6⟩ := peelHex hxc hm5
    obtain ⟨m7, rfl, hm7⟩ := peelDash hm6
    obtain ⟨md, m8, rfl, hxmd, hlmd, hm8⟩ := peelHex hxd hm7
    obtain ⟨m9, rfl, hm9⟩ := peelDash hm8
    obtain ⟨hxm9, hlm9⟩ := lowerStr_all_hexCI hxe hm9
    have step1 : takeHexCI 8 (ma ++ ('-' :: (mb ++ ('-' :: (mc ++ ('-' :: (md ++
        ('-' :: (m9 ++ t)))))))) ) = some (ma, '-' :: (mb ++ ('-' :: (mc ++ ('-' ::
        (md ++ ('-' :: (m9 ++ t)))))))) := by
      rw [← (hla ▸ hlma : ma.length = 8)]
      exact takeHexCI_complete _ _ hxma
    have step2 : takeHexCI 4 (mb ++ ('-' :: (mc ++ ('-' :: (md ++ ('-' :: (m9 ++ t)))))))
        = some (mb, '-' :: (mc ++ ('-' :: (md ++ ('-' :: (m9 ++ t)))))) := by
      rw [← (hlb ▸ hlmb : mb.length = 4)]
      exact takeHexCI_complete _ _ hxmb
    have step3 : takeHexCI 4 (mc ++ ('-' :: (md ++ ('-' :: (m9 ++ t)))))
        = some (mc, '-' :: (md ++ ('-' :: (m9 ++ t)))) := by
      rw [← (hlc ▸ hlmc : mc.length = 4)]
      exact takeHexCI_complete _ _ hxmc
    have step4 : takeHexCI 4 (md ++ ('-' :: (m9 ++ t))) = some (md, '-' :: (m9 ++ t)) := by
      rw [← (hld ▸ hlmd : md.length = 4)]
      exact takeHexCI_complete _ _ hxmd
    have step5 : takeHexCI 12 (m9 ++ t) = some (m9, t) := by
      rw [← (hle ▸ hlm9 : m9.length = 12)]
      exact takeHexCI_complete _ _ hxm9
    simp only [List.append_nil, List.cons_append, List.append_assoc]
    simp only [consumeUuid, bind, step1, Option.some_bind, expectDash, step2, step3,
      step4, step5, pure]
    simp

/-! ### The reference token scanner -/

theorem tokenAt_sound {s v r : Str} (h : tokenAt s = some (v, r)) :
    s = createBlockRef v ++ r ∧ v.length = 36 ∧
      v.all (fun c => isHexCI c || c == '-') = true ∧
      ∀ m, toLowerStr m = toLowerStr v → uuidAccept m := by
  unfold tokenAt at h
  split at h
  · rename_i rest
    split at h
    · rename_i u r2 heq
      cases h
      obtain ⟨hs, hlen, hall, hm⟩ := consumeUuid_master heq
      subst hs
      exact ⟨by simp [createBlockRef], hlen, hall, fun m hlow t => hm m t hlow⟩
    · cases h
  · cases h

theorem tokenAt_complete {v : Str} (hv : uuidAccept v) (t : Str) :
    tokenAt (createBlockRef v ++ t) = some (v, t) := by
  have harr : createBlockRef v ++ t = '(' :: '(' :: (v ++ (')' :: ')' :: t)) := by
    simp [createBlockRef]
  rw [harr]
  simp only [tokenAt]
  rw [hv (')' :: ')' :: t)]
  rfl

theorem tokenAt_len {s v r : Str} (h : tokenAt s = some (v, r)) :
    s.length = r.length + 40 := by
  obtain ⟨hs, hlen, -, -⟩ := tokenAt_sound h
  subst hs
  simp [createBlockRef, hlen]
  omega

theorem splitRefsF_nil : ∀ f, splitRefsF f [] = [] := by
  intro f
  cases f <;> rfl

theorem splitRefsF_mono : ∀ (n f1 f2 : Nat) (s : Str), s.length ≤ n → s.length ≤ f1 →
    s.length ≤ f2 → splitRefsF f1 s = splitRefsF f2 s := by
  intro n
  induction n with
  | zero =>
    intro f1 f2 s hs _ _
    have : s = [] := List.eq_nil_of_length_eq_zero (by omega)
    subst this
    rw [splitRefsF_nil, splitRefsF_nil]
  | succ n ih =>
    intro f1 f2 s hs h1 h2
    cases s with
    | nil => rw [splitRefsF_nil, splitRefsF_nil]
    | cons c rest =>
      simp only [List.length_cons] at hs h1 h2
      obtain ⟨k1, rfl⟩ : ∃ k, f1 = k + 1 := ⟨f1 - 1, by omega⟩
      obtain ⟨k2, rfl⟩ : ∃ k, f2 = k + 1 := ⟨f2 - 1, by omega⟩
      cases ht : tokenAt (c :: rest) with
      | none =>
        simp only [splitRefsF, ht]
        rw [ih k1 k2 rest (by omega) (by omega) (by omega)]
      | some p =>
        obtain ⟨v, r⟩ := p
        have hl := tokenAt_len ht
        simp only [List.length_cons] at hl
        simp only [splitRefsF, ht]
        rw [ih k1 k2 r (by omega) (by omega) (by omega)]

theorem splitRefs_tok {s v r : Str} (h : tokenAt s = some (v, r)) :
    splitRefs s = .tok v :: splitRefs r := by
  have hl := tokenAt_len h
  cases s with
  | nil => cases h
  | cons c rest =>
    show splitRefsF (c :: rest).length (c :: rest) = _
    simp only [List.length_cons, splitRefsF, h]
    rw [splitRefsF_mono rest.length rest.length r.length r (by simp at hl; omega)
      (by simp at hl; omega) (by omega)]
    rfl

theorem splitRefs_lit {c : Char} {s2 : Str} (h : tokenAt (c :: s2) = none) :
    splitRefs (c :: s2) = .lit c :: splitRefs s2 := by
  show splitRefsF (c :: s2).length (c :: s2) = _
  simp only [List.length_cons, splitRefsF, h]
  rfl

theorem uuidTestCI_accept {u : Str} (h : uuidTestCI u = true) : uuidAccept u := by
  unfold uuidTestCI at h
  cases hc : consumeUuid u with
  | none => rw [hc] at h; cases h
  | some p =>
    obtain ⟨u2, r⟩ := p
    rw [hc] at h
    simp only [List.isEmpty_iff] at h
    subst h
    obtain ⟨hs, -, -, hm⟩ := consumeUuid_master hc
    simp only [List.append_nil] at hs
    subst hs
    intro t
    exact hm _ t rfl

/-- C10: building a reference token from a well-formed lowercase uuid and
extracting the references of the result returns exactly that uuid. -/
theorem extract_create_roundtrip (u : Str) (h : isLowerUuid u = true) :
    extractBlockRefs (createBlockRef u) = [u] := by
  simp only [isLowerUuid, Bool.and_eq_true, decide_eq_true_eq] at h
  obtain ⟨ht, hlow⟩ := h
  have hacc := uuidTestCI_accept ht
  have htok : tokenAt (createBlockRef u) = some (u, []) := by
    have := tokenAt_complete hacc []
    rwa [List.append_nil] at this
  have hsplit : splitRefs (createBlockRef u) = [.tok u] := by
    rw [splitRefs_tok htok]
    rfl
  simp [extractBlockRefs, hsplit, tokensOf, dedupFirst, hlow]

theorem extract_create_roundtrip_witness :
    extractBlockRefs (createBlockRef ("abcdef12-3456-7890-abcd-ef1234567890".toList))
      = [("abcdef12-3456-7890-abcd-ef1234567890".toList)] :=
  extract_create_roundtrip _ (by decide)

/-! ### The resolvers -/

theorem lower_eq_nonletter {c x : Char} (hx : ¬(97 ≤ x.toNat ∧ x.toNat ≤ 122))
    (h : toLowerChar c = x) : c = x := by
  have hn : (toLowerChar c).toNat = x.toNat := by rw [h]
  rw [toNat_toLowerChar] at hn
  apply char_eq_of_toNat_eq
  by_cases h1 : 65 ≤ c.toNat ∧ c.toNat ≤ 90
  · rw [if_pos h1] at hn
    omega
  · rwa [if_neg h1] at hn

theorem resolveRefsF_nil (f : Str → Option Block) : ∀ fuel, resolveRefsF f fuel [] = [] := by
  intro fuel
  cases fuel <;> rfl

theorem resolveRefsF_mono (f : Str → Option Block) :
    ∀ (n f1 f2 : Nat) (s : Str), s.length ≤ n → s.length ≤ f1 → s.length ≤ f2 →
      resolveRefsF f f1 s = resolveRefsF f f2 s := by
  intro n
  induction n with
  | zero =>
    intro f1 f2 s hs _ _
    have : s = [] := List.eq_nil_of_length_eq_zero (by omega)
    subst this
    rw [resolveRefsF_nil, resolveRefsF_nil]
  | succ n ih =>
    intro f1 f2 s hs h1 h2
    cases s with
    | nil => rw [resolveRefsF_nil, resolveRefsF_nil]
    | cons c rest =>
      simp only [List.length_cons] at hs h1 h2
      obtain ⟨k1, rfl⟩ : ∃ k, f1 = k + 1 := ⟨f1 - 1, by omega⟩
      obtain ⟨k2, rfl⟩ : ∃ k, f2 = k + 1 := ⟨f2 - 1, by omega⟩
      cases ht : tokenAt (c :: rest) with
      | none =>
        simp only [resolveRefsF, ht]
        rw [ih k1 k2 rest (by omega) (by omega) (by omega)]
      | some p =>
        obtain ⟨v, r⟩ := p
        have hl := tokenAt_len ht
        simp only [List.length_cons] at hl
        simp only [resolveRefsF, ht]
        rw [ih k1 k2 r (by omega) (by omega) (by omega)]

theorem resolve_tok {s v r : Str} (f : Str → Option Block) (h : tokenAt s = some (v, r)) :
    resolveBlockRefs s f = syncChoice f v ++ resolveBlockRefs r f := by
  have hl := tokenAt_len h
  cases s with
  | nil => cases h
  | cons c rest =>
    show resolveRefsF f (c :: rest).length (c :: rest) = _
    simp only [List.length_cons, resolveRefsF, h]
    rw [resolveRefsF_mono f rest.length rest.length r.length r (by simp at hl; omega)
      (by simp at hl; omega) (by omega)]
    rfl

theorem resolve_lit {c : Char} {s2 : Str} (f : Str → Option Block)
    (h : tokenAt (c :: s2) = none) :
    resolveBlockRefs (c :: s2) f = c :: resolveBlockRefs s2 f := by
  show resolveRefsF f (c :: s2).length (c :: s2) = _
  simp only [List.length_cons, resolveRefsF, h]
  rfl

theorem resolve_render (f : Str → Option Block) :
    ∀ (n : Nat) (s : Str), s.length ≤ n →
      resolveBlockRefs s f = renderWith (syncChoice f) (splitRefs s) := by
  intro n
  induction n with
  | zero =>
    intro s hs
    have : s = [] := List.eq_nil_of_length_eq_zero (by omega)
    subst this
    rfl
  | succ n ih =>
    intro s hs
    cases s with
    | nil => rfl
    | cons c rest =>
      cases ht : tokenAt (c :: rest) with
      | none =>
        rw [resolve_lit f ht, splitRefs_lit ht]
        simp only [renderWith]
        rw [ih rest (by simp at hs; omega)]
      | some p =>
        obtain ⟨v, r⟩ := p
        have hl := tokenAt_len ht
        simp only [List.length_cons] at hl hs
        rw [resolve_tok f ht, splitRefs_tok ht]
        simp only [renderWith]
        rw [ih r (by omega)]

theorem joinSegs_splitRefs : ∀ (n : Nat) (s : Str), s.length ≤ n →
    joinSegs (splitRefs s) = s := by
  intro n
  induction n with
  | zero =>
    intro s hs
    have : s = [] := List.eq_nil_of_length_eq_zero (by omega)
    subst this
    rfl
  | succ n ih =>
    intro s hs
    cases s with
    | nil => rfl
    | cons c rest =>
      cases ht : tokenAt (c :: rest) with
      | none =>
        rw [splitRefs_lit ht]
        simp only [joinSegs]
        rw [ih rest (by simp at hs; omega)]
      | some p =>
        obtain ⟨v, r⟩ := p
        have hl := tokenAt_len ht
        simp only [List.length_cons] at hl hs
        obtain ⟨hs2, -, -, -⟩ := tokenAt_sound ht
        rw [splitRefs_tok ht]
        simp only [joinSegs]
        rw [ih r (by omega), hs2]

theorem ciStrip_sound : ∀ (pat s m r : Str), ciStrip pat s = some (m, r) →
    s = m ++ r ∧ m.length = pat.length ∧ toLowerStr m = toLowerStr pat := by
  intro pat
  induction pat with
  | nil =>
    intro s m r h
    simp [ciStrip] at h
    obtain ⟨rfl, rfl⟩ := h
    simp [toLowerStr]
  | cons p ps ih =>
    intro s m r h
    cases s with
    | nil => cases h
    | cons c rest =>
      simp only [ciStrip] at h
      split at h
      · rename_i hc
        rw [Option.map_eq_some'] at h
        obtain ⟨⟨m2, r2⟩, hrec, heq⟩ := h
        cases heq
        obtain ⟨hs, hl, hlow⟩ := ih rest m2 r2 hrec
        subst hs
        rw [ciEqChar_iff] at hc
        exact ⟨rfl, by simp [hl], by simp [toLowerStr_cons, hc, hlow]⟩
      · cases h

theorem ciStrip_complete : ∀ (pat m r : Str), toLowerStr m = toLowerStr pat →
    ciStrip pat (m ++ r) = some (m, r) := by
  intro pat
  induction pat with
  | nil =>
    intro m r h
    have : m = [] := by simpa [toLowerStr] using h
    subst this
    simp [ciStrip]
  | cons p ps ih =>
    intro m r h
    cases m with
    | nil => simp [toLowerStr] at h
    | cons c m2 =>
      simp only [toLowerStr_cons, List.cons.injEq] at h
      simp only [List.cons_append, ciStrip, List.append_eq]
      rw [if_pos (ciEqChar_iff.mpr h.1.symm), ih m2 r h.2]
      rfl

theorem ciStrip_head_fail {p c : Char} {ps s : Str}
    (h : toLowerChar c ≠ toLowerChar p) : ciStrip (p :: ps) (c :: s) = none := by
  simp only [ciStrip]
  rw [if_neg]
  intro hc
  exact h (ciEqChar_iff.mp hc).symm

theorem ciStrip_second_fail {p1 p2 c2 : Char} {ps s : Str}
    (h : toLowerChar c2 ≠ toLowerChar p2) (c1 : Char) (hc1 : ciEqChar p1 c1 = true) :
    ciStrip (p1 :: p2 :: ps) (c1 :: c2 :: s) = none := by
  show (if ciEqChar p1 c1 = true then
      (ciStrip (p2 :: ps) (c2 :: s)).map (fun q => (c1 :: q.1, q.2)) else none) = none
  rw [if_pos hc1, ciStrip_head_fail h]
  rfl

theorem dollarSubst_clean : ∀ (repl m pre post : Str), (∀ c ∈ repl, c ≠ '$') →
    dollarSubst repl m pre post = repl
  | [], _, _, _, _ => rfl
  | [c], _, _, _, _ => rfl
  | c :: d :: rest, m, pre, post, hc => by
    have hcd : c ≠ '$' := hc c (by simp)
    unfold dollarSubst
    rw [if_neg hcd]
    rw [dollarSubst_clean (d :: rest) m pre post (fun x hx => hc x (by simp at hx ⊢; tauto))]

theorem replaceAllCIF_nil (pat repl : Str) : ∀ fuel pre,
    replaceAllCIF pat repl fuel pre [] = [] := by
  intro fuel pre
  cases fuel <;> rfl

theorem replaceAllCIF_mono (pat repl : Str) (hpat : pat ≠ []) :
    ∀ (n f1 f2 : Nat) (pre s : Str), s.length ≤ n → s.length ≤ f1 → s.length ≤ f2 →
      replaceAllCIF pat repl f1 pre s = replaceAllCIF pat repl f2 pre s := by
  have hp1 : 1 ≤ pat.length := List.length_pos.mpr hpat
  intro n
  induction n with
  | zero =>
    intro f1 f2 pre s hs _ _
    have : s = [] := List.eq_nil_of_length_eq_zero (by omega)
    subst this
    rw [replaceAllCIF_nil, replaceAllCIF_nil]
  | succ n ih =>
    intro f1 f2 pre s hs h1 h2
    cases s with
    | nil => rw [replaceAllCIF_nil, replaceAllCIF_nil]
    | cons c rest =>
      simp only [List.length_cons] at hs h1 h2
      obtain ⟨k1, rfl⟩ : ∃ k, f1 = k + 1 := ⟨f1 - 1, by omega⟩
      obtain ⟨k2, rfl⟩ : ∃ k, f2 = k + 1 := ⟨f2 - 1, by omega⟩
      cases hstrip : ciStrip pat (c :: rest) with
      | none =>
        simp only [replaceAllCIF, hstrip]
        rw [ih k1 k2 (pre ++ [c]) rest (by omega) (by omega) (by omega)]
      | some p =>
        obtain ⟨m, r⟩ := p
        obtain ⟨hsm, hlen, -⟩ := ciStrip_sound pat _ m r hstrip
        have hr : r.length + pat.length = rest.length + 1 := by
          have := congrArg List.length hsm
          simp [hlen] at this
          omega
        simp only [replaceAllCIF, hstrip]
        rw [ih k1 k2 (pre ++ m) r (by omega) (by omega) (by omega)]

theorem replaceAux_match {pat repl pre s m r : Str} (hpat : pat ≠ [])
    (h : ciStrip pat s = some (m, r)) :
    replaceAllAux pat repl pre s
      = dollarSubst repl m pre r ++ replaceAllAux pat repl (pre ++ m) r := by
  have hp1 : 1 ≤ pat.length := List.length_pos.mpr hpat
  obtain ⟨hs, hlen, -⟩ := ciStrip_sound pat s m r h
  cases s with
  | nil =>
    obtain ⟨p, ps⟩ : ∃ p ps, pat = p :: ps := by
      cases pat with
      | nil => exact absurd rfl hpat
      | cons p ps => exact ⟨p, ps, rfl⟩
    obtain ⟨ps2, rfl⟩ := ps
    cases h
  | cons c rest =>
    have hr : r.length + pat.length = rest.length + 1 := by
      have := congrArg List.length hs
      simp [hlen] at this
      omega
    show replaceAllCIF pat repl (c :: rest).length pre (c :: rest) = _
    simp only [List.length_cons, replaceAllCIF, h]
    rw [replaceAllCIF_mono pat repl hpat rest.length rest.length r.length (pre ++ m) r
      (by omega) (by omega) (by omega)]
    rfl

theorem replaceAux_skip {pat repl : Str} {c : Char} {pre s2 : Str}
    (h : ciStrip pat (c :: s2) = none) :
    replaceAllAux pat repl pre (c :: s2) = c :: replaceAllAux pat repl (pre ++ [c]) s2 := by
  show replaceAllCIF pat repl (c :: s2).length pre (c :: s2) = _
  simp only [List.length_cons, replaceAllCIF, h]
  rfl

theorem replaceAux_run {p : Char} {ps repl : Str} :
    ∀ (xs pre t : Str), (∀ c ∈ xs, toLowerChar c ≠ toLowerChar p) →
      replaceAllAux (p :: ps) repl pre (xs ++ t)
        = xs ++ replaceAllAux (p :: ps) repl (pre ++ xs) t := by
  intro xs
  induction xs with
  | nil => intro pre t _; simp
  | cons c xs2 ih =>
    intro pre t hc
    rw [List.cons_append, replaceAux_skip (ciStrip_head_fail (hc c (by simp)))]
    rw [ih (pre ++ [c]) t (fun d hd => hc d (by simp [hd]))]
    simp

theorem toLowerChar_lparen : toLowerChar '(' = '(' := by decide

theorem toLowerChar_rparen : toLowerChar ')' = ')' := by decide

theorem toLowerStr_createBlockRef (x : Str) :
    toLowerStr (createBlockRef x) = createBlockRef (toLowerStr x) := by
  simp [createBlockRef, toLowerStr_cons, toLowerStr_append, toLowerChar_lparen,
    toLowerChar_rparen, toLowerStr]

theorem createBlockRef_inj {x y : Str} (h : createBlockRef x = createBlockRef y) : x = y := by
  have h2 : x ++ [')', ')'] = y ++ [')', ')'] := by
    simpa [createBlockRef] using h
  exact List.append_cancel_right h2

theorem tokchar_ne_lparen {c : Char} (hc : (isHexCI c || c == '-') = true) :
    toLowerChar c ≠ toLowerChar '(' := by
  rw [toLowerChar_lparen]
  rcases Bool.or_eq_true _ _ |>.mp hc with h | h
  · exact lower_ne_lparen_of_hexCI h
  · have : c = '-' := by simpa using h
    subst this
    rw [toLowerChar_dash]
    decide

theorem ciEqChar_lparen : ciEqChar '(' '(' = true := by decide

theorem rparen_not_letter : ¬(97 ≤ (')' : Char).toNat ∧ (')' : Char).toNat ≤ 122) := by decide

/-- One case-insensitive global replace of the token of u (lowercase) by a
dollar-free replacement acts exactly per reference token: a token whose uuid
lowercases to u becomes the replacement, every other character of the text
is kept. -/
theorem replace_token_render (u repl : Str)
    (hlow : toLowerStr u = u)
    (hmst : ∀ m, toLowerStr m = toLowerStr u → uuidAccept m)
    (hrepl : ∀ c ∈ repl, c ≠ '$') :
    ∀ (n : Nat) (s pre : Str), s.length ≤ n →
      replaceAllAux (createBlockRef u) repl pre s
        = renderWith (fun v => if toLowerStr v = u then repl else createBlockRef v)
            (splitRefs s) := by
  have hpatlow : toLowerStr (createBlockRef u) = createBlockRef u := by
    rw [toLowerStr_createBlockRef, hlow]
  have hpat : createBlockRef u ≠ [] := by simp [createBlockRef]
  have hulen : u.length = 36 := by
    have h0 := hmst u rfl []
    rw [List.append_nil] at h0
    exact (consumeUuid_master h0).2.1
  intro n
  induction n with
  | zero =>
    intro s pre hs
    have hnil : s = [] := List.eq_nil_of_length_eq_zero (by omega)
    subst hnil
    rfl
  | succ n ih =>
    intro s pre hs
    cases s with
    | nil => rfl
    | cons c rest =>
      simp only [List.length_cons] at hs
      cases ht : tokenAt (c :: rest) with
      | some p =>
        obtain ⟨v, r⟩ := p
        have hl := tokenAt_len ht
        simp only [List.length_cons] at hl
        obtain ⟨hss, hvlen, hvall, hvm⟩ := tokenAt_sound ht
        rw [splitRefs_tok ht]
        by_cases hvu : toLowerStr v = u
        · have hmlow : toLowerStr (createBlockRef v) = toLowerStr (createBlockRef u) := by
            rw [toLowerStr_createBlockRef, toLowerStr_createBlockRef, hvu, hlow]
          have hstrip : ciStrip (createBlockRef u) (c :: rest) = some (createBlockRef v, r) := by
            rw [hss]
            exact ciStrip_complete _ _ _ hmlow
          rw [replaceAux_match hpat hstrip, dollarSubst_clean repl _ pre r hrepl,
            ih r (pre ++ createBlockRef v) (by omega)]
          simp only [renderWith, if_pos hvu]
        · have hstrip : ciStrip (createBlockRef u) (c :: rest) = none := by
            cases hcs : ciStrip (createBlockRef u) (c :: rest) with
            | none => rfl
            | some p2 =>
              obtain ⟨m, r2⟩ := p2
              obtain ⟨hsm, hml, hmlo⟩ := ciStrip_sound _ _ _ _ hcs
              rw [hpatlow] at hmlo
              have hlv : (createBlockRef v).length = m.length := by
                simp [createBlockRef, hvlen, hml, hulen]
              have heq2 : createBlockRef v ++ r = m ++ r2 := by rw [← hss, ← hsm]
              obtain ⟨hm1, -⟩ := List.append_inj heq2 hlv
              exfalso
              apply hvu
              have hcv : createBlockRef (toLowerStr v) = createBlockRef u := by
                rw [← toLowerStr_createBlockRef, hm1]
                exact hmlo
              exact createBlockRef_inj hcv
          obtain ⟨v0, v2, rfl⟩ : ∃ v0 v2, v = v0 :: v2 := by
            cases v with
            | nil => simp at hvlen
            | cons v0 v2 => exact ⟨v0, v2, rfl⟩
          have hxs : ∀ ch ∈ v0 :: (v2 ++ [')', ')']), toLowerChar ch ≠ toLowerChar '(' := by
            intro ch hch
            have hch2 : ch ∈ (v0 :: v2) ++ [')', ')'] := hch
            rcases List.mem_append.mp hch2 with hin | hin
            · exact tokchar_ne_lparen (List.all_eq_true.mp hvall ch hin)
            · have hche : ch = ')' := by simpa using hin
              subst hche
              rw [toLowerChar_rparen, toLowerChar_lparen]
              decide
          have hshape : c :: rest = '(' :: '(' :: v0 :: ((v2 ++ [')', ')']) ++ r) := by
            rw [hss]
            simp [createBlockRef]
          rw [hshape] at hstrip ⊢
          rw [replaceAux_skip hstrip]
          have hstrip2 : ciStrip (createBlockRef u)
              ('(' :: v0 :: ((v2 ++ [')', ')']) ++ r)) = none :=
            ciStrip_second_fail (hxs v0 (by simp)) '(' ciEqChar_lparen
          rw [replaceAux_skip hstrip2]
          have hxr : (v0 :: (v2 ++ [')', ')'])) ++ r = v0 :: ((v2 ++ [')', ')']) ++ r) := rfl
          rw [← hxr]
          have hpatshape : createBlockRef u = '(' :: ('(' :: (u ++ [')', ')'])) := rfl
          rw [hpatshape]
          rw [replaceAux_run (v0 :: (v2 ++ [')', ')'])) ((pre ++ ['(']) ++ ['(']) r hxs]
          rw [← hpatshape]
          rw [ih r (((pre ++ ['(']) ++ ['(']) ++ (v0 :: (v2 ++ [')', ')']))) (by omega)]
          simp only [renderWith, if_neg hvu, createBlockRef]
          simp
      | none =>
        have hstrip : ciStrip (createBlockRef u) (c :: rest) = none := by
          cases hcs : ciStrip (createBlockRef u) (c :: rest) with
          | none => rfl
          | some p2 =>
            obtain ⟨m, r2⟩ := p2
            obtain ⟨hsm, hml, hmlo⟩ := ciStrip_sound _ _ _ _ hcs
            rw [hpatlow] at hmlo
            obtain ⟨a1, m1, rfl⟩ : ∃ a1 m1, m = a1 :: m1 := by
              cases m with
              | nil => simp [createBlockRef] at hml
              | cons a1 m1 => exact ⟨a1, m1, rfl⟩
            obtain ⟨a2, m2, rfl⟩ : ∃ a2 m2, m1 = a2 :: m2 := by
              cases m1 with
              | nil => simp [createBlockRef] at hml
              | cons a2 m2 => exact ⟨a2, m2, rfl⟩
            simp only [createBlockRef, toLowerStr_cons] at hmlo
            injection hmlo with ha1 hmlo2
            injection hmlo2 with ha2 hm2
            have ha1e : a1 = '(' := lower_eq_lparen ha1
            have ha2e : a2 = '(' := lower_eq_lparen ha2
            subst ha1e ha2e
            obtain ⟨mu, mc, rfl, hmu, hmc⟩ := List.map_eq_append_iff.mp hm2
            obtain ⟨b1, mc1, rfl⟩ : ∃ b1 mc1, mc = b1 :: mc1 := by
              cases mc with
              | nil => simp at hmc
              | cons b1 mc1 => exact ⟨b1, mc1, rfl⟩
            obtain ⟨b2, mc2, rfl⟩ : ∃ b2 mc2, mc1 = b2 :: mc2 := by
              cases mc1 with
              | nil => simp at hmc
              | cons b2 mc2 => exact ⟨b2, mc2, rfl⟩
            simp only [List.map_cons, List.cons.injEq] at hmc
            obtain ⟨hb1, hb2, hmc2⟩ := hmc
            have hb1e : b1 = ')' := lower_eq_nonletter rparen_not_letter hb1
            have hb2e : b2 = ')' := lower_eq_nonletter rparen_not_letter hb2
            have hmc2e : mc2 = [] := List.map_eq_nil_iff.mp hmc2
            subst hb1e hb2e hmc2e
            have hacc : uuidAccept mu := hmst mu (by rw [hlow]; exact hmu)
            have htok2 : tokenAt (c :: rest) = some (mu, r2) := by
              rw [hsm]
              have harr : ('(' :: '(' :: (mu ++ [')', ')'])) ++ r2
                  = createBlockRef mu ++ r2 := by
                simp [createBlockRef]
              rw [harr]
              exact tokenAt_complete hacc r2
            rw [ht] at htok2
            cases htok2
        rw [replaceAux_skip hstrip, splitRefs_lit ht]
        simp only [renderWith]
        rw [ih rest (pre ++ [c]) (by omega)]

/-- Membership in the first-occurrence deduplication is plain membership. -/
theorem mem_dedupFirst {x : Str} : ∀ {l : List Str}, x ∈ dedupFirst l ↔ x ∈ l := by
  intro l
  induction l with
  | nil => simp [dedupFirst]
  | cons u rest ih =>
    simp only [dedupFirst, List.mem_cons, List.mem_filter]
    constructor
    · rintro (rfl | ⟨hm, -⟩)
      · exact Or.inl rfl
      · exact Or.inr (ih.mp hm)
    · rintro (rfl | hm)
      · exact Or.inl rfl
      · by_cases hx : x = u
        · exact Or.inl hx
        · exact Or.inr ⟨ih.mpr hm, by simpa using hx⟩

theorem tokensOf_lit (c : Char) (rest : List Seg) :
    tokensOf (.lit c :: rest) = tokensOf rest := rfl

theorem tokensOf_tok (w : Str) (rest : List Seg) :
    tokensOf (.tok w :: rest) = w :: tokensOf rest := rfl

/-- Every captured token of the reference scan is accepted by the anchored
uuid matcher, append-stably. -/
theorem tokensOf_splitRefs_accept :
    ∀ (n : Nat) (s : Str), s.length ≤ n →
      ∀ v ∈ tokensOf (splitRefs s), uuidAccept v := by
  intro n
  induction n with
  | zero =>
    intro s hs v hv
    have hnil : s = [] := List.eq_nil_of_length_eq_zero (by omega)
    subst hnil
    cases hv
  | succ n ih =>
    intro s hs v hv
    cases s with
    | nil => cases hv
    | cons c rest =>
      cases ht : tokenAt (c :: rest) with
      | none =>
        rw [splitRefs_lit ht, tokensOf_lit] at hv
        exact ih rest (by simp only [List.length_cons] at hs; omega) v hv
      | some p =>
        obtain ⟨w, r⟩ := p
        have hl := tokenAt_len ht
        simp only [List.length_cons] at hl hs
        rw [splitRefs_tok ht, tokensOf_tok] at hv
        rcases List.mem_cons.mp hv with rfl | hv2
        · exact (tokenAt_sound ht).2.2.2 v rfl
        · exact ih r (by omega) v hv2

/-- Any uuid returned by extractBlockRefs is lowercase, every
case-variant spelling of it is accepted by the matcher, and its rebuilt
token contains no dollar character. -/
theorem mem_extract_facts {s u : Str} (hu : u ∈ extractBlockRefs s) :
    toLowerStr u = u ∧ (∀ m, toLowerStr m = toLowerStr u → uuidAccept m) ∧
      ∀ c ∈ createBlockRef u, c ≠ '$' := by
  unfold extractBlockRefs at hu
  rw [mem_dedupFirst] at hu
  obtain ⟨v, hv, rfl⟩ := List.mem_map.mp hu
  have hacc := tokensOf_splitRefs_accept s.length s le_rfl v hv
  have h0 := hacc []
  rw [List.append_nil] at h0
  have hm := consumeUuid_master h0
  refine ⟨toLowerStr_idem v, ?_, ?_⟩
  · intro m hmm
    rw [toLowerStr_idem] at hmm
    intro t
    exact hm.2.2.2 m t hmm
  · have hchars : ∀ c ∈ toLowerStr v, c ≠ '$' := by
      intro c hc
      obtain ⟨d, hd, rfl⟩ := List.mem_map.mp hc
      intro hd36
      have hde : d = '$' := lower_eq_nonletter (by decide) hd36
      subst hde
      exact absurd (List.all_eq_true.mp hm.2.2.1 _ hd) (by decide)
    intro c hc
    rcases List.mem_cons.mp hc with rfl | hc
    · decide
    rcases List.mem_cons.mp hc with rfl | hc
    · decide
    rcases List.mem_append.mp hc with hcl | hcr
    · exact hchars c hcl
    rcases List.mem_cons.mp hcr with rfl | hcr
    · decide
    rcases List.mem_cons.mp hcr with rfl | hcr
    · decide
    cases hcr

/-- renderWith only looks at the token segments. -/
theorem renderWith_congr {f g : Str → Str} :
    ∀ {segs : List Seg}, (∀ v ∈ tokensOf segs, f v = g v) →
      renderWith f segs = renderWith g segs := by
  intro segs
  induction segs with
  | nil => intro _; rfl
  | cons sg rest ih =>
    intro h
    cases sg with
    | lit c =>
      simp only [renderWith]
      rw [ih (fun v hv => h v (by rw [tokensOf_lit]; exact hv))]
    | tok w =>
      simp only [renderWith]
      rw [h w (by rw [tokensOf_tok]; exact List.mem_cons_self w _),
        ih (fun v hv => h v (by rw [tokensOf_tok]; exact List.mem_cons_of_mem w hv))]

/-- Rendering with the token rebuilder is the lossless rebuild. -/
theorem renderWith_createBlockRef :
    ∀ segs : List Seg, renderWith createBlockRef segs = joinSegs segs := by
  intro segs
  induction segs with
  | nil => rfl
  | cons sg rest ih => cases sg <;> simp [renderWith, joinSegs, ih]

/-- On a segment list whose tokens are all lowercase, the tokens really
are lowercase strings. -/
theorem segsLower_tokens : ∀ (segs : List Seg), segsLower segs = true →
    ∀ v ∈ tokensOf segs, toLowerStr v = v := by
  intro segs
  induction segs with
  | nil => intro _ v hv; cases hv
  | cons sg rest ih =>
    intro h v hv
    rw [segsLower, List.all_cons, Bool.and_eq_true] at h
    obtain ⟨h1, h2⟩ := h
    cases sg with
    | lit c =>
      rw [tokensOf_lit] at hv
      exact ih h2 v hv
    | tok w =>
      rw [tokensOf_tok] at hv
      rcases List.mem_cons.mp hv with rfl | hv2
      · exact eq_of_beq h1
      · exact ih h2 v hv2

/-- When every token of the text is written in lowercase and every lookup
misses, the asynchronous resolver returns the text unchanged: each pass
rewrites each token to itself. -/
theorem async_all_miss (s : Str) (f : Str → Option Block)
    (hseg : segsLower (splitRefs s) = true)
    (hmiss : ∀ u ∈ extractBlockRefs s, f u = none) :
    resolveBlockRefsAsync s f = s := by
  unfold resolveBlockRefsAsync
  have key : ∀ l : List Str, (∀ u ∈ l, u ∈ extractBlockRefs s) →
      l.foldl
        (fun acc u =>
          replaceAllCI acc (createBlockRef u)
            (match f u with
             | some b => b.content
             | none => createBlockRef u)) s = s := by
    intro l
    induction l with
    | nil => intro _; rfl
    | cons u rest ih =>
      intro hsub
      have humem : u ∈ extractBlockRefs s := hsub u (List.mem_cons_self u rest)
      obtain ⟨hlow, hmst, hdollar⟩ := mem_extract_facts humem
      have hfu : f u = none := hmiss u humem
      simp only [List.foldl_cons, hfu]
      have hstep : replaceAllCI s (createBlockRef u) (createBlockRef u) = s := by
        show replaceAllAux (createBlockRef u) (createBlockRef u) [] s = s
        rw [replace_token_render u (createBlockRef u) hlow hmst hdollar s.length s [] le_rfl]
        have hEq : renderWith
              (fun v => if toLowerStr v = u then createBlockRef u else createBlockRef v)
              (splitRefs s)
            = renderWith createBlockRef (splitRefs s) := by
          apply renderWith_congr
          intro v hv
          by_cases hc : toLowerStr v = u
          · have hvl : toLowerStr v = v := segsLower_tokens (splitRefs s) hseg v hv
            rw [if_pos hc, ← hc, hvl]
          · rw [if_neg hc]
        rw [hEq, renderWith_createBlockRef, joinSegs_splitRefs s.length s le_rfl]
      rw [hstep]
      exact ih (fun w hw => hsub w (List.mem_cons_of_mem u hw))
  exact key _ (fun u hu => hu)

/-- When the text references exactly one uuid, whose lookup hits with
dollar-free content, the asynchronous resolver replaces every reference
token of the text by that content and keeps everything else. -/
theorem async_single_hit (s : Str) (f : Str → Option Block) (u : Str) (b : Block)
    (hex : extractBlockRefs s = [u]) (hf : f u = some b)
    (hd : ∀ c ∈ b.content, c ≠ '$') :
    resolveBlockRefsAsync s f = renderWith (fun _ => b.content) (splitRefs s) := by
  have humem : u ∈ extractBlockRefs s := by
    rw [hex]
    exact List.mem_singleton.mpr rfl
  obtain ⟨hlow, hmst, -⟩ := mem_extract_facts humem
  unfold resolveBlockRefsAsync
  rw [hex]
  simp only [List.foldl_cons, List.foldl_nil, hf]
  show replaceAllAux (createBlockRef u) b.content [] s = _
  rw [replace_token_render u b.content hlow hmst hd s.length s [] le_rfl]
  apply renderWith_congr
  intro v hv
  have hvm : toLowerStr v ∈ extractBlockRefs s := by
    unfold extractBlockRefs
    rw [mem_dedupFirst]
    exact List.mem_map.mpr ⟨v, hv, rfl⟩
  rw [hex] at hvm
  rw [if_pos (List.mem_singleton.mp hvm)]

/-- C5: reference substitution in the two resolvers. (a) The synchronous
resolver acts per token: it equals the render of the reference split where
each token becomes the looked-up content on a hit and is rebuilt
byte-identically from its captured uuid on a miss, every other character
kept; (b) the split is lossless, so no token is dropped; (c) in the
asynchronous resolver, when every token of the text is written in
lowercase and every lookup misses, the text is returned unchanged; (d)
when the text's references all name one uuid whose lookup hits with
dollar-free content, every token is replaced by that content, all else
kept. The lowercase and single-uuid provisos in (c)/(d) are needed: see
the counterexample where an uppercase unresolved token is returned
lowercased, not byte-identically. -/
theorem resolve_substitution_totality :
    (∀ (s : Str) (f : Str → Option Block),
      resolveBlockRefs s f = renderWith (syncChoice f) (splitRefs s)) ∧
    (∀ s : Str, joinSegs (splitRefs s) = s) ∧
    (∀ (s : Str) (f : Str → Option Block), segsLower (splitRefs s) = true →
      (∀ u ∈ extractBlockRefs s, f u = none) → resolveBlockRefsAsync s f = s) ∧
    (∀ (s : Str) (f : Str → Option Block) (u : Str) (b : Block),
      extractBlockRefs s = [u] → f u = some b → (∀ c ∈ b.content, c ≠ '$') →
      resolveBlockRefsAsync s f = renderWith (fun _ => b.content) (splitRefs s)) :=
  ⟨fun s f => resolve_render f s.length s le_rfl,
   fun s => joinSegs_splitRefs s.length s le_rfl,
   fun s f hseg hmiss => async_all_miss s f hseg hmiss,
   fun s f u b hex hf hd => async_single_hit s f u b hex hf hd⟩

theorem resolve_substitution_totality_witness :
    resolveBlockRefsAsync ("a ((11111111-1111-1111-1111-111111111111)) b".toList)
        (fun _ => none)
      = "a ((11111111-1111-1111-1111-111111111111)) b".toList ∧
    resolveBlockRefsAsync ("x ((11111111-1111-1111-1111-111111111111)) y".toList)
        (fun _ => some (Block.mk ("11111111-1111-1111-1111-111111111111".toList)
          ("HELLO".toList) 0 [] [] none))
      = renderWith (fun _ => "HELLO".toList)
          (splitRefs ("x ((11111111-1111-1111-1111-111111111111)) y".toList)) :=
  ⟨resolve_substitution_totality.2.2.1 _ _ (by decide) (fun _ _ => rfl),
   resolve_substitution_totality.2.2.2 _ _
     ("11111111-1111-1111-1111-111111111111".toList)
     (Block.mk ("11111111-1111-1111-1111-111111111111".toList) ("HELLO".toList) 0 [] [] none)
     (by decide) rfl (by decide)⟩

/-- The newline split is never empty. -/
theorem splitNl_ne_nil : ∀ s : Str, splitNl s ≠ [] := by
  intro s
  cases s with
  | nil => simp [splitNl]
  | cons c rest =>
    simp only [splitNl]
    split
    · simp
    · split <;> simp

/-- The length of the JavaScript newline split is one more than the number
of newlines. -/
theorem splitNl_length : ∀ s : Str, (splitNl s).length = countNl s + 1 := by
  intro s
  induction s with
  | nil => rfl
  | cons c rest ih =>
    by_cases hc : c = '\n'
    · subst hc
      simp only [splitNl, if_pos rfl, List.length_cons, ih, countNl, List.countP_cons]
      simp only [decide_eq_true_eq, if_pos rfl]
      exact congrArg (fun k => k + 1) ih
    · simp only [splitNl, if_neg hc]
      cases hsp : splitNl rest with
      | nil => exact absurd hsp (splitNl_ne_nil rest)
      | cons l ls =>
        rw [hsp] at ih
        simp only [List.length_cons] at ih ⊢
        simp only [countNl, List.countP_cons] at ih ⊢
        simp only [decide_eq_true_eq]
        rw [if_neg hc]
        omega

/-- The block loop only appends to its accumulator. -/
theorem blockLoop_append (rp q sq : Str) (cs : Bool) (ml : Int) :
    ∀ (bs : List Block) (acc : List BRes),
      ∃ r, blockLoop rp q sq cs ml bs acc = acc ++ r := by
  intro bs
  induction bs with
  | nil => intro acc; exact ⟨[], (List.append_nil acc).symm⟩
  | cons b bs ih =>
    intro acc
    simp only [blockLoop]
    by_cases hm : blockMatches sq cs b = true
    · rw [if_pos hm]
      by_cases hcap : ml ≤ ((acc ++ [mkBlockRes rp q sq cs b]).length : Int)
      · rw [if_pos hcap]
        exact ⟨[mkBlockRes rp q sq cs b], rfl⟩
      · rw [if_neg hcap]
        obtain ⟨r, hr⟩ := ih (acc ++ [mkBlockRes rp q sq cs b])
        exact ⟨[mkBlockRes rp q sq cs b] ++ r, by rw [hr, List.append_assoc]⟩
    · rw [if_neg hm]
      exact ih acc

/-- Processing one file only appends to the accumulator. -/
theorem processFile_append (gen : Nat → Str) (ps : SearchParams) (acc : List BRes)
    (f : SFile) : ∃ r, processFile gen ps acc f = acc ++ r := by
  cases hidx : fileIdx ps f.raw with
  | none => exact ⟨[], by simp [processFile, hidx]⟩
  | some idx =>
    obtain ⟨r, hr⟩ := blockLoop_append f.path ps.query (qNorm ps) (csOf ps) (effLimit ps)
      (flattenBlocks (parseBlocks gen (fmSplit f.raw).2)) acc
    simp only [processFile, hidx]
    rw [hr]
    split
    · exact ⟨r ++ [fileRes f.path (searchableOf ps f.raw) idx (qNorm ps).length], by simp⟩
    · exact ⟨r, rfl⟩

/-- The file loop only appends to the accumulator: results emitted earlier
in the scan stay at the front, in order. -/
theorem searchGo_append (allowed : Str → Bool) (gen : Nat → Str) (ps : SearchParams)
    (ml : Int) : ∀ (fs : List SFile) (acc : List BRes),
      ∃ r, searchGo allowed gen ps ml fs acc = acc ++ r := by
  intro fs
  induction fs with
  | nil => intro acc; exact ⟨[], (List.append_nil acc).symm⟩
  | cons f fs ih =>
    intro acc
    simp only [searchGo]
    split
    · exact ih acc
    · split
      · exact ⟨[], (List.append_nil acc).symm⟩
      · obtain ⟨r1, h1⟩ := processFile_append gen ps acc f
        obtain ⟨r2, h2⟩ := ih (processFile gen ps acc f)
        exact ⟨r1 ++ r2, by rw [h2, h1, List.append_assoc]⟩

/-- A prefix of the scan in which every file is filtered out or yields no
result leaves the empty accumulator untouched. -/
theorem searchGo_pre_nil (allowed : Str → Bool) (gen : Nat → Str) (ps : SearchParams)
    (hlim : 1 ≤ effLimit ps) :
    ∀ (pre : List SFile),
      (∀ g ∈ pre, allowed g.path = false ∨ processFile gen ps [] g = []) →
      ∀ (rest : List SFile),
        searchGo allowed gen ps (effLimit ps) (pre ++ rest) []
          = searchGo allowed gen ps (effLimit ps) rest [] := by
  intro pre
  induction pre with
  | nil => intro _ rest; rfl
  | cons g pre ih =>
    intro h rest
    simp only [List.cons_append, searchGo]
    split
    · exact ih (fun x hx => h x (List.mem_cons_of_mem g hx)) rest
    · rename_i hna
      split
      · rename_i hcap
        exfalso
        simp only [List.length_nil, Nat.cast_zero] at hcap
        omega
      · rcases h g (List.mem_cons_self g pre) with hg | hg
        · exact absurd (by simp [hg]) hna
        · rw [hg]
          exact ih (fun x hx => h x (List.mem_cons_of_mem g hx)) rest

/-- C7 (amended): the file-level fallback. For a scanned file whose
enabled-zone searchable text contains the query but none of whose blocks
matches, the scan emits the file-level result — carrying a line number
equal to one plus the count of newlines before the match offset —
provided no result at all was emitted earlier in the scan (the code
guards the fallback on the global result list being empty, so the
emission is NOT independent of earlier block-level results from other
files; see the counterexample), and that result leads the remaining
output. -/
theorem file_fallback_first (allowed : Str → Bool) (gen : Nat → Str) (ps : SearchParams)
    (pre post : List SFile) (f : SFile) (idx : Nat)
    (hq : (trimJs ps.query).isEmpty = false)
    (hlim : 1 ≤ effLimit ps)
    (hpre : ∀ g ∈ pre, allowed g.path = false ∨ processFile gen ps [] g = [])
    (hall : allowed f.path = true)
    (hidx : fileIdx ps f.raw = some idx)
    (hblocks : blockLoop f.path ps.query (qNorm ps) (csOf ps) (effLimit ps)
      (flattenBlocks (parseBlocks gen (fmSplit f.raw).2)) [] = []) :
    ∃ rest : List BRes,
      search allowed gen (pre ++ f :: post) ps
        = .ok (fileRes f.path (searchableOf ps f.raw) idx (qNorm ps).length :: rest) ∧
      (fileRes f.path (searchableOf ps f.raw) idx (qNorm ps).length).ln
        = some (countNl ((searchableOf ps f.raw).take idx) + 1) := by
  have hln : (fileRes f.path (searchableOf ps f.raw) idx (qNorm ps).length).ln
      = some (countNl ((searchableOf ps f.raw).take idx) + 1) := by
    simp [fileRes, splitNl_length]
  have hpf : processFile gen ps [] f
      = [fileRes f.path (searchableOf ps f.raw) idx (qNorm ps).length] := by
    simp [processFile, hidx, hblocks]
  unfold search
  rw [if_neg (by simp [hq])]
  rw [searchGo_pre_nil allowed gen ps hlim pre hpre (f :: post)]
  have hnc : ¬(effLimit ps ≤ ((([] : List BRes).length : Nat) : Int)) := by
    simp only [List.length_nil, Nat.cast_zero]
    omega
  simp only [searchGo, hall, Bool.not_true, Bool.false_eq_true, if_false]
  rw [if_neg hnc, hpf]
  obtain ⟨r2, h2⟩ := searchGo_append allowed gen ps (effLimit ps) post
    [fileRes f.path (searchableOf ps f.raw) idx (qNorm ps).length]
  refine ⟨r2, ?_, hln⟩
  rw [h2]
  rfl

theorem file_fallback_first_witness :
    ∃ rest : List BRes,
      search (fun _ => true) genDefault
          [⟨"notes.md".toList, "preamble hello\n- nothing here".toList⟩]
          ⟨"hello".toList, none, none, none, none, none⟩
        = .ok (fileRes "notes.md".toList
            (searchableOf ⟨"hello".toList, none, none, none, none, none⟩
              "preamble hello\n- nothing here".toList)
            9 (qNorm ⟨"hello".toList, none, none, none, none, none⟩).length :: rest) ∧
      (fileRes "notes.md".toList
          (searchableOf ⟨"hello".toList, none, none, none, none, none⟩
            "preamble hello\n- nothing here".toList)
          9 (qNorm ⟨"hello".toList, none, none, none, none, none⟩).length).ln
        = some (countNl ((searchableOf ⟨"hello".toList, none, none, none, none, none⟩
            "preamble hello\n- nothing here".toList).take 9) + 1) :=
  file_fallback_first (fun _ => true) genDefault
    ⟨"hello".toList, none, none, none, none, none⟩ [] []
    ⟨"notes.md".toList, "preamble hello\n- nothing here".toList⟩ 9
    (by decide) (by decide) (fun g hg => absurd hg (by simp))
    rfl (by decide) (by decide)

/-- Appending one child to a checked child list preserves the check exactly
when the new child is deeper, back-references the parent, and is itself
checked. -/
theorem childrenOK_append (u : Str) (lv : Nat) (c : Block) :
    ∀ ks : List Block, childrenOK u lv ks = true → decide (lv < c.level) = true →
      (c.parentUuid == some u) = true → blockOK c = true →
      childrenOK u lv (ks ++ [c]) = true := by
  intro ks
  induction ks with
  | nil =>
    intro _ h1 h2 h3
    simp only [List.nil_append, childrenOK, Bool.and_eq_true]
    exact ⟨⟨⟨h1, h2⟩, h3⟩, trivial⟩
  | cons k ks ih =>
    intro hk h1 h2 h3
    simp only [childrenOK, Bool.and_eq_true] at hk
    simp only [List.cons_append, childrenOK, Bool.and_eq_true]
    exact ⟨hk.1, ih hk.2 h1 h2 h3⟩

theorem addChild_eq (u ct : Str) (lv : Nat) (ps : Props) (ks : List Block)
    (pu : Option Str) (c : Block) :
    addChild (.mk u ct lv ps ks pu) c = .mk u ct lv ps (ks ++ [c]) pu := rfl

/-- Attaching a deeper, back-referencing, checked child preserves blockOK. -/
theorem blockOK_addChild (p c : Block) (hp : blockOK p = true)
    (hlt : decide (p.level < c.level) = true)
    (hpu : (c.parentUuid == some p.uuid) = true) (hc : blockOK c = true) :
    blockOK (addChild p c) = true := by
  cases p with
  | mk u ct lv ps ks pu =>
    rw [addChild_eq]
    show childrenOK u lv (ks ++ [c]) = true
    exact childrenOK_append u lv c ks hp hlt hpu hc

/-- Attaching a child changes neither the level, the uuid, the parent
reference, nor the relation to the stack below. -/
theorem underOK_addChild (p c : Block) (rest : List Block) :
    underOK (addChild p c) rest = underOK p rest := by
  cases p with
  | mk u ct lv ps ks pu => cases rest with
    | nil => rfl
    | cons q qs => rfl

theorem forestOK_append_one (roots : List Block) (c : Block)
    (hr : forestOK roots = true) (hpu : (c.parentUuid == none) = true)
    (hc : blockOK c = true) : forestOK (roots ++ [c]) = true := by
  simp only [forestOK, List.all_append, Bool.and_eq_true] at *
  exact ⟨hr, by simp [hpu, hc]⟩

theorem popCarry_cons (level : Nat) (c p : Block) (ps roots : List Block) :
    popCarry level c (p :: ps) roots
      = if level ≤ (addChild p c).level then popCarry level (addChild p c) ps roots
        else ((addChild p c) :: ps, roots) := rfl

/-- The pop continuation preserves the stack invariant and the root
invariant, and leaves a stack whose head is strictly shallower than the
popping level. -/
theorem popCarry_inv (level : Nat) :
    ∀ (stack : List Block) (c : Block) (roots : List Block),
      blockOK c = true → underOK c stack = true → stackOK stack = true →
      forestOK roots = true →
      stackOK (popCarry level c stack roots).1 = true ∧
      forestOK (popCarry level c stack roots).2 = true ∧
      ∀ p, (popCarry level c stack roots).1.head? = some p → p.level < level := by
  intro stack
  induction stack with
  | nil =>
    intro c roots hbc huc _ hr
    refine ⟨rfl, ?_, ?_⟩
    · exact forestOK_append_one roots c hr huc hbc
    · intro p hp
      cases hp
  | cons p ps ih =>
    intro c roots hbc huc hst hr
    simp only [underOK, Bool.and_eq_true] at huc
    simp only [stackOK, Bool.and_eq_true] at hst
    have hbo2 : blockOK (addChild p c) = true :=
      blockOK_addChild p c hst.1.1 huc.1 huc.2 hbc
    have huo2 : underOK (addChild p c) ps = true := by
      rw [underOK_addChild]
      exact hst.1.2
    rw [popCarry_cons]
    by_cases hcap : level ≤ (addChild p c).level
    · rw [if_pos hcap]
      exact ih (addChild p c) roots hbo2 huo2 hst.2 hr
    · rw [if_neg hcap]
      refine ⟨?_, hr, ?_⟩
      · simp only [stackOK, Bool.and_eq_true]
        exact ⟨⟨hbo2, huo2⟩, hst.2⟩
      · intro q hq
        simp only [List.head?_cons, Option.some.injEq] at hq
        subst hq
        omega

/-- popGE preserves both invariants and leaves a head strictly shallower
than the popping level. -/
theorem popGE_inv (level : Nat) (stack roots : List Block)
    (hst : stackOK stack = true) (hr : forestOK roots = true) :
    stackOK (popGE level stack roots).1 = true ∧
    forestOK (popGE level stack roots).2 = true ∧
    ∀ p, (popGE level stack roots).1.head? = some p → p.level < level := by
  cases stack with
  | nil =>
    refine ⟨rfl, hr, ?_⟩
    intro p hp
    cases hp
  | cons b rest =>
    simp only [stackOK, Bool.and_eq_true] at hst
    simp only [popGE]
    by_cases hcap : level ≤ b.level
    · rw [if_pos hcap]
      exact popCarry_inv level rest b roots hst.1.1 hst.1.2 hst.2 hr
    · rw [if_neg hcap]
      refine ⟨?_, hr, ?_⟩
      · simp only [stackOK, Bool.and_eq_true]
        exact ⟨hst.1, hst.2⟩
      · intro q hq
        simp only [List.head?_cons, Option.some.injEq] at hq
        subst hq
        omega

theorem blockLevel_mk (u c : Str) (lv : Nat) (ps : Props) (ks : List Block)
    (pu : Option Str) : (Block.mk u c lv ps ks pu).level = lv := rfl

theorem blockParentUuid_mk (u c : Str) (lv : Nat) (ps : Props) (ks : List Block)
    (pu : Option Str) : (Block.mk u c lv ps ks pu).parentUuid = pu := rfl

theorem buildStep_stack (gen : Nat → Str) (st : BuildSt) (it : RawItem) :
    (buildStep gen st it).stack
      = Block.mk (itemUuid gen st.counter it.properties).1 it.content it.level
          (removeProp it.properties idKey)
          [] ((popGE it.level st.stack st.roots).1.head?.map Block.uuid)
        :: (popGE it.level st.stack st.roots).1 := rfl

theorem buildStep_roots (gen : Nat → Str) (st : BuildSt) (it : RawItem) :
    (buildStep gen st it).roots = (popGE it.level st.stack st.roots).2 := rfl

/-- One buildBlockTree iteration preserves both invariants. -/
theorem buildStep_inv (gen : Nat → Str) (st : BuildSt) (it : RawItem)
    (h1 : stackOK st.stack = true) (h2 : forestOK st.roots = true) :
    stackOK (buildStep gen st it).stack = true ∧
    forestOK (buildStep gen st it).roots = true := by
  obtain ⟨hs, hf, hh⟩ := popGE_inv it.level st.stack st.roots h1 h2
  constructor
  · rw [buildStep_stack]
    simp only [stackOK, Bool.and_eq_true]
    refine ⟨⟨rfl, ?_⟩, hs⟩
    cases hps : (popGE it.level st.stack st.roots).1 with
    | nil => simp [underOK, blockParentUuid_mk]
    | cons q qs =>
      have hq : q.level < it.level := by
        apply hh
        rw [hps]
        rfl
      simp only [underOK]
      simp [blockLevel_mk, blockParentUuid_mk, hq]
  · rw [buildStep_roots]
    exact hf

theorem foldl_buildStep_inv (gen : Nat → Str) :
    ∀ (items : List RawItem) (st : BuildSt),
      stackOK st.stack = true → forestOK st.roots = true →
      stackOK (items.foldl (buildStep gen) st).stack = true ∧
      forestOK (items.foldl (buildStep gen) st).roots = true := by
  intro items
  induction items with
  | nil => intro st h1 h2; exact ⟨h1, h2⟩
  | cons it items ih =>
    intro st h1 h2
    obtain ⟨h1b, h2b⟩ := buildStep_inv gen st it h1 h2
    exact ih (buildStep gen st it) h1b h2b

/-- Every forest built by buildBlockTree satisfies the parent-child
invariant: roots carry no parent reference, every child is strictly deeper
than its parent and back-references it, recursively. -/
theorem buildBlockTree_forestOK (gen : Nat → Str) (items : List RawItem) :
    forestOK (buildBlockTree gen items) = true := by
  obtain ⟨h1, h2⟩ := foldl_buildStep_inv gen items ⟨[], [], 0⟩ rfl rfl
  exact (popGE_inv 0 (items.foldl (buildStep gen) ⟨[], [], 0⟩).stack
    (items.foldl (buildStep gen) ⟨[], [], 0⟩).roots h1 h2).2.1

theorem flattenBlocks_cons (x : Block) (xs : List Block) :
    flattenBlocks (x :: xs) = x :: (flattenBlocks x.children ++ flattenBlocks xs) := by
  cases x with
  | mk u c lv ps ks pu => rfl

/-- A top-level block of a forest occurs in its pre-order flattening. -/
theorem mem_flattenBlocks_of_mem {c : Block} :
    ∀ {cs : List Block}, c ∈ cs → c ∈ flattenBlocks cs := by
  intro cs
  induction cs with
  | nil => intro h; cases h
  | cons x xs ih =>
    intro h
    rw [flattenBlocks_cons]
    rcases List.mem_cons.mp h with rfl | h2
    · exact List.mem_cons_self c _
    · exact List.mem_cons_of_mem x (List.mem_append_right _ (ih h2))

/-- Every block of the pre-order flattening is immediately followed by the
flattening of its own children: the parent occurs strictly earlier than
each of its children. -/
theorem flatten_infix :
    ∀ (n : Nat) (F : List Block), (flattenBlocks F).length ≤ n →
      ∀ b ∈ flattenBlocks F, ∃ l1 l2,
        flattenBlocks F = l1 ++ b :: (flattenBlocks b.children ++ l2) := by
  intro n
  induction n with
  | zero =>
    intro F hF b hb
    have h0 : flattenBlocks F = [] := List.eq_nil_of_length_eq_zero (by omega)
    rw [h0] at hb
    cases hb
  | succ n ih =>
    intro F hF b hb
    cases F with
    | nil => cases hb
    | cons x xs =>
      rw [flattenBlocks_cons] at hb hF ⊢
      simp only [List.length_cons, List.length_append] at hF
      rcases List.mem_cons.mp hb with rfl | hb2
      · exact ⟨[], flattenBlocks xs, rfl⟩
      rcases List.mem_append.mp hb2 with hbc | hbx
      · obtain ⟨l1, l2, hl⟩ := ih x.children (by omega) b hbc
        refine ⟨x :: l1, l2 ++ flattenBlocks xs, ?_⟩
        rw [hl]
        simp [List.append_assoc]
      · obtain ⟨l1, l2, hl⟩ := ih xs (by omega) b hbx
        refine ⟨x :: (flattenBlocks x.children ++ l1), l2, ?_⟩
        rw [hl]
        simp [List.append_assoc]

/-- C2 (amended): parent-child invariants of parsed forests. (1) In every
forest returned by parseBlocks, every root carries no parent reference and,
recursively, every child is STRICTLY deeper than its parent — not
necessarily by exactly one, see the counterexample of a level jump — and
back-references its parent's uuid, so a block never becomes a child of a
block at its own depth or deeper. (2) In the pre-order flattening of any
forest, every block appears strictly before each of its children. -/
theorem parent_child_invariant :
    (∀ (gen : Nat → Str) (s : Str), forestOK (parseBlocks gen s) = true) ∧
    (∀ (F : List Block) (b c : Block), b ∈ flattenBlocks F → c ∈ b.children →
      ∃ l1 l2, flattenBlocks F = l1 ++ b :: l2 ∧ c ∈ l2) := by
  constructor
  · intro gen s
    exact buildBlockTree_forestOK gen (parseItems (splitNl s))
  · intro F b c hb hc
    obtain ⟨l1, l2, hl⟩ := flatten_infix (flattenBlocks F).length F le_rfl b hb
    exact ⟨l1, flattenBlocks b.children ++ l2, hl,
      List.mem_append_left _ (mem_flattenBlocks_of_mem hc)⟩

theorem parent_child_invariant_witness :
    forestOK (parseBlocks genDefault ("- a\n\t- b\n\t\t\t- c".toList)) = true ∧
    ∃ l1 l2,
      flattenBlocks [Block.mk ("r".toList) ("".toList) 0 []
          [Block.mk ("k".toList) ("".toList) 2 [] [] (some ("r".toList))] none]
        = l1 ++ (Block.mk ("r".toList) ("".toList) 0 []
            [Block.mk ("k".toList) ("".toList) 2 [] [] (some ("r".toList))] none) :: l2 ∧
      Block.mk ("k".toList) ("".toList) 2 [] [] (some ("r".toList)) ∈ l2 :=
  ⟨parent_child_invariant.1 genDefault ("- a\n\t- b\n\t\t\t- c".toList),
   parent_child_invariant.2 _ _ _ (List.mem_cons_self _ _) (List.mem_cons_self _ _)⟩

theorem flattenBlocks_append :
    ∀ as2 bs : List Block, flattenBlocks (as2 ++ bs) = flattenBlocks as2 ++ flattenBlocks bs := by
  intro as2 bs
  induction as2 with
  | nil => rfl
  | cons x xs ih => simp [flattenBlocks, ih, List.append_assoc]

theorem blockData_mk2 (u c : Str) (lv : Nat) (ps : Props) (ks : List Block)
    (pu : Option Str) : blockData (Block.mk u c lv ps ks pu) = ⟨u, c, lv, ps⟩ := rfl

theorem blockData_addChild (p c : Block) : blockData (addChild p c) = blockData p := by
  cases p with
  | mk u ct lv ps ks pu => rfl

theorem flattenBlock_addChild_data (p c : Block) :
    (flattenBlock (addChild p c)).map blockData
      = (flattenBlock p).map blockData ++ (flattenBlock c).map blockData := by
  cases p with
  | mk u ct lv ps ks pu =>
    rw [addChild_eq]
    show blockData (Block.mk u ct lv ps (ks ++ [c]) pu)
        :: (flattenBlocks (ks ++ [c])).map blockData = _
    rw [flattenBlocks_append]
    simp [blockData_mk2, flattenBlocks, flattenBlock]

/-- Popping rearranges the pre-order data without loss or reorder. -/
theorem popCarry_flat (level : Nat) :
    ∀ (stack : List Block) (c : Block) (roots : List Block),
      (flattenBlocks (popCarry level c stack roots).2).map blockData
          ++ (stackFlat (popCarry level c stack roots).1).map blockData
        = (flattenBlocks roots).map blockData
          ++ ((stackFlat stack).map blockData ++ (flattenBlock c).map blockData) := by
  intro stack
  induction stack with
  | nil =>
    intro c roots
    show (flattenBlocks (roots ++ [c])).map blockData
        ++ (stackFlat []).map blockData = _
    rw [flattenBlocks_append]
    simp [stackFlat, flattenBlocks]
  | cons p ps ih =>
    intro c roots
    rw [popCarry_cons]
    by_cases hcap : level ≤ (addChild p c).level
    · rw [if_pos hcap, ih (addChild p c) roots, flattenBlock_addChild_data]
      simp [stackFlat, List.append_assoc]
    · rw [if_neg hcap]
      show (flattenBlocks roots).map blockData
          ++ (stackFlat (addChild p c :: ps)).map blockData = _
      simp [stackFlat, flattenBlock_addChild_data, List.append_assoc]

theorem popGE_flat (level : Nat) (stack roots : List Block) :
    (flattenBlocks (popGE level stack roots).2).map blockData
        ++ (stackFlat (popGE level stack roots).1).map blockData
      = (flattenBlocks roots).map blockData ++ (stackFlat stack).map blockData := by
  cases stack with
  | nil => simp [popGE, stackFlat]
  | cons b rest =>
    simp only [popGE]
    by_cases hcap : level ≤ b.level
    · rw [if_pos hcap, popCarry_flat]
      simp [stackFlat]
    · rw [if_neg hcap]

theorem annotItems_cons (gen : Nat → Str) (n : Nat) (it : RawItem) (rest : List RawItem) :
    annotItems gen n (it :: rest)
      = ⟨(itemUuid gen n it.properties).1, it.content, it.level,
          removeProp it.properties idKey⟩
        :: annotItems gen (itemUuid gen n it.properties).2 rest := rfl

/-- One build iteration appends exactly the new block, as pre-order data. -/
theorem preFlat_buildStep_data (gen : Nat → Str) (st : BuildSt) (it : RawItem) :
    (preFlat (buildStep gen st it)).map blockData
      = (preFlat st).map blockData
        ++ [⟨(itemUuid gen st.counter it.properties).1, it.content, it.level,
              removeProp it.properties idKey⟩] := by
  show ((flattenBlocks (popGE it.level st.stack st.roots).2)
      ++ stackFlat (Block.mk (itemUuid gen st.counter it.properties).1 it.content it.level
            (removeProp it.properties idKey) []
            ((popGE it.level st.stack st.roots).1.head?.map Block.uuid)
          :: (popGE it.level st.stack st.roots).1)).map blockData = _
  show ((flattenBlocks (popGE it.level st.stack st.roots).2)
      ++ (stackFlat (popGE it.level st.stack st.roots).1
          ++ [Block.mk (itemUuid gen st.counter it.properties).1 it.content
              it.level (removeProp it.properties idKey) []
              ((popGE it.level st.stack st.roots).1.head?.map Block.uuid)])).map blockData = _
  rw [List.map_append, List.map_append, ← List.append_assoc, popGE_flat]
  show _ = ((flattenBlocks st.roots) ++ stackFlat st.stack).map blockData ++ _
  rw [List.map_append]
  rfl

theorem buildStep_counter (gen : Nat → Str) (st : BuildSt) (it : RawItem) :
    (buildStep gen st it).counter = (itemUuid gen st.counter it.properties).2 := rfl

/-- The fold invariant: the pre-order data of the build state is the data
of the processed items, generator threaded in item order. -/
theorem preFlat_foldl (gen : Nat → Str) :
    ∀ (items : List RawItem) (st : BuildSt),
      (preFlat (items.foldl (buildStep gen) st)).map blockData
        = (preFlat st).map blockData ++ annotItems gen st.counter items := by
  intro items
  induction items with
  | nil => intro st; simp [annotItems]
  | cons it items ih =>
    intro st
    rw [List.foldl_cons, ih (buildStep gen st it), preFlat_buildStep_data, buildStep_counter,
      annotItems_cons]
    simp

theorem popCarry_zero :
    ∀ (stack : List Block) (c : Block) (roots : List Block),
      (popCarry 0 c stack roots).1 = [] := by
  intro stack
  induction stack with
  | nil => intro c roots; rfl
  | cons p ps ih =>
    intro c roots
    rw [popCarry_cons, if_pos (Nat.zero_le _)]
    exact ih (addChild p c) roots

theorem popGE_zero (stack roots : List Block) : (popGE 0 stack roots).1 = [] := by
  cases stack with
  | nil => rfl
  | cons b rest =>
    simp only [popGE]
    rw [if_pos (Nat.zero_le _)]
    exact popCarry_zero rest b roots

/-- The pre-order data of the forest buildBlockTree returns is exactly the
annotated item list. -/
theorem flatten_build (gen : Nat → Str) (items : List RawItem) :
    (flattenBlocks (buildBlockTree gen items)).map blockData
      = annotItems gen 0 items := by
  have h0 := popGE_flat 0 (items.foldl (buildStep gen) ⟨[], [], 0⟩).stack
    (items.foldl (buildStep gen) ⟨[], [], 0⟩).roots
  rw [popGE_zero] at h0
  simp only [stackFlat, List.map_nil, List.append_nil] at h0
  have hfin : (flattenBlocks (buildBlockTree gen items)).map blockData
      = (preFlat (items.foldl (buildStep gen) ⟨[], [], 0⟩)).map blockData := by
    show (flattenBlocks (popGE 0 (items.foldl (buildStep gen) ⟨[], [], 0⟩).stack
        (items.foldl (buildStep gen) ⟨[], [], 0⟩).roots).2).map blockData = _
    rw [h0]
    show _ = ((flattenBlocks (items.foldl (buildStep gen) ⟨[], [], 0⟩).roots)
        ++ stackFlat (items.foldl (buildStep gen) ⟨[], [], 0⟩).stack).map blockData
    rw [List.map_append]
  rw [hfin, preFlat_foldl gen items ⟨[], [], 0⟩]
  rfl

/-- The pre-order data of every parsed forest is the annotated item list of
the parsed lines. -/
theorem flatten_parse (gen : Nat → Str) (s : Str) :
    (flattenBlocks (parseBlocks gen s)).map blockData
      = annotItems gen 0 (parseItems (splitNl s)) :=
  flatten_build gen (parseItems (splitNl s))

/-- The uuid every item receives passes the (case-insensitive) uuid test,
as long as the generator's draws do. -/
theorem itemUuid_ok (gen : Nat → Str) (hgen : ∀ m, uuidTestCI (gen m) = true)
    (n : Nat) (ps : Props) : uuidTestCI (itemUuid gen n ps).1 = true := by
  unfold itemUuid
  cases hgp : getProp ps idKey with
  | none => exact hgen n
  | some v =>
    cases v with
    | str s =>
      by_cases ht : uuidTestCI s = true
      · simp [ht]
      · simp only [ht, Bool.false_eq_true, if_false]
        exact hgen n
    | num s => exact hgen n
    | bool b => exact hgen n

theorem annotItems_uuid_ok (gen : Nat → Str) (hgen : ∀ m, uuidTestCI (gen m) = true) :
    ∀ (items : List RawItem) (n : Nat), ∀ bd ∈ annotItems gen n items,
      uuidTestCI bd.uuid = true := by
  intro items
  induction items with
  | nil => intro n bd hbd; cases hbd
  | cons it items ih =>
    intro n bd hbd
    rw [annotItems_cons] at hbd
    rcases List.mem_cons.mp hbd with rfl | hbd2
    · exact itemUuid_ok gen hgen n it.properties
    · exact ih _ bd hbd2

/-- C4 (amended): identifier assignment and format. The pre-order data of
every parsed forest is the annotated item list: each block's uuid is the
value of its id property when that value passes UUID_REGEX — which carries
the i flag, so acceptance is CASE-INSENSITIVE and an uppercase or
mixed-case id value is adopted VERBATIM, refuting the claimed lowercase
normal form (see the counterexample) — and is drawn fresh from the
generator otherwise, malformed values being silently ignored; consequently,
whenever the generator yields strings accepted by the matcher, every
identifier in the parse matches the case-insensitive 8-4-4-4-12 pattern. -/
theorem identifier_assignment (gen : Nat → Str) (s : Str)
    (hgen : ∀ n, uuidTestCI (gen n) = true) :
    (flattenBlocks (parseBlocks gen s)).map blockData
        = annotItems gen 0 (parseItems (splitNl s)) ∧
    ∀ b ∈ flattenBlocks (parseBlocks gen s), uuidTestCI b.uuid = true := by
  constructor
  · exact flatten_parse gen s
  · intro b hb
    have hm : blockData b ∈ (flattenBlocks (parseBlocks gen s)).map blockData :=
      List.mem_map_of_mem blockData hb
    rw [flatten_parse gen s] at hm
    exact annotItems_uuid_ok gen hgen (parseItems (splitNl s)) 0 (blockData b) hm

theorem identifier_assignment_witness :
    (flattenBlocks (parseBlocks genDefault
          ("- a\n\tid:: AAAAAAAA-1111-1111-1111-111111111111".toList))).map blockData
        = annotItems genDefault 0 (parseItems (splitNl
            ("- a\n\tid:: AAAAAAAA-1111-1111-1111-111111111111".toList))) ∧
    ∀ b ∈ flattenBlocks (parseBlocks genDefault
        ("- a\n\tid:: AAAAAAAA-1111-1111-1111-111111111111".toList)),
      uuidTestCI b.uuid = true :=
  identifier_assignment genDefault
    ("- a\n\tid:: AAAAAAAA-1111-1111-1111-111111111111".toList)
    (fun _ => (by decide : uuidTestCI ("00000000-0000-4000-8000-000000000000".toList) = true))

theorem length_tabs (d : Nat) : (tabs d).length = d := List.length_replicate d _

theorem tabs_succ (d : Nat) : tabs (d + 1) = '\t' :: tabs d := List.replicate_succ _ _

/-- Scanning leading tabs through an explicit tab prefix. -/
theorem takeWhile_tabs (d : Nat) (c : Char) (s : Str) (hc : ¬(c = '\t')) :
    (tabs d ++ c :: s).takeWhile (· = '\t') = tabs d := by
  induction d with
  | zero =>
    show (c :: s).takeWhile (· = '\t') = []
    simp [List.takeWhile_cons, hc]
  | succ d ih =>
    rw [tabs_succ]
    show ('\t' :: (tabs d ++ c :: s)).takeWhile (· = '\t') = '\t' :: tabs d
    simp only [List.takeWhile_cons, decide_True, if_true]
    rw [ih]

theorem dropWhile_tabs (d : Nat) (c : Char) (s : Str) (hc : ¬(c = '\t')) :
    (tabs d ++ c :: s).dropWhile (· = '\t') = c :: s := by
  induction d with
  | zero =>
    show (c :: s).dropWhile (· = '\t') = c :: s
    simp [List.dropWhile_cons, hc]
  | succ d ih =>
    rw [tabs_succ]
    show ('\t' :: (tabs d ++ c :: s)).dropWhile (· = '\t') = c :: s
    simp only [List.dropWhile_cons, decide_True, if_true]
    exact ih

theorem countTabs_tabs (d : Nat) (c : Char) (s : Str) (hc : ¬(c = '\t')) :
    countTabs (tabs d ++ c :: s) = d := by
  unfold countTabs
  rw [takeWhile_tabs d c s hc, length_tabs]

theorem trimStart_cons (c : Char) (s : Str) (hc : isWs c = false) :
    trimStart (c :: s) = c :: s := by
  unfold trimStart
  simp [List.dropWhile_cons, hc]

theorem trimStart_ws (c : Char) (s : Str) (hc : isWs c = true) :
    trimStart (c :: s) = trimStart s := by
  unfold trimStart
  simp [List.dropWhile_cons, hc]

theorem trimStart_tabs (d : Nat) (s : Str) : trimStart (tabs d ++ s) = trimStart s := by
  induction d with
  | zero => rfl
  | succ d ih =>
    rw [tabs_succ]
    show trimStart ('\t' :: (tabs d ++ s)) = _
    rw [trimStart_ws '\t' _ (by decide)]
    exact ih

/-- A non-whitespace head survives the trailing trim. -/
theorem trimEnd_cons (c : Char) (s : Str) (hc : isWs c = false) :
    trimEnd (c :: s) = c :: trimEnd s := by
  unfold trimEnd
  rw [List.reverse_cons, List.dropWhile_append]
  by_cases he : (s.reverse.dropWhile isWs).isEmpty = true
  · rw [if_pos he]
    rw [List.isEmpty_iff] at he
    rw [he]
    simp [List.dropWhile_cons, hc]
  · rw [if_neg he]
    simp

/-- Text already trimmed at the end absorbs any prefix. -/
theorem trimEnd_append (X Y : Str) (h : trimEnd Y ≠ []) : trimEnd (X ++ Y) = X ++ trimEnd Y := by
  unfold trimEnd at *
  rw [List.reverse_append, List.dropWhile_append]
  have he : (Y.reverse.dropWhile isWs).isEmpty = false := by
    cases hd : Y.reverse.dropWhile isWs with
    | nil =>
      exact absurd (show (Y.reverse.dropWhile isWs).reverse = [] by rw [hd]; rfl) h
    | cons a t => rfl
  rw [he]
  simp

theorem trimEnd_head (a : Char) (r : Str) :
    trimEnd (a :: r) = [] ∨ ∃ t, trimEnd (a :: r) = a :: t := by
  unfold trimEnd
  rw [List.reverse_cons, List.dropWhile_append]
  by_cases he : (r.reverse.dropWhile isWs).isEmpty = true
  · rw [if_pos he]
    by_cases ha : isWs a = true
    · left
      simp [List.dropWhile_cons, ha]
    · right
      refine ⟨[], ?_⟩
      simp [List.dropWhile_cons, ha]
  · rw [if_neg he]
    right
    exact ⟨(r.reverse.dropWhile isWs).reverse, by simp⟩

theorem length_dropWhile_le2 (p : Char → Bool) : ∀ s : Str, (s.dropWhile p).length ≤ s.length := by
  intro s
  induction s with
  | nil => exact Nat.le_refl 0
  | cons c r ih =>
    rw [List.dropWhile_cons]
    by_cases hp : p c = true
    · rw [if_pos hp]
      exact le_trans ih (by simp)
    · rw [if_neg hp]

theorem length_trimStart_le (s : Str) : (trimStart s).length ≤ s.length :=
  length_dropWhile_le2 isWs s

theorem length_trimEnd_le (s : Str) : (trimEnd s).length ≤ s.length := by
  unfold trimEnd
  rw [List.length_reverse]
  calc (s.reverse.dropWhile isWs).length ≤ s.reverse.length := length_dropWhile_le2 isWs s.reverse
    _ = s.length := List.length_reverse s

/-- A string equal to its own trim has no leading whitespace. -/
theorem trimJs_dropWhile (s : Str) (h : trimJs s = s) : s.dropWhile isWs = s := by
  cases s with
  | nil => rfl
  | cons c r =>
    by_cases hc : isWs c = true
    · exfalso
      have h1 : trimJs (c :: r) = trimJs r := by
        unfold trimJs
        rw [trimStart_ws c r hc]
      have h2 : (trimJs r).length ≤ r.length :=
        le_trans (length_trimEnd_le _) (length_trimStart_le r)
      rw [h1] at h
      rw [h] at h2
      simp only [List.length_cons] at h2
      omega
    · show (c :: r).dropWhile isWs = c :: r
      simp [List.dropWhile_cons, hc]

theorem keychar_not_ws {c : Char} (h : isPropKeyChar c = true) : isWs c = false := by
  cases hw : isWs c
  · rfl
  · exfalso
    simp only [isWs, Bool.or_eq_true, decide_eq_true_eq] at hw
    rcases hw with ((((h1 | h1) | h1) | h1) | h1) | h1 <;>
      (subst h1; exact absurd h (by decide))

/-- The key scan runs over the key and stops at the first non-key
character. -/
theorem takeWhile_keyrun (b : Char) (hb : isPropKeyChar b = false) (r : Str) :
    ∀ k : Str, (∀ c ∈ k, isPropKeyChar c = true) →
      (k ++ b :: r).takeWhile isPropKeyChar = k ∧
      (k ++ b :: r).dropWhile isPropKeyChar = b :: r := by
  intro k
  induction k with
  | nil =>
    intro _
    constructor
    · show (b :: r).takeWhile isPropKeyChar = []
      simp [List.takeWhile_cons, hb]
    · show (b :: r).dropWhile isPropKeyChar = b :: r
      simp [List.dropWhile_cons, hb]
  | cons c k ih =>
    intro hk
    have hc : isPropKeyChar c = true := hk c (List.mem_cons_self c k)
    obtain ⟨ih1, ih2⟩ := ih (fun x hx => hk x (List.mem_cons_of_mem c hx))
    constructor
    · show ((c :: k) ++ b :: r).takeWhile isPropKeyChar = c :: k
      rw [List.cons_append, List.takeWhile_cons, if_pos (by rw [hc])]
      rw [ih1]
    · show ((c :: k) ++ b :: r).dropWhile isPropKeyChar = b :: r
      rw [List.cons_append, List.dropWhile_cons, if_pos (by rw [hc])]
      exact ih2

theorem propMatch_dash_sp (t : Str) : propMatch ('-' :: ' ' :: t) = none := by
  simp only [propMatch, List.takeWhile_cons, List.dropWhile_cons,
    show isPropKeyChar ('-') = true from by decide,
    show isPropKeyChar (' ') = false from by decide, if_true, if_false]
  rfl

theorem propMatch_key (k : Str) (hk : ∀ c ∈ k, isPropKeyChar c = true) (hne : k ≠ [])
    (w : Str) : propMatch (k ++ ':' :: ':' :: w) = some (k, w.dropWhile isWs) := by
  obtain ⟨t1, t2⟩ := takeWhile_keyrun ':' (by decide) (':' :: w) k hk
  cases k with
  | nil => exact absurd rfl hne
  | cons kc kt =>
    simp only [propMatch, t1, t2]

theorem showPropVal_trimmed (v : PropVal) (hval : goodVal v = true) :
    trimJs (showPropVal v) = showPropVal v := by
  cases v with
  | str s =>
    simp only [goodVal, Bool.and_eq_true] at hval
    exact eq_of_beq hval.1.1.1.1
  | num s =>
    simp only [goodVal, Bool.and_eq_true] at hval
    exact eq_of_beq hval.1.1
  | bool b => cases b <;> decide

theorem trimEnd_of_trimJs (sv : Str) (h : trimJs sv = sv) : trimEnd sv = sv := by
  have hds := trimJs_dropWhile sv h
  unfold trimJs trimStart at h
  rw [hds] at h
  exact h

theorem trimEnd_propTail (sv : Str) (h : trimEnd sv = sv) :
    trimEnd (':' :: ':' :: ' ' :: sv)
      = ':' :: ':' :: (if sv = [] then [] else ' ' :: sv) := by
  by_cases hsv : sv = []
  · subst hsv
    rw [if_pos rfl]
    decide
  · rw [if_neg hsv]
    rw [trimEnd_cons ':' _ (by decide), trimEnd_cons ':' _ (by decide)]
    have hsp : trimEnd (' ' :: sv) = ' ' :: sv := by
      have h2 : trimEnd ([' '] ++ sv) = [' '] ++ trimEnd sv :=
        trimEnd_append [' '] sv (by rw [h]; exact hsv)
      rw [h] at h2
      exact h2
    rw [hsp]

theorem trimJs_propLine (d : Nat) (k sv : Str) (hk : ∀ c ∈ k, isPropKeyChar c = true)
    (hne : k ≠ []) (hsv : trimJs sv = sv) :
    trimJs (tabs (d + 1) ++ (k ++ ':' :: ':' :: ' ' :: sv))
      = k ++ ':' :: ':' :: (if sv = [] then [] else ' ' :: sv) := by
  unfold trimJs
  rw [trimStart_tabs]
  cases k with
  | nil => exact absurd rfl hne
  | cons kc kt =>
    rw [List.cons_append,
      trimStart_cons _ _ (keychar_not_ws (hk kc (List.mem_cons_self kc kt))),
      ← List.cons_append]
    have hte : trimEnd sv = sv := trimEnd_of_trimJs sv hsv
    have htail := trimEnd_propTail sv hte
    rw [trimEnd_append (kc :: kt) (':' :: ':' :: ' ' :: sv) (by rw [htail]; simp), htail]

/-- The property regex recovers exactly the serialized key and value from a
serialized property line. -/
theorem propMatch_serLine (d : Nat) (k : Str) (v : PropVal)
    (hkey : goodKey k = true) (hval : goodVal v = true) :
    propMatch (trimJs (tabs (d + 1) ++ propLine k v)) = some (k, showPropVal v) := by
  simp only [goodKey, Bool.and_eq_true] at hkey
  have hne : k ≠ [] := by
    intro h
    rw [h] at hkey
    exact absurd hkey.1 (by decide)
  have hkc : ∀ c ∈ k, isPropKeyChar c = true := List.all_eq_true.mp hkey.2
  have hsv : trimJs (showPropVal v) = showPropVal v := showPropVal_trimmed v hval
  show propMatch (trimJs (tabs (d + 1) ++ (k ++ ':' :: ':' :: ' ' :: showPropVal v))) = _
  rw [trimJs_propLine d k (showPropVal v) hkc hne hsv]
  rw [propMatch_key k hkc hne]
  by_cases he : showPropVal v = []
  · rw [if_pos he, he]
    rfl
  · rw [if_neg he]
    rw [List.dropWhile_cons, if_pos (by decide), trimJs_dropWhile _ hsv]

theorem countTabs_propLine (d : Nat) (k : Str) (v : PropVal) (hkey : goodKey k = true) :
    countTabs (tabs (d + 1) ++ propLine k v) = d + 1 := by
  simp only [goodKey, Bool.and_eq_true] at hkey
  cases k with
  | nil => exact absurd hkey.1 (by decide)
  | cons kc kt =>
    have hkc : isPropKeyChar kc = true :=
      List.all_eq_true.mp hkey.2 kc (List.mem_cons_self kc kt)
    have hnws : isWs kc = false := keychar_not_ws hkc
    have hnt : ¬(kc = '\t') := by
      intro h
      rw [h] at hnws
      exact absurd hnws (by decide)
    show countTabs (tabs (d + 1) ++ (kc :: (kt ++ ':' :: ':' :: ' ' :: showPropVal v))) = d + 1
    exact countTabs_tabs (d + 1) kc _ hnt

theorem trimJs_bullet (e : Nat) (c : Str) :
    ∃ r, trimJs (tabs e ++ '-' :: ' ' :: c) = '-' :: r ∧ (r = [] ∨ ∃ t, r = ' ' :: t) := by
  unfold trimJs
  rw [trimStart_tabs, trimStart_cons '-' _ (by decide),
    trimEnd_cons '-' _ (by decide)]
  exact ⟨trimEnd (' ' :: c), rfl, trimEnd_head ' ' c⟩

theorem propMatch_bullet (e : Nat) (c : Str) :
    propMatch (trimJs (tabs e ++ '-' :: ' ' :: c)) = none := by
  obtain ⟨r, hr, hsh⟩ := trimJs_bullet e c
  rw [hr]
  rcases hsh with rfl | ⟨t, rfl⟩
  · decide
  · exact propMatch_dash_sp t

theorem bullet_nonblank (e : Nat) (c : Str) :
    (trimJs (tabs e ++ '-' :: ' ' :: c)).isEmpty = false := by
  obtain ⟨r, hr, hsh⟩ := trimJs_bullet e c
  rw [hr]
  rfl

theorem bulletMatch_ser (d : Nat) (c : Str) (hc : trimJs c = c) :
    bulletMatch (tabs d ++ '-' :: ' ' :: c) = some (d, c) := by
  have h1 : (tabs d ++ '-' :: ' ' :: c).takeWhile (· = '\t') = tabs d :=
    takeWhile_tabs d '-' _ (by decide)
  have h2 : (tabs d ++ '-' :: ' ' :: c).dropWhile (· = '\t') = '-' :: ' ' :: c :=
    dropWhile_tabs d '-' _ (by decide)
  unfold bulletMatch
  rw [h2, h1]
  show (if isWs ' ' = true then some ((tabs d).length, (' ' :: c).dropWhile isWs) else none)
    = some (d, c)
  rw [if_pos (by decide), length_tabs, List.dropWhile_cons, if_pos (by decide),
    trimJs_dropWhile c hc]

theorem parsePropertyValue_show (v : PropVal) (hval : goodVal v = true) :
    parsePropertyValue (showPropVal v) = v := by
  cases v with
  | str s =>
    simp only [goodVal, Bool.and_eq_true] at hval
    obtain ⟨⟨⟨⟨htr, hnl⟩, hnt⟩, hnf⟩, hnn⟩ := hval
    have hnt2 : trimJs s ≠ "true".toList := by
      rw [eq_of_beq htr]; simpa using hnt
    have hnf2 : trimJs s ≠ "false".toList := by
      rw [eq_of_beq htr]; simpa using hnf
    have hnn2 : isNumLit (trimJs s) = false := by
      rw [eq_of_beq htr]; simpa using hnn
    show (if trimJs s = "true".toList then PropVal.bool true
      else if trimJs s = "false".toList then PropVal.bool false
      else if isNumLit (trimJs s) then PropVal.num (trimJs s)
      else PropVal.str (trimJs s)) = PropVal.str s
    rw [if_neg hnt2, if_neg hnf2, if_neg (by rw [hnn2]; exact Bool.false_ne_true),
      eq_of_beq htr]
  | num s =>
    simp only [goodVal, Bool.and_eq_true] at hval
    obtain ⟨⟨htr, hnl⟩, hnum⟩ := hval
    have hnt2 : trimJs s ≠ "true".toList := by
      rw [eq_of_beq htr]
      intro h
      rw [h] at hnum
      exact absurd hnum (by decide)
    have hnf2 : trimJs s ≠ "false".toList := by
      rw [eq_of_beq htr]
      intro h
      rw [h] at hnum
      exact absurd hnum (by decide)
    show (if trimJs s = "true".toList then PropVal.bool true
      else if trimJs s = "false".toList then PropVal.bool false
      else if isNumLit (trimJs s) then PropVal.num (trimJs s)
      else PropVal.str (trimJs s)) = PropVal.num s
    rw [if_neg hnt2, if_neg hnf2, eq_of_beq htr, if_pos hnum]
  | bool b => cases b <;> rfl

theorem setProp_fresh (ps : Props) (k : Str) (v : PropVal)
    (h : ps.any (fun p => p.1 == k) = false) : setProp ps k v = ps ++ [(k, v)] := by
  unfold setProp
  rw [h]
  simp

theorem foldl_setProp : ∀ (pls : Props) (acc : Props),
    ((acc.map Prod.fst) ++ pls.map Prod.fst).Nodup →
    pls.foldl (fun a p => setProp a p.1 p.2) acc = acc ++ pls := by
  intro pls
  induction pls with
  | nil => intro acc _; simp
  | cons p pls ih =>
    intro acc hnd
    rw [List.foldl_cons]
    have hnotin : p.1 ∉ acc.map Prod.fst := by
      intro hmem
      obtain ⟨-, -, hdisj⟩ := List.nodup_append.mp hnd
      exact hdisj hmem (by rw [List.map_cons]; exact List.mem_cons_self p.1 _)
    have hfresh : acc.any (fun q => q.1 == p.1) = false := by
      by_contra hq
      rw [Bool.not_eq_false, List.any_eq_true] at hq
      obtain ⟨q, hqmem, hqeq⟩ := hq
      exact hnotin (eq_of_beq hqeq ▸ List.mem_map_of_mem Prod.fst hqmem)
    rw [setProp_fresh acc p.1 p.2 hfresh]
    have hnd2 : (((acc ++ [(p.1, p.2)]).map Prod.fst) ++ pls.map Prod.fst).Nodup := by
      simp only [List.map_append, List.map_cons, List.map_nil, List.append_assoc,
        List.singleton_append]
      simpa using hnd
    rw [ih (acc ++ [(p.1, p.2)]) hnd2]
    simp

theorem takeProps_cons (lvl : Nat) (acc : Props) (l : Str) (t : List Str) :
    takeProps lvl acc (l :: t)
      = if countTabs l ≤ lvl ∧ ¬((trimJs l).isEmpty = true) then (acc, l :: t)
        else match propMatch (trimJs l) with
          | some kv =>
            if lvl < countTabs l then
              takeProps lvl (setProp acc kv.1 (parsePropertyValue kv.2)) t
            else (acc, l :: t)
          | none => (acc, l :: t) := rfl

theorem takeProps_stop (lvl : Nat) (acc : Props) (l : Str) (t : List Str)
    (h : propMatch (trimJs l) = none) : takeProps lvl acc (l :: t) = (acc, l :: t) := by
  rw [takeProps_cons]
  by_cases hc : countTabs l ≤ lvl ∧ ¬((trimJs l).isEmpty = true)
  · rw [if_pos hc]
  · rw [if_neg hc, h]

theorem takeProps_step (d : Nat) (acc : Props) (k : Str) (v : PropVal) (t : List Str)
    (hkey : goodKey k = true) (hval : goodVal v = true) :
    takeProps d acc ((tabs (d + 1) ++ propLine k v) :: t)
      = takeProps d (setProp acc k v) t := by
  have hct := countTabs_propLine d k v hkey
  have hpm := propMatch_serLine d k v hkey hval
  rw [takeProps_cons, if_neg (fun hcon => absurd (hct ▸ hcon.1) (by omega)), hpm]
  show (if d < countTabs (tabs (d + 1) ++ propLine k v)
      then takeProps d (setProp acc k (parsePropertyValue (showPropVal v))) t
      else (acc, (tabs (d + 1) ++ propLine k v) :: t)) = takeProps d (setProp acc k v) t
  rw [if_pos (show d < countTabs (tabs (d + 1) ++ propLine k v) by rw [hct]; omega),
    parsePropertyValue_show v hval]

theorem takeProps_props (d : Nat) :
    ∀ (pls : Props) (acc : Props) (rest : List Str),
      (∀ p ∈ pls, goodKey p.1 = true ∧ goodVal p.2 = true) →
      safeL rest →
      takeProps d acc (pls.map (fun p => tabs (d + 1) ++ propLine p.1 p.2) ++ rest)
        = (pls.foldl (fun a p => setProp a p.1 p.2) acc, rest) := by
  intro pls
  induction pls with
  | nil =>
    intro acc rest hg hs
    simp only [List.map_nil, List.nil_append, List.foldl_nil]
    cases rest with
    | nil => rfl
    | cons h t => exact takeProps_stop d acc h t (hs h t rfl)
  | cons p pls ih =>
    intro acc rest hg hs
    simp only [List.map_cons, List.cons_append, List.foldl_cons]
    rw [takeProps_step d acc p.1 p.2 _ (hg p (List.mem_cons_self p pls)).1
      (hg p (List.mem_cons_self p pls)).2]
    exact ih (setProp acc p.1 p.2) rest (fun q hq => hg q (List.mem_cons_of_mem p hq)) hs

theorem takeProps_len (lvl : Nat) : ∀ (lines : List Str) (acc : Props),
    (takeProps lvl acc lines).2.length ≤ lines.length := by
  intro lines
  induction lines with
  | nil => intro acc; exact Nat.le_refl 0
  | cons l t ih =>
    intro acc
    rw [takeProps_cons]
    by_cases hc : countTabs l ≤ lvl ∧ ¬((trimJs l).isEmpty = true)
    · rw [if_pos hc]
    · rw [if_neg hc]
      cases hpm : propMatch (trimJs l) with
      | none => exact Nat.le_refl _
      | some kv =>
        show ((if lvl < countTabs l
            then takeProps lvl (setProp acc kv.1 (parsePropertyValue kv.2)) t
            else (acc, l :: t))).2.length ≤ (l :: t).length
        by_cases hlt : lvl < countTabs l
        · rw [if_pos hlt]
          exact le_trans (ih (setProp acc kv.1 (parsePropertyValue kv.2))) (by simp)
        · rw [if_neg hlt]

theorem parseItemsF_mono : ∀ (n : Nat) (lines : List Str), lines.length ≤ n →
    ∀ (f1 f2 : Nat), lines.length ≤ f1 → lines.length ≤ f2 →
      parseItemsF f1 lines = parseItemsF f2 lines := by
  intro n
  induction n with
  | zero =>
    intro lines h f1 f2 h1 h2
    have hl : lines = [] := List.eq_nil_of_length_eq_zero (by omega)
    subst hl
    cases f1 <;> cases f2 <;> rfl
  | succ n ih =>
    intro lines h f1 f2 h1 h2
    cases lines with
    | nil => cases f1 <;> cases f2 <;> rfl
    | cons l t =>
      simp only [List.length_cons] at h h1 h2
      obtain ⟨m1, rfl⟩ : ∃ m1, f1 = m1 + 1 := ⟨f1 - 1, by omega⟩
      obtain ⟨m2, rfl⟩ : ∃ m2, f2 = m2 + 1 := ⟨f2 - 1, by omega⟩
      cases hbm : bulletMatch l with
      | none =>
        show parseItemsF (m1 + 1) (l :: t) = parseItemsF (m2 + 1) (l :: t)
        simp only [parseItemsF, hbm]
        exact ih t (by omega) m1 m2 (by omega) (by omega)
      | some lc =>
        have hlen := takeProps_len lc.1 t []
        show parseItemsF (m1 + 1) (l :: t) = parseItemsF (m2 + 1) (l :: t)
        simp only [parseItemsF, hbm]
        rw [ih (takeProps lc.1 [] t).2 (by omega) m1 m2 (by omega) (by omega)]

theorem splitNl_nlfree (l : Str) (h : ∀ c ∈ l, ¬(c = '\n')) : splitNl l = [l] := by
  induction l with
  | nil => rfl
  | cons c r ih =>
    simp only [splitNl]
    rw [if_neg (h c (List.mem_cons_self c r)),
      ih (fun x hx => h x (List.mem_cons_of_mem c hx))]

theorem splitNl_append_nl (l : Str) (X : Str) (h : ∀ c ∈ l, ¬(c = '\n')) :
    splitNl (l ++ '\n' :: X) = l :: splitNl X := by
  induction l with
  | nil =>
    show splitNl ('\n' :: X) = [] :: splitNl X
    simp [splitNl]
  | cons c r ih =>
    show splitNl (c :: (r ++ '\n' :: X)) = (c :: r) :: splitNl X
    simp only [splitNl]
    rw [if_neg (h c (List.mem_cons_self c r)),
      ih (fun x hx => h x (List.mem_cons_of_mem c hx))]

theorem splitNl_joinNl : ∀ lines : List Str, lines ≠ [] →
    (∀ l ∈ lines, ∀ c ∈ l, ¬(c = '\n')) → splitNl (joinNl lines) = lines := by
  intro lines
  induction lines with
  | nil => intro h _; exact absurd rfl h
  | cons l ls ih =>
    intro _ hnl
    cases ls with
    | nil =>
      show splitNl (joinNl [l]) = [l]
      exact splitNl_nlfree l (hnl l (List.mem_cons_self l []))
    | cons l2 ls2 =>
      show splitNl (l ++ '\n' :: joinNl (l2 :: ls2)) = l :: l2 :: ls2
      rw [splitNl_append_nl l _ (hnl l (List.mem_cons_self l _)),
        ih (by simp) (fun x hx => hnl x (List.mem_cons_of_mem l hx))]

theorem hexdash_not_ws {ch : Char} (h : (isHexCI ch || ch == '-') = true) :
    isWs ch = false := by
  cases hw : isWs ch
  · rfl
  · exfalso
    simp only [isWs, Bool.or_eq_true, decide_eq_true_eq] at hw
    rcases hw with ((((h1 | h1) | h1) | h1) | h1) | h1 <;>
      (subst h1; exact absurd h (by decide))

theorem trimJs_of_nows (s : Str) (h : ∀ ch ∈ s, isWs ch = false) : trimJs s = s := by
  have h1 : s.dropWhile isWs = s := by
    cases s with
    | nil => rfl
    | cons c r =>
      rw [List.dropWhile_cons, if_neg (by rw [h c (List.mem_cons_self c r)]; simp)]
  have h2 : s.reverse.dropWhile isWs = s.reverse := by
    cases hr : s.reverse with
    | nil => rfl
    | cons c r =>
      have hc : c ∈ s := by
        rw [← List.mem_reverse, hr]
        exact List.mem_cons_self c r
      rw [List.dropWhile_cons, if_neg (by rw [h c hc]; simp)]
  show trimEnd (s.dropWhile isWs) = s
  rw [h1]
  show (s.reverse.dropWhile isWs).reverse = s
  rw [h2, List.reverse_reverse]

theorem dropDigitHex : ∀ (a : Str), a.all isHexCI = true → ∀ x : Str,
    ∃ ch t, (a ++ '-' :: x).dropWhile isDigit = ch :: t ∧ ¬(ch = '.') := by
  intro a
  induction a with
  | nil =>
    intro _ x
    refine ⟨'-', x, ?_, by decide⟩
    show ('-' :: x).dropWhile isDigit = '-' :: x
    rw [List.dropWhile_cons, if_neg (by decide)]
  | cons c a1 ih =>
    intro hall x
    simp only [List.all_cons, Bool.and_eq_true] at hall
    by_cases hd : isDigit c = true
    · obtain ⟨ch, t, hdw, hch⟩ := ih hall.2 x
      refine ⟨ch, t, ?_, hch⟩
      show ((c :: a1) ++ '-' :: x).dropWhile isDigit = ch :: t
      rw [List.cons_append, List.dropWhile_cons, if_pos hd]
      exact hdw
    · refine ⟨c, a1 ++ '-' :: x, ?_, ?_⟩
      · show ((c :: a1) ++ '-' :: x).dropWhile isDigit = c :: (a1 ++ '-' :: x)
        rw [List.cons_append, List.dropWhile_cons, if_neg hd]
      · intro hdot
        rw [hdot] at hall
        exact absurd hall.1 (by decide)

theorem consumeUuid_dash8 {s u r : Str} (he : consumeUuid s = some (u, r)) :
    ∃ a x, u = a ++ '-' :: x ∧ a.all isHexCI = true ∧ a.length = 8 := by
  simp only [consumeUuid, bind, Option.bind_eq_some, pure, Option.some.injEq] at he
  obtain ⟨⟨a, r1⟩, h1, r2, h2, ⟨b, r3⟩, h3, r4, h4, ⟨c, r5⟩, h5, r6, h6, ⟨d, r7⟩, h7,
    r8, h8, ⟨e, r9⟩, h9, heq⟩ := he
  obtain ⟨hsa, hla, hxa⟩ := takeHexCI_sound _ _ _ _ h1
  obtain ⟨hu, hr⟩ := Prod.mk.injEq .. ▸ heq
  refine ⟨a, b ++ '-' :: c ++ '-' :: d ++ '-' :: e, ?_, hxa, hla⟩
  rw [← hu]
  simp [List.cons_append, List.append_assoc]

theorem isNumLit_false_of (c0 : Char) (r0 : Str) (hc0 : ¬(c0 = '-')) (ch : Char)
    (t2 : Str) (hdw : (c0 :: r0).dropWhile isDigit = ch :: t2) (hch : ¬(ch = '.')) :
    isNumLit (c0 :: r0) = false := by
  simp only [isNumLit]
  split
  · rename_i heq
    split at heq
    · rename_i r heq2
      injection heq2 with h1 h2
      exact absurd h1 hc0
    · rw [hdw] at heq
      cases heq
  · rename_i ds heq
    split at heq
    · rename_i r heq2
      injection heq2 with h1 h2
      exact absurd h1 hc0
    · rw [hdw] at heq
      injection heq with h1 h2
      exact absurd h1 hch
  · rfl

/-- The id value serialized from a uuid parses back as the same plain
string property: a uuid is trimmed, newline-free, is no boolean literal and
no numeric literal. -/
theorem uuidStr_goodVal {u : Str} (h : uuidTestCI u = true) :
    goodVal (.str u) = true := by
  have hacc := uuidTestCI_accept h
  have h0 := hacc []
  rw [List.append_nil] at h0
  have hm := consumeUuid_master h0
  obtain ⟨a, x, hux, hxa, hla⟩ := consumeUuid_dash8 h0
  have hlen := hm.2.1
  have hall := hm.2.2.1
  simp only [goodVal, Bool.and_eq_true]
  refine ⟨⟨⟨⟨?_, ?_⟩, ?_⟩, ?_⟩, ?_⟩
  · exact beq_iff_eq.mpr (trimJs_of_nows u
      (fun ch hch => hexdash_not_ws (List.all_eq_true.mp hall ch hch)))
  · apply List.all_eq_true.mpr
    intro ch hch
    have hx := List.all_eq_true.mp hall ch hch
    have hx2 : isHexCI ch = true ∨ (ch == '-') = true := by simpa using hx
    rcases hx2 with hhex | hdash
    · simp only [Bool.not_eq_true']
      apply beq_eq_false_iff_ne.mpr
      intro hnl
      rw [hnl] at hhex
      exact absurd hhex (by decide)
    · simp only [Bool.not_eq_true']
      apply beq_eq_false_iff_ne.mpr
      intro hnl
      rw [hnl] at hdash
      exact absurd hdash (by decide)
  · cases hb : u == ("true".toList) with
    | false => rfl
    | true =>
      exfalso
      rw [eq_of_beq hb] at hlen
      exact absurd hlen (by decide)
  · cases hb : u == ("false".toList) with
    | false => rfl
    | true =>
      exfalso
      rw [eq_of_beq hb] at hlen
      exact absurd hlen (by decide)
  · cases a with
    | nil => exact absurd hla (by decide)
    | cons a0 a1 =>
      have ha0 : isHexCI a0 = true := by
        simp only [List.all_cons, Bool.and_eq_true] at hxa
        exact hxa.1
      have hc0 : ¬(a0 = '-') := by
        intro hh
        rw [hh] at ha0
        exact absurd ha0 (by decide)
      obtain ⟨ch, t2, hdw, hch⟩ := dropDigitHex (a0 :: a1) hxa x
      rw [List.cons_append] at hdw
      have hun : isNumLit u = false := by
        rw [hux, List.cons_append]
        exact isNumLit_false_of a0 (a1 ++ '-' :: x) hc0 ch t2 hdw hch
      rw [hun]
      rfl

theorem serLinesList_nil (d : Nat) : serLinesList [] d = [] := rfl

theorem serLinesList_cons (b : Block) (bs : List Block) (d : Nat) :
    serLinesList (b :: bs) d = serLines b d ++ serLinesList bs d := rfl

theorem canonItemsL_cons (b : Block) (bs : List Block) (d : Nat) :
    canonItemsL (b :: bs) d = canonItems b d ++ canonItemsL bs d := rfl

theorem canonItems_mk (u c : Str) (lv : Nat) (ps : Props) (ks : List Block)
    (pu : Option Str) (d : Nat) :
    canonItems (.mk u c lv ps ks pu) d
      = ⟨d, c, (idKey, .str u) :: ps⟩ :: canonItemsL ks (d + 1) := rfl

theorem parseItems_eq (lines : List Str) :
    parseItems lines = parseItemsF lines.length lines := rfl

theorem parseItemsF_cons (fuel : Nat) (l : Str) (t : List Str) :
    parseItemsF (fuel + 1) (l :: t)
      = match bulletMatch l with
        | some lc =>
          ⟨lc.1, trimJs lc.2, (takeProps lc.1 [] t).1⟩
            :: parseItemsF fuel (takeProps lc.1 [] t).2
        | none => parseItemsF fuel t := rfl

theorem uuid_nonempty {u : Str} (h : uuidTestCI u = true) : u.isEmpty = false := by
  cases u with
  | nil => exact absurd h (by decide)
  | cons a t => rfl

theorem serLines_mk (u c : Str) (lv : Nat) (ps : Props) (ks : List Block)
    (pu : Option Str) (d : Nat) (hu : u.isEmpty = false) :
    serLines (.mk u c lv ps ks pu) d
      = (tabs d ++ '-' :: ' ' :: trimJs c)
        :: (((idKey, PropVal.str u) :: ps).map (fun p => tabs (d + 1) ++ propLine p.1 p.2)
            ++ serLinesList ks (d + 1)) := by
  show (tabs d ++ '-' :: ' ' :: trimJs c)
      :: (((if u.isEmpty then [] else [propLine idKey (.str u)])
            ++ ps.map (fun p => propLine p.1 p.2)).map (fun l => tabs (d + 1) ++ l)
          ++ serLinesList ks (d + 1)) = _
  rw [hu]
  show (tabs d ++ '-' :: ' ' :: trimJs c)
      :: ((propLine idKey (.str u) :: ps.map (fun p => propLine p.1 p.2)).map
            (fun l => tabs (d + 1) ++ l)
          ++ serLinesList ks (d + 1)) = _
  simp only [List.map_cons, List.map_map]
  rfl

theorem serLines_head_eq (u c : Str) (lv : Nat) (ps : Props) (ks : List Block)
    (pu : Option Str) (d : Nat) :
    ∃ t0, serLines (.mk u c lv ps ks pu) d = (tabs d ++ '-' :: ' ' :: trimJs c) :: t0 :=
  ⟨_, rfl⟩

/-- Every serialized line list is a safe continuation: its head, when
present, is a bullet line, which no property match accepts. -/
theorem serList_safe (F : List Block) (d : Nat) (rest : List Str) (hs : safeL rest) :
    safeL (serLinesList F d ++ rest) := by
  cases F with
  | nil => exact hs
  | cons b bs =>
    cases b with
    | mk u c lv ps ks pu =>
      intro h t heq
      obtain ⟨t0, ht0⟩ := serLines_head_eq u c lv ps ks pu d
      rw [serLinesList_cons, ht0] at heq
      simp only [List.cons_append, List.append_assoc] at heq
      injection heq with h1 h2
      rw [← h1]
      exact propMatch_bullet d (trimJs c)

theorem goodL_cons {b : Block} {bs : List Block} :
    goodL (b :: bs) = true ↔ goodB b = true ∧ goodL bs = true := by
  show (goodB b && goodL bs) = true ↔ _
  simp only [Bool.and_eq_true]

theorem goodB_parts {u c : Str} {lv : Nat} {ps : Props} {ks : List Block}
    {pu : Option Str} (h : goodB (.mk u c lv ps ks pu) = true) :
    uuidTestCI u = true ∧ trimJs c = c ∧ (∀ ch ∈ c, ¬(ch = '\n')) ∧
      goodProps ps = true ∧ goodL ks = true := by
  simp only [goodB, Bool.and_eq_true] at h
  obtain ⟨⟨⟨⟨h1, h2⟩, h3⟩, h4⟩, h5⟩ := h
  refine ⟨h1, eq_of_beq h2, ?_, h4, h5⟩
  intro ch hch hnl
  have hx := List.all_eq_true.mp h3 ch hch
  rw [hnl] at hx
  exact absurd hx (by decide)

theorem goodProps_parts {ps : Props} (h : goodProps ps = true) :
    (∀ p ∈ ps, goodKey p.1 = true ∧ goodVal p.2 = true) ∧
      (idKey :: ps.map Prod.fst).Nodup := by
  simp only [goodProps, Bool.and_eq_true] at h
  obtain ⟨⟨h1, h2⟩, h3⟩ := h
  constructor
  · intro p hp
    simpa [Bool.and_eq_true] using List.all_eq_true.mp h1 p hp
  · rw [List.nodup_cons]
    constructor
    · intro hmem
      obtain ⟨p, hp, hfst⟩ := List.mem_map.mp hmem
      have hany : ps.any (fun p => p.1 == idKey) = true :=
        List.any_eq_true.mpr ⟨p, hp, beq_iff_eq.mpr hfst⟩
      rw [hany] at h2
      exact absurd h2 (by decide)
    · exact of_decide_eq_true h3

theorem idProps_foldl {u : Str} (ps : Props) (hnd : (idKey :: ps.map Prod.fst).Nodup) :
    ((idKey, PropVal.str u) :: ps).foldl (fun a p => setProp a p.1 p.2) ([] : Props)
      = (idKey, PropVal.str u) :: ps := by
  have hh := foldl_setProp ((idKey, PropVal.str u) :: ps) []
    (by rw [List.map_nil, List.nil_append, List.map_cons]; exact hnd)
  rw [List.nil_append] at hh
  exact hh

/-- The central reparse lemma: the serialized lines of a well-formed forest,
followed by any safe continuation, parse back into the canonical items of
the forest (levels = recursion depth, contents verbatim, the id property
leading each property list) followed by the parse of the continuation. -/
theorem parse_serList : ∀ (n : Nat) (F : List Block) (d : Nat) (rest : List Str),
    (serLinesList F d).length ≤ n → goodL F = true → safeL rest →
    parseItems (serLinesList F d ++ rest) = canonItemsL F d ++ parseItems rest := by
  intro n
  induction n with
  | zero =>
    intro F d rest hn hg hs
    cases F with
    | nil => rfl
    | cons b bs =>
      exfalso
      cases b with
      | mk u c lv ps ks pu =>
        obtain ⟨t0, ht0⟩ := serLines_head_eq u c lv ps ks pu d
        rw [serLinesList_cons, ht0] at hn
        simp at hn
  | succ n ih =>
    intro F d rest hn hg hs
    cases F with
    | nil => rfl
    | cons b bs =>
      cases b with
      | mk u c lv ps ks pu =>
        obtain ⟨hgb, hgbs⟩ := goodL_cons.mp hg
        obtain ⟨huu, htc, hcnl, hgp, hgks⟩ := goodB_parts hgb
        obtain ⟨hpairs, hnd⟩ := goodProps_parts hgp
        have hu : u.isEmpty = false := uuid_nonempty huu
        rw [serLinesList_cons, serLines_mk u c lv ps ks pu d hu] at hn ⊢
        rw [canonItemsL_cons, canonItems_mk]
        simp only [List.cons_append, List.append_assoc]
        simp only [List.length_cons, List.length_append] at hn
        rw [htc]
        have hsafe2 : safeL (serLinesList bs d ++ rest) := serList_safe bs d rest hs
        have hsafe1 : safeL (serLinesList ks (d + 1) ++ (serLinesList bs d ++ rest)) := serList_safe ks (d + 1) (serLinesList bs d ++ rest) hsafe2
        have hgoodpairs : ∀ p ∈ (idKey, PropVal.str u) :: ps,
            goodKey p.1 = true ∧ goodVal p.2 = true := by
          intro p hp
          rcases List.mem_cons.mp hp with rfl | hp2
          · exact ⟨(by decide : goodKey idKey = true), uuidStr_goodVal huu⟩
          · exact hpairs p hp2
        have htp : takeProps d [] (((idKey, PropVal.str u) :: ps).map (fun p => tabs (d + 1) ++ propLine p.1 p.2) ++ (serLinesList ks (d + 1) ++ (serLinesList bs d ++ rest)))
            = ((idKey, PropVal.str u) :: ps, serLinesList ks (d + 1) ++ (serLinesList bs d ++ rest)) := by
          rw [takeProps_props d ((idKey, PropVal.str u) :: ps) [] (serLinesList ks (d + 1) ++ (serLinesList bs d ++ rest))
            hgoodpairs hsafe1, idProps_foldl ps hnd]
        have hbm := bulletMatch_ser d c htc
        rw [parseItems_eq, List.length_cons, parseItemsF_cons, hbm]
        show (⟨d, trimJs c, (takeProps d [] (((idKey, PropVal.str u) :: ps).map (fun p => tabs (d + 1) ++ propLine p.1 p.2) ++ (serLinesList ks (d + 1) ++ (serLinesList bs d ++ rest)))).1⟩ : RawItem)
            :: parseItemsF (((idKey, PropVal.str u) :: ps).map (fun p => tabs (d + 1) ++ propLine p.1 p.2) ++ (serLinesList ks (d + 1) ++ (serLinesList bs d ++ rest))).length (takeProps d [] (((idKey, PropVal.str u) :: ps).map (fun p => tabs (d + 1) ++ propLine p.1 p.2) ++ (serLinesList ks (d + 1) ++ (serLinesList bs d ++ rest)))).2
          = _
        rw [htp, htc]
        have hmlen : (serLinesList ks (d + 1) ++ (serLinesList bs d ++ rest)).length ≤ (((idKey, PropVal.str u) :: ps).map (fun p => tabs (d + 1) ++ propLine p.1 p.2) ++ (serLinesList ks (d + 1) ++ (serLinesList bs d ++ rest))).length := by
          simp only [List.length_append]
          omega
        rw [parseItemsF_mono (((idKey, PropVal.str u) :: ps).map (fun p => tabs (d + 1) ++ propLine p.1 p.2) ++ (serLinesList ks (d + 1) ++ (serLinesList bs d ++ rest))).length (serLinesList ks (d + 1) ++ (serLinesList bs d ++ rest)) hmlen (((idKey, PropVal.str u) :: ps).map (fun p => tabs (d + 1) ++ propLine p.1 p.2) ++ (serLinesList ks (d + 1) ++ (serLinesList bs d ++ rest))).length ((serLinesList ks (d + 1) ++ (serLinesList bs d ++ rest)).length)
          hmlen (Nat.le_refl _), ← parseItems_eq]
        rw [ih ks (d + 1) (serLinesList bs d ++ rest) (by omega) hgks hsafe2]
        rw [ih bs d rest (by omega) hgbs hs]

theorem dropWhile_head_false (p : Char → Bool) :
    ∀ (s : Str) (c : Char) (t : Str), s.dropWhile p = c :: t → p c = false := by
  intro s
  induction s with
  | nil => intro c t h; cases h
  | cons a r ih =>
    intro c t h
    rw [List.dropWhile_cons] at h
    by_cases hp : p a = true
    · rw [if_pos hp] at h
      exact ih c t h
    · rw [if_neg hp] at h
      injection h with h1 h2
      rw [← h1]
      exact Bool.not_eq_true _ ▸ hp

theorem dropWhile_idem (p : Char → Bool) (l : Str) :
    (l.dropWhile p).dropWhile p = l.dropWhile p := by
  cases hd : l.dropWhile p with
  | nil => rfl
  | cons c t =>
    rw [List.dropWhile_cons, if_neg (by rw [dropWhile_head_false p l c t hd]; simp)]

theorem trimEnd_idem (z : Str) : trimEnd (trimEnd z) = trimEnd z := by
  show (((z.reverse.dropWhile isWs).reverse).reverse.dropWhile isWs).reverse
    = (z.reverse.dropWhile isWs).reverse
  rw [List.reverse_reverse, dropWhile_idem]

theorem trimJs_idem2 (x : Str) : trimJs (trimJs x) = trimJs x := by
  cases hsx : trimStart x with
  | nil =>
    have hx : trimJs x = [] := by
      show trimEnd (trimStart x) = []
      rw [hsx]
      rfl
    rw [hx]
    rfl
  | cons h0 y =>
    have hh0 : isWs h0 = false := dropWhile_head_false isWs x h0 y hsx
    have hx : trimJs x = trimEnd (h0 :: y) := by
      show trimEnd (trimStart x) = _
      rw [hsx]
    rcases trimEnd_head h0 y with he | ⟨t, he⟩
    · rw [hx, he]
      rfl
    · rw [hx, he]
      show trimEnd (trimStart (h0 :: t)) = h0 :: t
      rw [trimStart_cons h0 t hh0, ← he, trimEnd_idem, he]

theorem mem_of_dropWhile (p : Char → Bool) :
    ∀ (s : Str) (c : Char), c ∈ s.dropWhile p → c ∈ s := by
  intro s
  induction s with
  | nil => intro c h; cases h
  | cons a r ih =>
    intro c h
    rw [List.dropWhile_cons] at h
    by_cases hp : p a = true
    · rw [if_pos hp] at h
      exact List.mem_cons_of_mem a (ih c h)
    · rw [if_neg hp] at h
      exact h

theorem mem_of_trimJs (s : Str) (c : Char) (h : c ∈ trimJs s) : c ∈ s := by
  have h0 : c ∈ ((trimStart s).reverse.dropWhile isWs).reverse := h
  rw [List.mem_reverse] at h0
  have h1 : c ∈ (trimStart s).reverse := mem_of_dropWhile isWs _ c h0
  rw [List.mem_reverse] at h1
  exact mem_of_dropWhile isWs s c h1

theorem splitNl_pieces : ∀ (s : Str) (l : Str), l ∈ splitNl s → ∀ ch ∈ l, ¬(ch = '\n') := by
  intro s
  induction s with
  | nil =>
    intro l hl ch hch
    simp only [splitNl] at hl
    rcases List.mem_singleton.mp hl with rfl
    cases hch
  | cons c r ih =>
    intro l hl ch hch
    simp only [splitNl] at hl
    by_cases hc : c = '\n'
    · rw [if_pos hc] at hl
      rcases List.mem_cons.mp hl with rfl | hl2
      · cases hch
      · exact ih l hl2 ch hch
    · rw [if_neg hc] at hl
      cases hsp : splitNl r with
      | nil => exact absurd hsp (splitNl_ne_nil r)
      | cons l1 ls =>
        rw [hsp] at hl
        rcases List.mem_cons.mp hl with rfl | hl2
        · rcases List.mem_cons.mp hch with rfl | hch2
          · exact hc
          · exact ih l1 (by rw [hsp]; exact List.mem_cons_self l1 ls) ch hch2
        · exact ih l (by rw [hsp]; exact List.mem_cons_of_mem l1 hl2) ch hch

theorem takeWhile_mem_pred (p : Char → Bool) :
    ∀ (l : Str) (c : Char), c ∈ l.takeWhile p → p c = true := by
  intro l
  induction l with
  | nil => intro c h; cases h
  | cons a r ih =>
    intro c h
    rw [List.takeWhile_cons] at h
    by_cases hp : p a = true
    · rw [if_pos hp] at h
      rcases List.mem_cons.mp h with rfl | h2
      · exact hp
      · exact ih c h2
    · rw [if_neg hp] at h
      cases h

theorem bulletMatch_sub (line : Str) (lc : Nat × Str) (h : bulletMatch line = some lc) :
    ∀ ch ∈ lc.2, ch ∈ line := by
  intro ch hch
  simp only [bulletMatch] at h
  split at h
  · rename_i c0 rest heq
    split at h
    · injection h with h1
      rw [← h1] at hch
      have hch2 : ch ∈ (c0 :: rest).dropWhile isWs := hch
      have hch3 : ch ∈ ('-' :: c0 :: rest) :=
        List.mem_cons_of_mem '-' (mem_of_dropWhile isWs _ ch hch2)
      rw [← heq] at hch3
      exact mem_of_dropWhile _ line ch hch3
    · cases h
  · cases h

theorem propMatch_good (t : Str) (k v : Str) (h : propMatch t = some (k, v)) :
    goodKey k = true ∧ ∀ ch ∈ v, ch ∈ t := by
  simp only [propMatch] at h
  split at h
  · cases h
  · rename_i key2 x2 w hdrop hnil
    injection h with h1
    injection h1 with hk hv
    constructor
    · simp only [goodKey, Bool.and_eq_true]
      constructor
      · rw [← hk]
        cases hkw : t.takeWhile isPropKeyChar with
        | nil => exact absurd hkw hnil
        | cons a r => rfl
      · apply List.all_eq_true.mpr
        intro c hc
        rw [← hk] at hc
        exact takeWhile_mem_pred isPropKeyChar t c hc
    · intro ch hch
      rw [← hv] at hch
      have hch2 : ch ∈ (':' :: ':' :: w) :=
        List.mem_cons_of_mem ':' (List.mem_cons_of_mem ':'
          (mem_of_dropWhile isWs w ch hch))
      rw [← hdrop] at hch2
      exact mem_of_dropWhile isPropKeyChar t ch hch2
  · cases h

theorem parsePropertyValue_good (v : Str) (hnl : ∀ ch ∈ v, ¬(ch = '\n')) :
    goodVal (parsePropertyValue v) = true := by
  have hnlt : ∀ ch ∈ trimJs v, ¬(ch = '\n') := fun ch hch => hnl ch (mem_of_trimJs v ch hch)
  have htr : trimJs (trimJs v) = trimJs v := trimJs_idem2 v
  show goodVal (if trimJs v = "true".toList then .bool true
    else if trimJs v = "false".toList then .bool false
    else if isNumLit (trimJs v) then .num (trimJs v) else .str (trimJs v)) = true
  by_cases h1 : trimJs v = "true".toList
  · rw [if_pos h1]; rfl
  rw [if_neg h1]
  by_cases h2 : trimJs v = "false".toList
  · rw [if_pos h2]; rfl
  rw [if_neg h2]
  by_cases h3 : isNumLit (trimJs v) = true
  · rw [if_pos h3]
    show (trimJs (trimJs v) == trimJs v && (trimJs v).all (fun c => !(c == '\n'))
      && isNumLit (trimJs v)) = true
    rw [htr, h3]
    simp only [beq_self_eq_true, Bool.true_and, Bool.and_true]
    apply List.all_eq_true.mpr
    intro ch hch
    simp only [Bool.not_eq_true']
    exact beq_eq_false_iff_ne.mpr (hnlt ch hch)
  · rw [if_neg h3]
    show goodVal (.str (trimJs v)) = true
    simp only [goodVal, Bool.and_eq_true]
    refine ⟨⟨⟨⟨?_, ?_⟩, ?_⟩, ?_⟩, ?_⟩
    · exact beq_iff_eq.mpr htr
    · apply List.all_eq_true.mpr
      intro ch hch
      simp only [Bool.not_eq_true']
      exact beq_eq_false_iff_ne.mpr (hnlt ch hch)
    · simp only [Bool.not_eq_true']
      exact beq_eq_false_iff_ne.mpr h1
    · simp only [Bool.not_eq_true']
      exact beq_eq_false_iff_ne.mpr h2
    · cases hb : isNumLit (trimJs v) with
      | false => rfl
      | true => exact absurd hb h3

theorem takeProps_cons_pm_some (lvl : Nat) (acc : Props) (l : Str) (t : List Str)
    (kv : Str × Str) (hc : ¬(countTabs l ≤ lvl ∧ ¬((trimJs l).isEmpty = true)))
    (hpm : propMatch (trimJs l) = some kv) :
    takeProps lvl acc (l :: t)
      = if lvl < countTabs l then
          takeProps lvl (setProp acc kv.1 (parsePropertyValue kv.2)) t
        else (acc, l :: t) := by
  rw [takeProps_cons, if_neg hc, hpm]

theorem setProp_inv (ps : Props) (k : Str) (v : PropVal)
    (hps : (∀ p ∈ ps, goodKey p.1 = true ∧ goodVal p.2 = true) ∧ (ps.map Prod.fst).Nodup)
    (hk : goodKey k = true) (hv : goodVal v = true) :
    (∀ p ∈ setProp ps k v, goodKey p.1 = true ∧ goodVal p.2 = true) ∧
      ((setProp ps k v).map Prod.fst).Nodup := by
  unfold setProp
  by_cases hany : ps.any (fun p => p.1 == k) = true
  · rw [if_pos hany]
    constructor
    · intro p hp
      obtain ⟨q, hq, hqe⟩ := List.mem_map.mp hp
      by_cases hqq : (q.1 == k) = true
      · rw [if_pos hqq] at hqe
        rw [← hqe]
        exact ⟨hk, hv⟩
      · rw [if_neg hqq] at hqe
        rw [← hqe]
        exact hps.1 q hq
    · have hmap : (ps.map (fun p => if p.1 == k then (k, v) else p)).map Prod.fst
          = ps.map Prod.fst := by
        rw [List.map_map]
        apply List.map_congr_left
        intro p hp
        by_cases hqq : (p.1 == k) = true
        · show (if p.1 == k then (k, v) else p).1 = p.1
          rw [if_pos hqq]
          exact (eq_of_beq hqq).symm
        · show (if p.1 == k then (k, v) else p).1 = p.1
          rw [if_neg hqq]
      rw [hmap]
      exact hps.2
  · rw [if_neg hany]
    constructor
    · intro p hp
      rcases List.mem_append.mp hp with hp1 | hp2
      · exact hps.1 p hp1
      · rcases List.mem_singleton.mp hp2 with rfl
        exact ⟨hk, hv⟩
    · rw [List.map_append, List.nodup_append]
      refine ⟨hps.2, List.nodup_singleton _, ?_⟩
      intro a ha hb
      have hak : a = k := by
        simp only [List.map_cons, List.map_nil, List.mem_singleton] at hb
        exact hb
      subst hak
      obtain ⟨q, hq, hqe⟩ := List.mem_map.mp ha
      exact hany (List.any_eq_true.mpr ⟨q, hq, beq_iff_eq.mpr hqe⟩)

theorem takeProps_inv (lvl : Nat) :
    ∀ (lines : List Str) (acc : Props),
      (∀ l ∈ lines, ∀ ch ∈ l, ¬(ch = '\n')) →
      ((∀ p ∈ acc, goodKey p.1 = true ∧ goodVal p.2 = true) ∧ (acc.map Prod.fst).Nodup) →
      (∀ p ∈ (takeProps lvl acc lines).1, goodKey p.1 = true ∧ goodVal p.2 = true) ∧
        (((takeProps lvl acc lines).1).map Prod.fst).Nodup := by
  intro lines
  induction lines with
  | nil => intro acc _ hacc; exact hacc
  | cons l t ih =>
    intro acc hnl hacc
    by_cases hc : countTabs l ≤ lvl ∧ ¬((trimJs l).isEmpty = true)
    · rw [takeProps_cons, if_pos hc]
      exact hacc
    · cases hpm : propMatch (trimJs l) with
      | none =>
        rw [takeProps_stop lvl acc l t hpm]
        exact hacc
      | some kv =>
        rw [takeProps_cons_pm_some lvl acc l t kv hc hpm]
        obtain ⟨hgk, hvmem⟩ := propMatch_good (trimJs l) kv.1 kv.2 hpm
        have hgv : goodVal (parsePropertyValue kv.2) = true :=
          parsePropertyValue_good kv.2 (fun ch hch =>
            hnl l (List.mem_cons_self l t) ch (mem_of_trimJs l ch (hvmem ch hch)))
        have hset := setProp_inv acc kv.1 (parsePropertyValue kv.2) hacc hgk hgv
        by_cases hlt : lvl < countTabs l
        · rw [if_pos hlt]
          exact ih (setProp acc kv.1 (parsePropertyValue kv.2))
            (fun l2 hl2 => hnl l2 (List.mem_cons_of_mem l hl2)) hset
        · rw [if_neg hlt]
          exact hacc

theorem takeProps_sub (lvl : Nat) : ∀ (lines : List Str) (acc : Props) (l2 : Str),
    l2 ∈ (takeProps lvl acc lines).2 → l2 ∈ lines := by
  intro lines
  induction lines with
  | nil => intro acc l2 h; exact h
  | cons l t ih =>
    intro acc l2 h
    by_cases hc : countTabs l ≤ lvl ∧ ¬((trimJs l).isEmpty = true)
    · rw [takeProps_cons, if_pos hc] at h
      exact h
    · cases hpm : propMatch (trimJs l) with
      | none =>
        rw [takeProps_stop lvl acc l t hpm] at h
        exact h
      | some kv =>
        rw [takeProps_cons_pm_some lvl acc l t kv hc hpm] at h
        by_cases hlt : lvl < countTabs l
        · rw [if_pos hlt] at h
          exact List.mem_cons_of_mem l
            (ih (setProp acc kv.1 (parsePropertyValue kv.2)) l2 h)
        · rw [if_neg hlt] at h
          exact h

/-- Every item the parser produces carries trimmed newline-free content and
well-formed properties with distinct keys. -/
theorem parseItems_good : ∀ (n : Nat) (lines : List Str), lines.length ≤ n →
    (∀ l ∈ lines, ∀ ch ∈ l, ¬(ch = '\n')) →
    ∀ it ∈ parseItemsF lines.length lines,
      trimJs it.content = it.content ∧ (∀ ch ∈ it.content, ¬(ch = '\n')) ∧
      (∀ p ∈ it.properties, goodKey p.1 = true ∧ goodVal p.2 = true) ∧
      (it.properties.map Prod.fst).Nodup := by
  intro n
  induction n with
  | zero =>
    intro lines h hnl it hit
    have hl : lines = [] := List.eq_nil_of_length_eq_zero (by omega)
    subst hl
    cases hit
  | succ n ih =>
    intro lines h hnl it hit
    cases lines with
    | nil => cases hit
    | cons l t =>
      simp only [List.length_cons] at h hit
      rw [parseItemsF_cons] at hit
      have htail : ∀ l2 ∈ t, ∀ ch ∈ l2, ¬(ch = '\n') :=
        fun l2 hl2 => hnl l2 (List.mem_cons_of_mem l hl2)
      cases hbm : bulletMatch l with
      | none =>
        rw [hbm] at hit
        exact ih t (by omega) htail it hit
      | some lc =>
        rw [hbm] at hit
        have hit2 : it ∈ (⟨lc.1, trimJs lc.2, (takeProps lc.1 [] t).1⟩ : RawItem)
            :: parseItemsF t.length (takeProps lc.1 [] t).2 := hit
        have hemp : (∀ p ∈ ([] : Props), goodKey p.1 = true ∧ goodVal p.2 = true) ∧
            (([] : Props).map Prod.fst).Nodup :=
          ⟨fun p hp => absurd hp (List.not_mem_nil p), List.nodup_nil⟩
        rcases List.mem_cons.mp hit2 with rfl | hit3
        · refine ⟨trimJs_idem2 lc.2, ?_, ?_, ?_⟩
          · intro ch hch
            exact hnl l (List.mem_cons_self l t) ch
              (bulletMatch_sub l lc hbm ch (mem_of_trimJs lc.2 ch hch))
          · exact (takeProps_inv lc.1 t [] htail hemp).1
          · exact (takeProps_inv lc.1 t [] htail hemp).2
        · have hlen := takeProps_len lc.1 t []
          rw [parseItemsF_mono t.length (takeProps lc.1 [] t).2 hlen
            t.length ((takeProps lc.1 [] t).2.length) hlen (Nat.le_refl _)] at hit3
          exact ih (takeProps lc.1 [] t).2 (by omega)
            (fun l2 hl2 => htail l2 (takeProps_sub lc.1 t [] l2 hl2)) it hit3

theorem goodL_append : ∀ as2 bs : List Block, goodL (as2 ++ bs) = (goodL as2 && goodL bs) := by
  intro as2 bs
  induction as2 with
  | nil => simp [goodL]
  | cons a as2 ih =>
    show (goodB a && goodL (as2 ++ bs)) = ((goodB a && goodL as2) && goodL bs)
    rw [ih, Bool.and_assoc]

theorem goodB_addChild (p c : Block) (hp : goodB p = true) (hc : goodB c = true) :
    goodB (addChild p c) = true := by
  cases p with
  | mk u ct lv ps ks pu =>
    rw [addChild_eq]
    simp only [goodB, Bool.and_eq_true] at hp ⊢
    refine ⟨hp.1, ?_⟩
    rw [goodL_append]
    simp only [Bool.and_eq_true]
    refine ⟨hp.2, ?_⟩
    show (goodB c && goodL []) = true
    rw [hc]
    rfl

theorem popCarry_good (level : Nat) :
    ∀ (stack : List Block) (c : Block) (roots : List Block),
      goodL stack = true → goodB c = true → goodL roots = true →
      goodL (popCarry level c stack roots).1 = true ∧
      goodL (popCarry level c stack roots).2 = true := by
  intro stack
  induction stack with
  | nil =>
    intro c roots hst hc hrt
    refine ⟨rfl, ?_⟩
    show goodL (roots ++ [c]) = true
    rw [goodL_append]
    simp only [Bool.and_eq_true]
    refine ⟨hrt, ?_⟩
    show (goodB c && goodL []) = true
    rw [hc]
    rfl
  | cons p ps ih =>
    intro c roots hst hc hrt
    have hst2 := goodL_cons.mp hst
    have hpc : goodB (addChild p c) = true := goodB_addChild p c hst2.1 hc
    rw [popCarry_cons]
    by_cases hcap : level ≤ (addChild p c).level
    · rw [if_pos hcap]
      exact ih (addChild p c) roots hst2.2 hpc hrt
    · rw [if_neg hcap]
      refine ⟨?_, hrt⟩
      show (goodB (addChild p c) && goodL ps) = true
      rw [hpc, hst2.2]
      rfl

theorem popGE_good (level : Nat) (stack roots : List Block)
    (hst : goodL stack = true) (hrt : goodL roots = true) :
    goodL (popGE level stack roots).1 = true ∧ goodL (popGE level stack roots).2 = true := by
  cases stack with
  | nil => exact ⟨rfl, hrt⟩
  | cons b rest =>
    have hst2 := goodL_cons.mp hst
    simp only [popGE]
    by_cases hcap : level ≤ b.level
    · rw [if_pos hcap]
      exact popCarry_good level rest b roots hst2.2 hst2.1 hrt
    · rw [if_neg hcap]
      exact ⟨hst, hrt⟩

theorem removeProp_goodProps (ps : Props)
    (hpairs : ∀ p ∈ ps, goodKey p.1 = true ∧ goodVal p.2 = true)
    (hnodup : (ps.map Prod.fst).Nodup) :
    goodProps (removeProp ps idKey) = true := by
  simp only [goodProps, Bool.and_eq_true]
  refine ⟨⟨?_, ?_⟩, ?_⟩
  · apply List.all_eq_true.mpr
    intro p hp
    have hmem : p ∈ ps := (List.mem_filter.mp hp).1
    obtain ⟨h1, h2⟩ := hpairs p hmem
    rw [h1, h2]
    rfl
  · cases hany : (removeProp ps idKey).any (fun p => p.1 == idKey) with
    | false => rfl
    | true =>
      exfalso
      obtain ⟨p, hp, hbeq⟩ := List.any_eq_true.mp hany
      have hcond := (List.mem_filter.mp hp).2
      rw [hbeq] at hcond
      exact absurd hcond (by decide)
  · apply decide_eq_true
    exact hnodup.sublist (List.Sublist.map Prod.fst (List.filter_sublist ps))

theorem buildStep_good (gen : Nat → Str) (hgen : ∀ m, uuidTestCI (gen m) = true)
    (st : BuildSt) (it : RawItem)
    (hst : goodL st.stack = true) (hrt : goodL st.roots = true)
    (hit : trimJs it.content = it.content ∧ (∀ ch ∈ it.content, ¬(ch = '\n')) ∧
      (∀ p ∈ it.properties, goodKey p.1 = true ∧ goodVal p.2 = true) ∧
      (it.properties.map Prod.fst).Nodup) :
    goodL (buildStep gen st it).stack = true ∧ goodL (buildStep gen st it).roots = true := by
  obtain ⟨hpg1, hpg2⟩ := popGE_good it.level st.stack st.roots hst hrt
  constructor
  · rw [buildStep_stack]
    apply goodL_cons.mpr
    refine ⟨?_, hpg1⟩
    simp only [goodB, Bool.and_eq_true]
    refine ⟨⟨⟨⟨?_, ?_⟩, ?_⟩, ?_⟩, rfl⟩
    · exact itemUuid_ok gen hgen st.counter it.properties
    · exact beq_iff_eq.mpr hit.1
    · apply List.all_eq_true.mpr
      intro ch hch
      simp only [Bool.not_eq_true']
      exact beq_eq_false_iff_ne.mpr (hit.2.1 ch hch)
    · exact removeProp_goodProps it.properties hit.2.2.1 hit.2.2.2
  · rw [buildStep_roots]
    exact hpg2

theorem foldl_buildStep_good (gen : Nat → Str) (hgen : ∀ m, uuidTestCI (gen m) = true) :
    ∀ (items : List RawItem) (st : BuildSt),
      (∀ it ∈ items, trimJs it.content = it.content ∧ (∀ ch ∈ it.content, ¬(ch = '\n')) ∧
        (∀ p ∈ it.properties, goodKey p.1 = true ∧ goodVal p.2 = true) ∧
        (it.properties.map Prod.fst).Nodup) →
      goodL st.stack = true → goodL st.roots = true →
      goodL ((items.foldl (buildStep gen) st)).stack = true ∧
      goodL ((items.foldl (buildStep gen) st)).roots = true := by
  intro items
  induction items with
  | nil => intro st _ h1 h2; exact ⟨h1, h2⟩
  | cons it items ih =>
    intro st hits h1 h2
    obtain ⟨h1b, h2b⟩ := buildStep_good gen hgen st it h1 h2
      (hits it (List.mem_cons_self it items))
    exact ih (buildStep gen st it) (fun x hx => hits x (List.mem_cons_of_mem it hx)) h1b h2b

/-- Every forest parseBlocks produces satisfies the shape invariants the
serializer relies on, as long as the generator draws valid uuids. -/
theorem parseBlocks_good (gen : Nat → Str) (s : Str)
    (hgen : ∀ m, uuidTestCI (gen m) = true) : goodL (parseBlocks gen s) = true := by
  have hitems : ∀ it ∈ parseItems (splitNl s),
      trimJs it.content = it.content ∧ (∀ ch ∈ it.content, ¬(ch = '\n')) ∧
      (∀ p ∈ it.properties, goodKey p.1 = true ∧ goodVal p.2 = true) ∧
      (it.properties.map Prod.fst).Nodup :=
    fun it hit => parseItems_good (splitNl s).length (splitNl s) (Nat.le_refl _)
      (fun l hl => splitNl_pieces s l hl) it hit
  obtain ⟨hfs, hfr⟩ := foldl_buildStep_good gen hgen (parseItems (splitNl s))
    ⟨[], [], 0⟩ hitems rfl rfl
  exact (popGE_good 0 ((parseItems (splitNl s)).foldl (buildStep gen) ⟨[], [], 0⟩).stack
    ((parseItems (splitNl s)).foldl (buildStep gen) ⟨[], [], 0⟩).roots hfs hfr).2

theorem goodVal_nlfree (v : PropVal) (hv : goodVal v = true) :
    ∀ ch ∈ showPropVal v, ¬(ch = '\n') := by
  cases v with
  | str s =>
    intro ch hch hnl
    simp only [goodVal, Bool.and_eq_true] at hv
    have := List.all_eq_true.mp hv.1.1.1.2 ch hch
    rw [hnl] at this
    exact absurd this (by decide)
  | num s =>
    intro ch hch hnl
    simp only [goodVal, Bool.and_eq_true] at hv
    have := List.all_eq_true.mp hv.1.2 ch hch
    rw [hnl] at this
    exact absurd this (by decide)
  | bool b =>
    intro ch hch hnl
    subst hnl
    cases b
    · exact absurd hch (by decide)
    · exact absurd hch (by decide)

theorem tabs_nlfree (d : Nat) : ∀ ch ∈ tabs d, ¬(ch = '\n') := by
  intro ch hch
  have : ch = '\t' := (List.eq_of_mem_replicate hch)
  rw [this]
  decide

theorem propLine_nlfree (k : Str) (v : PropVal) (hk : goodKey k = true)
    (hv : goodVal v = true) : ∀ ch ∈ propLine k v, ¬(ch = '\n') := by
  intro ch hch
  rcases List.mem_append.mp hch with hk2 | hrest
  · simp only [goodKey, Bool.and_eq_true] at hk
    have := List.all_eq_true.mp hk.2 ch hk2
    intro hnl
    rw [hnl] at this
    exact absurd this (by decide)
  · rcases List.mem_cons.mp hrest with rfl | hrest
    · decide
    rcases List.mem_cons.mp hrest with rfl | hrest
    · decide
    rcases List.mem_cons.mp hrest with rfl | hrest
    · decide
    · exact goodVal_nlfree v hv ch hrest

/-- No serialized line contains a newline: splitting the joined text
recovers the lines. -/
theorem serLines_nlfree : ∀ (n : Nat) (F : List Block) (d : Nat),
    (serLinesList F d).length ≤ n → goodL F = true →
    ∀ l ∈ serLinesList F d, ∀ ch ∈ l, ¬(ch = '\n') := by
  intro n
  induction n with
  | zero =>
    intro F d hn hg l hl
    cases F with
    | nil => cases hl
    | cons b bs =>
      exfalso
      cases b with
      | mk u c lv ps ks pu =>
        obtain ⟨t0, ht0⟩ := serLines_head_eq u c lv ps ks pu d
        rw [serLinesList_cons, ht0] at hn
        simp at hn
  | succ n ih =>
    intro F d hn hg l hl
    cases F with
    | nil => cases hl
    | cons b bs =>
      cases b with
      | mk u c lv ps ks pu =>
        obtain ⟨hgb, hgbs⟩ := goodL_cons.mp hg
        obtain ⟨huu, htc, hcnl, hgp, hgks⟩ := goodB_parts hgb
        obtain ⟨hpairs, hnd⟩ := goodProps_parts hgp
        have hu : u.isEmpty = false := uuid_nonempty huu
        rw [serLinesList_cons, serLines_mk u c lv ps ks pu d hu] at hn hl
        simp only [List.length_cons, List.length_append] at hn
        rcases List.mem_append.mp hl with hl1 | hl4
        rcases List.mem_cons.mp hl1 with rfl | hl2
        · intro ch hch
          rcases List.mem_append.mp hch with hc1 | hc2
          · exact tabs_nlfree d ch hc1
          rcases List.mem_cons.mp hc2 with rfl | hc3
          · decide
          rcases List.mem_cons.mp hc3 with rfl | hc4
          · decide
          · rw [htc] at hc4
            exact fun hnl2 => hcnl ch hc4 hnl2
        · rcases List.mem_append.mp hl2 with hpl | hsk
          · obtain ⟨p, hp, rfl⟩ := List.mem_map.mp hpl
            intro ch hch
            rcases List.mem_append.mp hch with hc1 | hc2
            · exact tabs_nlfree (d + 1) ch hc1
            · have hpkv : goodKey p.1 = true ∧ goodVal p.2 = true := by
                rcases List.mem_cons.mp hp with rfl | hp2
                · exact ⟨(by decide : goodKey idKey = true), uuidStr_goodVal huu⟩
                · exact hpairs p hp2
              exact propLine_nlfree p.1 p.2 hpkv.1 hpkv.2 ch hc2
          · exact ih ks (d + 1) (by omega) hgks l hsk
        · exact ih bs d (by omega) hgbs l hl4

/-- Reparsing the serialized text of a well-formed forest yields exactly
its canonical items. -/
theorem serializeBlocks_reparse (F : List Block) (hg : goodL F = true) :
    parseItems (splitNl (serializeBlocks F)) = canonItemsL F 0 := by
  cases F with
  | nil => rfl
  | cons b bs =>
    have hne : serLinesList (b :: bs) 0 ≠ [] := by
      cases b with
      | mk u c lv ps ks pu =>
        obtain ⟨t0, ht0⟩ := serLines_head_eq u c lv ps ks pu 0
        rw [serLinesList_cons, ht0]
        simp
    have hnl : ∀ l ∈ serLinesList (b :: bs) 0, ∀ ch ∈ l, ¬(ch = '\n') :=
      serLines_nlfree (serLinesList (b :: bs) 0).length (b :: bs) 0 (Nat.le_refl _) hg
    show parseItems (splitNl (joinNl (serLinesList (b :: bs) 0))) = _
    rw [splitNl_joinNl (serLinesList (b :: bs) 0) hne hnl]
    have hps := parse_serList (serLinesList (b :: bs) 0).length (b :: bs) 0 []
      (Nat.le_refl _) hg (fun h t heq => nomatch heq)
    rw [List.append_nil] at hps
    rw [hps, show parseItems ([] : List Str) = [] from rfl, List.append_nil]

theorem depthDataL_cons (b : Block) (bs : List Block) (d : Nat) :
    depthDataL (b :: bs) d = depthData b d ++ depthDataL bs d := rfl

theorem depthData_mk (u c : Str) (lv : Nat) (ps : Props) (ks : List Block)
    (pu : Option Str) (d : Nat) :
    depthData (.mk u c lv ps ks pu) d = ⟨u, c, d, ps⟩ :: depthDataL ks (d + 1) := rfl

theorem getProp_cons_self (k : Str) (v : PropVal) (ps : Props) :
    getProp ((k, v) :: ps) k = some v := by
  unfold getProp
  rw [List.find?_cons_of_pos _ (by simp)]
  rfl

theorem itemUuid_canon (gen : Nat → Str) (n : Nat) (u : Str) (ps : Props)
    (huu : uuidTestCI u = true) :
    itemUuid gen n ((idKey, PropVal.str u) :: ps) = (u, n) := by
  unfold itemUuid
  rw [getProp_cons_self]
  show (if uuidTestCI u = true then (u, n) else (gen n, n + 1)) = (u, n)
  rw [if_pos huu]

theorem removeProp_canon (u : Str) (ps : Props)
    (hnd : (idKey :: ps.map Prod.fst).Nodup) :
    removeProp ((idKey, PropVal.str u) :: ps) idKey = ps := by
  have hnotin : idKey ∉ ps.map Prod.fst := (List.nodup_cons.mp hnd).1
  show ((idKey, PropVal.str u) :: ps).filter (fun p => !(p.1 == idKey)) = ps
  rw [List.filter_cons]
  rw [if_neg (by simp)]
  apply List.filter_eq_self.mpr
  intro p hp
  have hne : p.1 ≠ idKey := by
    intro he
    exact hnotin (he ▸ List.mem_map_of_mem Prod.fst hp)
  simp [beq_eq_false_iff_ne.mpr hne]

/-- The annotated data of the canonical items of a well-formed forest: all
identifiers are adopted, the generator never advances, and the data is the
depth-annotated pre-order data of the forest. -/
theorem annot_canon (gen : Nat → Str) : ∀ (nm : Nat) (F : List Block) (d : Nat)
    (restI : List RawItem) (n : Nat),
    (canonItemsL F d).length ≤ nm → goodL F = true →
    annotItems gen n (canonItemsL F d ++ restI)
      = depthDataL F d ++ annotItems gen n restI := by
  intro nm
  induction nm with
  | zero =>
    intro F d restI n hn hg
    cases F with
    | nil => rfl
    | cons b bs =>
      exfalso
      cases b with
      | mk u c lv ps ks pu =>
        rw [canonItemsL_cons, canonItems_mk] at hn
        simp at hn
  | succ nm ih =>
    intro F d restI n hn hg
    cases F with
    | nil => rfl
    | cons b bs =>
      cases b with
      | mk u c lv ps ks pu =>
        obtain ⟨hgb, hgbs⟩ := goodL_cons.mp hg
        obtain ⟨huu, htc, hcnl, hgp, hgks⟩ := goodB_parts hgb
        obtain ⟨hpairs, hnd⟩ := goodProps_parts hgp
        rw [canonItemsL_cons, canonItems_mk] at hn ⊢
        rw [depthDataL_cons, depthData_mk]
        simp only [List.length_cons, List.length_append] at hn
        simp only [List.cons_append, List.append_assoc]
        rw [annotItems_cons]
        show (⟨(itemUuid gen n ((idKey, PropVal.str u) :: ps)).1, c, d,
            removeProp ((idKey, PropVal.str u) :: ps) idKey⟩ : BData)
            :: annotItems gen (itemUuid gen n ((idKey, PropVal.str u) :: ps)).2
              (canonItemsL ks (d + 1) ++ (canonItemsL bs d ++ restI))
          = _
        rw [itemUuid_canon gen n u ps huu, removeProp_canon u ps hnd]
        rw [ih ks (d + 1) (canonItemsL bs d ++ restI) n (by omega) hgks]
        rw [ih bs d restI n (by omega) hgbs]

/-- The pre-order data of the reparse of a serialized well-formed forest:
contents, uuids and properties are preserved; the stored levels are
replaced by the recursion depth. -/
theorem reparse_data (gen : Nat → Str) (F : List Block) (hg : goodL F = true) :
    (flattenBlocks (parseBlocks gen (serializeBlocks F))).map blockData
      = depthDataL F 0 := by
  rw [flatten_parse, serializeBlocks_reparse F hg]
  have hac := annot_canon gen (canonItemsL F 0).length F 0 [] 0 (Nat.le_refl _) hg
  rw [List.append_nil] at hac
  rw [hac, show annotItems gen 0 ([] : List RawItem) = [] from rfl, List.append_nil]

/-- C1 (amended): the serialize/reparse round trip. (1) Every forest
parseBlocks produces satisfies the shape invariant goodL (valid uuid,
trimmed newline-free content, well-formed distinct-keyed properties),
whenever the generator draws valid uuids. (2) For every goodL forest, the
serialized text parses back into one item per block in pre-order whose
level is the RECURSION DEPTH — not the stored level, which serializeBlocks
ignores, so depths are not preserved for forests with level jumps (see the
counterexample) — whose content is the stored content verbatim, and whose
property list is the id property carrying the block's in-memory uuid
followed by the stored properties. (3) Consequently the reparsed forest's
pre-order (uuid, content, level, properties) data is the original data
with levels replaced by tree depth: contents, uuids (the id property of
the regenerated text) and properties are preserved exactly, and the
forests agree completely whenever the original levels already equal the
tree depth. -/
theorem serialize_reparse_roundtrip :
    (∀ (gen : Nat → Str) (s : Str), (∀ m, uuidTestCI (gen m) = true) →
      goodL (parseBlocks gen s) = true) ∧
    (∀ F : List Block, goodL F = true →
      parseItems (splitNl (serializeBlocks F)) = canonItemsL F 0) ∧
    (∀ (gen : Nat → Str) (F : List Block), goodL F = true →
      (flattenBlocks (parseBlocks gen (serializeBlocks F))).map blockData
        = depthDataL F 0) :=
  ⟨fun gen s hgen => parseBlocks_good gen s hgen,
   serializeBlocks_reparse,
   reparse_data⟩

theorem serialize_reparse_roundtrip_witness :
    goodL (parseBlocks genDefault ("- x\n\t- y".toList)) = true ∧
    parseItems (splitNl (serializeBlocks ([Block.mk ("11111111-1111-1111-1111-111111111111".toList) ("a".toList) 7 [("k".toList, PropVal.str ("v".toList))] [Block.mk ("22222222-2222-2222-2222-222222222222".toList) ("b".toList) 9 [] [] (some ("11111111-1111-1111-1111-111111111111".toList))] none])))
      = canonItemsL ([Block.mk ("11111111-1111-1111-1111-111111111111".toList) ("a".toList) 7 [("k".toList, PropVal.str ("v".toList))] [Block.mk ("22222222-2222-2222-2222-222222222222".toList) ("b".toList) 9 [] [] (some ("11111111-1111-1111-1111-111111111111".toList))] none]) 0 ∧
    (flattenBlocks (parseBlocks genDefault (serializeBlocks ([Block.mk ("11111111-1111-1111-1111-111111111111".toList) ("a".toList) 7 [("k".toList, PropVal.str ("v".toList))] [Block.mk ("22222222-2222-2222-2222-222222222222".toList) ("b".toList) 9 [] [] (some ("11111111-1111-1111-1111-111111111111".toList))] none])))).map blockData
      = depthDataL ([Block.mk ("11111111-1111-1111-1111-111111111111".toList) ("a".toList) 7 [("k".toList, PropVal.str ("v".toList))] [Block.mk ("22222222-2222-2222-2222-222222222222".toList) ("b".toList) 9 [] [] (some ("11111111-1111-1111-1111-111111111111".toList))] none]) 0 :=
  ⟨serialize_reparse_roundtrip.1 genDefault ("- x\n\t- y".toList)
    (fun _ => (by decide : uuidTestCI ("00000000-0000-4000-8000-000000000000".toList) = true)),
   serialize_reparse_roundtrip.2.1 ([Block.mk ("11111111-1111-1111-1111-111111111111".toList) ("a".toList) 7 [("k".toList, PropVal.str ("v".toList))] [Block.mk ("22222222-2222-2222-2222-222222222222".toList) ("b".toList) 9 [] [] (some ("11111111-1111-1111-1111-111111111111".toList))] none]) (by decide),
   serialize_reparse_roundtrip.2.2 genDefault ([Block.mk ("11111111-1111-1111-1111-111111111111".toList) ("a".toList) 7 [("k".toList, PropVal.str ("v".toList))] [Block.mk ("22222222-2222-2222-2222-222222222222".toList) ("b".toList) 9 [] [] (some ("11111111-1111-1111-1111-111111111111".toList))] none]) (by decide)⟩

end McpLogseq
